import Mathlib

/-!
# Verification development for `expreduce`

A shallow embedding of `src/cas.go` (the utility functions `CommutativeIsEqual`,
`FunctionIsEqual`, `FunctionIsSameQ`, `IterableReplace`, `permutations`, `CommutativeReplace`,
namespace `Cas`) and of `src/expreduce/atoms/ex_expression.go` (the constructors, the mutating
methods, `HeadAssertion`, `HeadStr`, `PropagateConditionals`, `IsEqual`, `DeepCopy`,
`ShallowCopy`, `Copy` and `Hash` of `Expression`, namespace `Atoms`), followed by theorems
about them.

Conventions of the embedding.

* Go slices of `Ex` are Lean lists; `append(s[:i], s[i+1:]...)` is `take i ++ drop (i+1)`.
* Go `int` values stored in slices are `Int` (the values that occur are positions and counters
  bounded by the length of a slice, so 64-bit overflow does not arise); an index expression
  `xs[e]` is `getI xs e`, which is `none` when the index is out of range (a run-time panic).
* A function whose Go body can panic or loop returns an `Option`; `none` means that the call
  did not return normally.  The unbounded loop `for n > 0` of `permutations` takes a `fuel`
  argument, and `none` is also returned when the fuel is used up.
* A loop `for i := range xs` runs `len(xs)` times, the length being read once before the loop;
  it is a recursion on the number of iterations left, or on the list when the list is not
  changed by the body.
* The interface methods `IsEqual`, `IsSameQ`, `IsMatchQ`, `DeepCopy` of `Ex` have no
  implementation in `cas.go`; they are parameters of the functions that call them (`es` is the
  `*EvalState`).  In `ex_expression.go` the values of the interface are expressions or atoms,
  and the methods `IsEqual`, `DeepCopy`, `Copy` and `Hash` of the atoms are parameters, as is
  the name of an atom that is a `*Symbol`.
* A value of type `Atoms.Ex Atom` is a non-nil value of the interface `Ex`, and so are its
  parts at every depth.  Where the code makes nil interface values (`make([]Ex, n)`), a value
  that may be nil is an `Option (Atoms.Ex Atom)`, `none` being nil, and a method call on nil is
  a panic.
* A method with a pointer receiver that changes the expression returns the changed expression;
  `Hash`, which returns a value and fills a cache, returns both.
* The verdicts of `IsEqual` are the Go strings `"EQUAL_TRUE"`, `"EQUAL_FALSE"`, `"EQUAL_UNK"`.
-/

namespace Cas

/-! ## Slices of `int` -/

/-- Read `xs[i]`; `none` is the index-out-of-range panic. -/
def getI (xs : List Int) (i : Int) : Option Int :=
  if 0 ≤ i then xs[i.toNat]? else none

/-- Assign `xs[i] = v`; `none` is the index-out-of-range panic. -/
def setI (xs : List Int) (i : Int) (v : Int) : Option (List Int) :=
  if 0 ≤ i ∧ i.toNat < xs.length then some (xs.set i.toNat v) else none

/-! ## `permutations` (cas.go, lines 100-162) -/

/-- The local variables of `permutations` that the main loop changes. -/
structure PermState where
  indices : List Int
  cycles : List Int
  result : List Int
  res : List (List Int)
deriving DecidableEq, Repr

/-- The loop `for j := i; j < n-1; j += 1 { indices[j] = indices[j+1] }`; the first argument
counts the iterations that are left, `j` is the loop variable. -/
def rotateLoop : Nat → Int → List Int → Option (List Int)
  | 0, _, indices => some indices
  | k + 1, j, indices => do
    let v ← getI indices (j + 1)
    let indices1 ← setI indices j v
    rotateLoop k (j + 1) indices1

/-- The loop `for k := i; k < r; k += 1 { result[k] = pool[indices[k]] }`; the first argument
counts the iterations that are left, `k` is the loop variable. -/
def fillLoop (pool indices : List Int) : Nat → Int → List Int → Option (List Int)
  | 0, _, result => some result
  | c + 1, k, result => do
    let el ← getI indices k
    let v ← getI pool el
    let result1 ← setI result k v
    fillLoop pool indices c (k + 1) result1

/-- The loop `for ; i >= 0; i -= 1 { ... }` of `permutations`.  The first argument is `i + 1`
(so `0` is the exit of the loop with `i < 0`).  The Boolean of the outcome is `true` when the
loop was left through `break` (then `i >= 0`) and `false` when it ran to its end (`i < 0`). -/
def innerLoop (pool : List Int) (n r : Int) : Nat → PermState → Option (Bool × PermState)
  | 0, st => some (false, st)
  | i + 1, st => do
    let ci ← getI st.cycles i
    let cycles1 ← setI st.cycles i (ci - 1)
    if ci - 1 = 0 then
      let index ← getI st.indices i
      let indices1 ← rotateLoop (n - 1 - i).toNat i st.indices
      let indices2 ← setI indices1 (n - 1) index
      let cycles2 ← setI cycles1 i (n - i)
      innerLoop pool n r i { st with indices := indices2, cycles := cycles2 }
    else
      let j := ci - 1
      let a ← getI st.indices i
      let b ← getI st.indices (n - j)
      let indices1 ← setI st.indices i b
      let indices2 ← setI indices1 (n - j) a
      let result1 ← fillLoop pool indices2 (r - i).toNat i st.result
      some (true, { indices := indices2, cycles := cycles1, result := result1,
                    res := st.res ++ [result1] })

/-- The loop `for n > 0 { ... }` of `permutations`, with fuel. -/
def outerLoop (pool : List Int) (n r : Int) : Nat → PermState → Option (List (List Int))
  | 0, _ => none
  | fuel + 1, st =>
    if n > 0 then do
      let (broke, st1) ← innerLoop pool n r r.toNat st
      if broke then outerLoop pool n r fuel st1 else some st1.res
    else some st.res

/-- The loop `for i, el := range indices[:r] { result[i] = pool[el] }`. -/
def initResult (pool : List Int) : List Int → Option (List Int)
  | [] => some []
  | el :: rest => do
    let v ← getI pool el
    let tail ← initResult pool rest
    some (v :: tail)

/-- Go `permutations(iterable, r)`. -/
def permutations (fuel : Nat) (iterable : List Int) (r : Int) : Option (List (List Int)) :=
  let pool := iterable
  let n : Int := pool.length
  if r > n then some []
  else if r < 0 then none
  else do
    let indices : List Int := (List.range pool.length).map Int.ofNat
    let cycles : List Int := (List.range r.toNat).map (fun (i : Nat) => n - (i : Int))
    let result ← initResult pool (indices.take r.toNat)
    outerLoop pool n r fuel { indices := indices, cycles := cycles, result := result,
                              res := [result] }

/-! ## `CommutativeReplace` (cas.go, lines 164-216) -/

section Replace

variable {Ex σ : Type}

/-- The slice `append(c[:i], c[i+1:]...)`. -/
def removeAt (c : List Ex) (i : Nat) : List Ex := c.take i ++ c.drop (i + 1)

/-- The slice `append(c[:i], append([]Ex{popped}, c[i:]...)...)`. -/
def insertAt (c : List Ex) (i : Nat) (popped : Ex) : List Ex :=
  c.take i ++ ([popped] ++ c.drop i)

/-- The loop `for j := range *components` inside a scan: `pat` is the pattern component that
is looked for.  The first argument counts the iterations that are left.  Outcome `none`: panic;
`some none`: the loop ended; `some (some c1)`: the function returned with the list `c1`. -/
def scanInner (isMatchQ : Ex → Ex → σ → Bool) (es : σ) (pat rhs : Ex) (c : List Ex) :
    Nat → Nat → Option (Option (List Ex))
  | 0, _ => some none
  | k + 1, j =>
    match c.get? j with
    | none => none
    | some e =>
      if isMatchQ e pat es then some (some (removeAt c j ++ [rhs]))
      else scanInner isMatchQ es pat rhs c k (j + 1)

/-- The loop `for i := range *components` of a scan: pick an element that matches `first`,
then look for another one that matches `second`.  The first argument counts the iterations
that are left (the range expression is evaluated once, before the loop).  The Boolean of the
outcome tells whether the function returned from inside the loop. -/
def scanOuter (isMatchQ : Ex → Ex → σ → Bool) (es : σ) (first second rhs : Ex) :
    Nat → Nat → List Ex → Option (Bool × List Ex)
  | 0, _, c => some (false, c)
  | k + 1, i, c =>
    match c.get? i with
    | none => none
    | some e =>
      if isMatchQ e first es then
        let popped := e
        let c1 := removeAt c i
        match scanInner isMatchQ es second rhs c1 c1.length 0 with
        | none => none
        | some (some c2) => some (true, c2)
        | some none => scanOuter isMatchQ es first second rhs k (i + 1) (insertAt c1 i popped)
      else scanOuter isMatchQ es first second rhs k (i + 1) c

/-- The body of `if len(lhs_components) == 2 { ... }`: the two scans. -/
def replaceTwo (isMatchQ : Ex → Ex → σ → Bool) (es : σ) (p0 p1 rhs : Ex) (c : List Ex) :
    Option (List Ex) :=
  match scanOuter isMatchQ es p0 p1 rhs c.length 0 c with
  | none => none
  | some (true, c1) => some c1
  | some (false, c1) =>
    match scanOuter isMatchQ es p1 p0 rhs c1.length 0 c1 with
    | none => none
    | some (_, c2) => some c2

/-- Go `CommutativeReplace(components, lhs_components, rhs, es)`.  The outcome is the value
printed by `fmt.Println(perms)` and the list `*components` after the call. -/
def CommutativeReplace (fuel : Nat) (isMatchQ : Ex → Ex → σ → Bool) (components : List Ex)
    (lhs_components : List Ex) (rhs : Ex) (es : σ) : Option (List (List Int) × List Ex) := do
  let toPermute : List Int := (List.range lhs_components.length).map Int.ofNat
  let perms ← permutations fuel toPermute lhs_components.length
  match lhs_components with
  | [p0, p1] =>
    let c1 ← replaceTwo isMatchQ es p0 p1 rhs components
    some (perms, c1)
  | _ => some (perms, components)

end Replace

/-! ## Comparison and replacement of argument lists (cas.go, lines 31-98) -/

section Lists

variable {Ex σ : Type}

/-- The Go struct `Rule`: a pattern `Lhs` and a replacement `Rhs`. -/
structure Rule (Ex : Type) where
  Lhs : Ex
  Rhs : Ex

/-- The loop `for j, e2 := range other_components` of `CommutativeIsEqual`, for one `e1`.
`j` is the index of the head of the list that is still to be scanned, `matched` the map of the
taken positions.  The outcome is `foundmatch` and `matched` after the loop. -/
def commutativeInner (isEqual : Ex → Ex → σ → String) (es : σ) (e1 : Ex) :
    List Ex → Nat → List Nat → Bool × List Nat
  | [], _, matched => (false, matched)
  | e2 :: rest, j, matched =>
    if j ∈ matched then commutativeInner isEqual es e1 rest (j + 1) matched
    else
      let res := isEqual e1 e2 es
      if res = "EQUAL_FALSE" then commutativeInner isEqual es e1 rest (j + 1) matched
      else if res = "EQUAL_TRUE" then (true, j :: matched)
      else if res = "EQUAL_UNK" then commutativeInner isEqual es e1 rest (j + 1) matched
      else commutativeInner isEqual es e1 rest (j + 1) matched

/-- The loop `for _, e1 := range components` of `CommutativeIsEqual`. -/
def commutativeOuter (isEqual : Ex → Ex → σ → String) (es : σ) (other_components : List Ex) :
    List Ex → List Nat → String
  | [], _ => "EQUAL_TRUE"
  | e1 :: rest, matched =>
    match commutativeInner isEqual es e1 other_components 0 matched with
    | (false, _) => "EQUAL_UNK"
    | (true, matched1) => commutativeOuter isEqual es other_components rest matched1

/-- Go `CommutativeIsEqual(components, other_components, es)`. -/
def CommutativeIsEqual (isEqual : Ex → Ex → σ → String) (components other_components : List Ex)
    (es : σ) : String :=
  if components.length ≠ other_components.length then "EQUAL_FALSE"
  else commutativeOuter isEqual es other_components components []

/-- The loop `for i := range components` of `FunctionIsEqual`: the first list is what is left
of `components`, `i` the index of its head.  `none` is the index-out-of-range panic of
`other_components[i]`. -/
def functionLoop (isEqual : Ex → Ex → σ → String) (es : σ) (other_components : List Ex) :
    List Ex → Nat → Option String
  | [], _ => some "EQUAL_TRUE"
  | e1 :: rest, i =>
    match other_components.get? i with
    | none => none
    | some e2 =>
      let res := isEqual e1 e2 es
      if res = "EQUAL_FALSE" then some "EQUAL_UNK"
      else if res = "EQUAL_TRUE" then functionLoop isEqual es other_components rest (i + 1)
      else if res = "EQUAL_UNK" then some "EQUAL_UNK"
      else functionLoop isEqual es other_components rest (i + 1)

/-- Go `FunctionIsEqual(components, other_components, es)`. -/
def FunctionIsEqual (isEqual : Ex → Ex → σ → String) (components other_components : List Ex)
    (es : σ) : Option String :=
  if components.length ≠ other_components.length then some "EQUAL_FALSE"
  else functionLoop isEqual es other_components components 0

/-- The loop `for i := range components` of `FunctionIsSameQ`: the first list is what is left
of `components`, `i` the index of its head.  `none` is the index-out-of-range panic of
`other_components[i]`. -/
def sameQLoop (isSameQ : Ex → Ex → σ → Bool) (es : σ) (other_components : List Ex) :
    List Ex → Nat → Option Bool
  | [], _ => some true
  | e1 :: rest, i =>
    match other_components.get? i with
    | none => none
    | some e2 =>
      let res := isSameQ e1 e2 es
      if !res then some false
      else sameQLoop isSameQ es other_components rest (i + 1)

/-- Go `FunctionIsSameQ(components, other_components, es)`. -/
def FunctionIsSameQ (isSameQ : Ex → Ex → σ → Bool) (components other_components : List Ex)
    (es : σ) : Option Bool :=
  if components.length ≠ other_components.length then some false
  else sameQLoop isSameQ es other_components components 0

/-- The loop `for i := range *components` of `IterableReplace`; the first argument counts the
iterations that are left. -/
def iterableLoop (isMatchQ : Ex → Ex → σ → Bool) (deepCopy : Ex → Ex) (r : Rule Ex) (es : σ) :
    Nat → Nat → List Ex → Option (List Ex)
  | 0, _, components => some components
  | k + 1, i, components =>
    match components.get? i with
    | none => none
    | some e =>
      if isMatchQ e r.Lhs es then
        iterableLoop isMatchQ deepCopy r es k (i + 1) (components.set i (deepCopy r.Rhs))
      else iterableLoop isMatchQ deepCopy r es k (i + 1) components

/-- Go `IterableReplace(components, r, es)`; the outcome is `*components` after the call. -/
def IterableReplace (isMatchQ : Ex → Ex → σ → Bool) (deepCopy : Ex → Ex) (components : List Ex)
    (r : Rule Ex) (es : σ) : Option (List Ex) :=
  iterableLoop isMatchQ deepCopy r es components.length 0 components

end Lists

end Cas

/-! ## Expressions (ex_expression.go) -/

namespace Atoms

/-- The Go struct `Expression`, over the type `E` of its parts.  The two hash fields hold
`uint64` values. -/
structure ExpressionOf (E : Type) where
  Parts : List E
  needsEval : Bool
  correctlyInstantiated : Bool
  EvaledHash : Nat
  CachedHash : Nat

/-- The values of the interface `expreduceapi.Ex`: an `*Expression`, or an atom (`*Symbol`
and the other leaf types, which are not part of these sources). -/
inductive Ex (Atom : Type) where
  | atom (a : Atom)
  | expr (e : ExpressionOf (Ex Atom))

/-- The Go type `Expression`. -/
abbrev Expression (Atom : Type) := ExpressionOf (Ex Atom)

mutual

/-- The interface call `a.IsEqual(b)`: the method of the atom (a parameter), or
`Expression.IsEqual`.  `none` is a run-time panic. -/
def Ex.IsEqual {Atom : Type} (atomIsEqual : Atom → Ex Atom → String) :
    Ex Atom → Ex Atom → Option String
  | .atom a, otherEx => some (atomIsEqual a otherEx)
  | .expr thisExpr, otherEx => Expression.IsEqual atomIsEqual thisExpr otherEx

/-- Go `(thisExpr *Expression) IsEqual(otherEx)`. -/
def Expression.IsEqual {Atom : Type} (atomIsEqual : Atom → Ex Atom → String) :
    Expression Atom → Ex Atom → Option String
  | ⟨parts, _, _, _, _⟩, otherEx =>
    match otherEx with
    | .atom _ => some "EQUAL_UNK"
    | .expr other =>
      if parts.length ≠ other.Parts.length then some "EQUAL_UNK"
      else isEqualLoop atomIsEqual other.Parts parts 0

/-- The loop `for i := range thisExpr.GetParts()` of `Expression.IsEqual`: the second list is
what is left of the parts of `thisExpr`, `i` the index of its head. -/
def isEqualLoop {Atom : Type} (atomIsEqual : Atom → Ex Atom → String)
    (otherParts : List (Ex Atom)) : List (Ex Atom) → Nat → Option String
  | [], _ => some "EQUAL_TRUE"
  | e1 :: rest, i =>
    match otherParts.get? i with
    | none => none
    | some e2 =>
      match Ex.IsEqual atomIsEqual e1 e2 with
      | none => none
      | some res =>
        if res = "EQUAL_FALSE" then some "EQUAL_UNK"
        else if res = "EQUAL_TRUE" then isEqualLoop atomIsEqual otherParts rest (i + 1)
        else if res = "EQUAL_UNK" then some "EQUAL_UNK"
        else isEqualLoop atomIsEqual otherParts rest (i + 1)

end

/-! ### Construction and mutation (ex_expression.go, lines 197-223 and 248-290)

A method with a pointer receiver that changes the expression returns the changed
expression. -/

/-- Read `xs[i]` for a Go `int` index; `none` is the index-out-of-range panic. -/
def getIdx {α : Type} (xs : List α) (i : Int) : Option α :=
  if 0 ≤ i then xs.get? i.toNat else none

/-- Assign `xs[i] = v` for a Go `int` index; `none` is the index-out-of-range panic. -/
def setIdx {α : Type} (xs : List α) (i : Int) (v : α) : Option (List α) :=
  if 0 ≤ i ∧ i.toNat < xs.length then some (xs.set i.toNat v) else none

/-- Go `NewExpression(parts)`; the two hash fields get their zero value. -/
def NewExpression {Atom : Type} (parts : List (Ex Atom)) : Expression Atom :=
  { Parts := parts, needsEval := true, correctlyInstantiated := true,
    EvaledHash := 0, CachedHash := 0 }

/-- Go `E(parts...)`. -/
def E {Atom : Type} (parts : List (Ex Atom)) : Expression Atom :=
  NewExpression parts

/-- Go `NewHead(head)`.  `NewSymbol` is not part of these sources; it is a parameter. -/
def NewHead {Atom : Type} (NewSymbol : String → Ex Atom) (head : String) : Expression Atom :=
  NewExpression [NewSymbol head]

/-- Go `NewEmptyExpression()`: `Parts` is the nil slice. -/
def NewEmptyExpression {Atom : Type} : Expression Atom :=
  { Parts := [], needsEval := true, correctlyInstantiated := true,
    EvaledHash := 0, CachedHash := 0 }

/-- Go `newEmptyExpressionOfLength(n)`: `make([]Ex, n)` panics for a negative `n` and yields
`n` nil interface values.  A value of type `Ex Atom` is never nil; an interface value that may
be nil is an `Option (Ex Atom)`, `none` being nil, so the result is an expression over such
values. -/
def newEmptyExpressionOfLength {Atom : Type} (n : Int) :
    Option (ExpressionOf (Option (Ex Atom))) :=
  if n < 0 then none
  else some { Parts := List.replicate n.toNat none, needsEval := true,
              correctlyInstantiated := true, EvaledHash := 0, CachedHash := 0 }

/-- Go `(thisExpr *Expression) GetParts()`. -/
def Expression.GetParts {Atom : Type} (thisExpr : Expression Atom) : List (Ex Atom) :=
  thisExpr.Parts

/-- Go `(thisExpr *Expression) SetParts(newParts)`. -/
def Expression.SetParts {Atom : Type} (thisExpr : Expression Atom)
    (newParts : List (Ex Atom)) : Expression Atom :=
  { thisExpr with Parts := newParts }

/-- Go `(thisExpr *Expression) ClearHashes()`. -/
def Expression.ClearHashes {Atom : Type} (thisExpr : Expression Atom) : Expression Atom :=
  { thisExpr with EvaledHash := 0, CachedHash := 0 }

/-- Go `(thisExpr *Expression) AppendEx(e)`. -/
def Expression.AppendEx {Atom : Type} (thisExpr : Expression Atom) (e : Ex Atom) :
    Expression Atom :=
  { thisExpr with Parts := thisExpr.Parts ++ [e] }

/-- Go `(thisExpr *Expression) AppendExArray(e)`. -/
def Expression.AppendExArray {Atom : Type} (thisExpr : Expression Atom)
    (e : List (Ex Atom)) : Expression Atom :=
  { thisExpr with Parts := thisExpr.Parts ++ e }

/-- Go `(thisExpr *Expression) NeedsEval()`. -/
def Expression.NeedsEval {Atom : Type} (thisExpr : Expression Atom) : Bool :=
  thisExpr.needsEval

/-- Go `(thisExpr *Expression) SetNeedsEval(newVal)`. -/
def Expression.SetNeedsEval {Atom : Type} (thisExpr : Expression Atom) (newVal : Bool) :
    Expression Atom :=
  { thisExpr with needsEval := newVal }

/-- Go `(thisExpr *Expression) Len()`. -/
def Expression.Len {Atom : Type} (thisExpr : Expression Atom) : Int :=
  (thisExpr.Parts.length : Int) - 1

/-- Go `(thisExpr *Expression) Swap(i, j)`: the tuple assignment reads `Parts[i+1]` and
`Parts[j+1]`, then assigns `Parts[j+1]` and `Parts[i+1]`. -/
def Expression.Swap {Atom : Type} (thisExpr : Expression Atom) (i j : Int) :
    Option (Expression Atom) := do
  let a ← getIdx thisExpr.Parts (i + 1)
  let b ← getIdx thisExpr.Parts (j + 1)
  let parts1 ← setIdx thisExpr.Parts (j + 1) a
  let parts2 ← setIdx parts1 (i + 1) b
  some { thisExpr with Parts := parts2 }

/-- Go `ShallowCopy(thisExprExprInt)`, on an argument that is an `*Expression`. -/
def ShallowCopy {Atom : Type} (thisExpr : Expression Atom) : Expression Atom :=
  let thisExprcopy : Expression Atom := NewEmptyExpression
  let thisExprcopy := { thisExprcopy with Parts := [] ++ thisExpr.GetParts }
  let thisExprcopy := { thisExprcopy with needsEval := thisExpr.needsEval }
  let thisExprcopy := { thisExprcopy with
    correctlyInstantiated := thisExpr.correctlyInstantiated }
  let thisExprcopy := { thisExprcopy with EvaledHash := thisExpr.EvaledHash }
  { thisExprcopy with CachedHash := thisExpr.CachedHash }

/-! ### Heads (ex_expression.go, lines 20-33 and 240-246)

The type `Symbol` is not part of these sources: the type assertion `.(*Symbol)` together with
the field `Name` is the parameter `asSymbol`, which gives the name of an atom that is a
`*Symbol` and `none` for the other atoms. -/

/-- Go `HeadAssertion(ex, head)`.  The value `some (some expr)` stands for `(expr, true)`,
`some none` for `(nil, false)`, and `none` for the index-out-of-range panic of
`expr.GetParts()[0]`. -/
def HeadAssertion {Atom : Type} (asSymbol : Atom → Option String) (ex : Ex Atom)
    (head : String) : Option (Option (Expression Atom)) :=
  match ex with
  | .atom _ => some none
  | .expr expr =>
    match (Expression.GetParts expr).get? 0 with
    | none => none
    | some (.expr _) => some none
    | some (.atom a) =>
      match asSymbol a with
      | none => some none
      | some name => if name = head then some (some expr) else some none

/-- Go `(thisExpr *Expression) HeadStr()`; `none` is the panic of `GetParts()[0]`. -/
def Expression.HeadStr {Atom : Type} (asSymbol : Atom → Option String)
    (thisExpr : Expression Atom) : Option String :=
  match thisExpr.GetParts.get? 0 with
  | none => none
  | some (.expr _) => some ""
  | some (.atom a) =>
    match asSymbol a with
    | none => some ""
    | some name => some name

/-! ### `DeepCopy` and `Copy` (ex_expression.go, lines 161-194) -/

mutual

/-- The interface call `e.DeepCopy()`: the method of the atom (a parameter), or
`Expression.DeepCopy`. -/
def Ex.DeepCopy {Atom : Type} (atomDeepCopy : Atom → Ex Atom) : Ex Atom → Ex Atom
  | .atom a => atomDeepCopy a
  | .expr thisExpr => Expression.DeepCopy atomDeepCopy thisExpr

/-- Go `(thisExpr *Expression) DeepCopy()`. -/
def Expression.DeepCopy {Atom : Type} (atomDeepCopy : Atom → Ex Atom) :
    Expression Atom → Ex Atom
  | ⟨parts, needsEval, correctlyInstantiated, evaledHash, cachedHash⟩ =>
    let thisExprcopy := deepCopyLoop atomDeepCopy parts NewEmptyExpression
    let thisExprcopy := { thisExprcopy with needsEval := needsEval }
    let thisExprcopy := { thisExprcopy with correctlyInstantiated := correctlyInstantiated }
    let thisExprcopy := { thisExprcopy with EvaledHash := evaledHash }
    let thisExprcopy := { thisExprcopy with CachedHash := cachedHash }
    .expr thisExprcopy

/-- The loop `for i := range thisExpr.GetParts()` of `DeepCopy`: the list is what is left of
the parts, the expression is `thisExprcopy`. -/
def deepCopyLoop {Atom : Type} (atomDeepCopy : Atom → Ex Atom) :
    List (Ex Atom) → Expression Atom → Expression Atom
  | [], thisExprcopy => thisExprcopy
  | part :: rest, thisExprcopy =>
    deepCopyLoop atomDeepCopy rest (thisExprcopy.AppendEx (Ex.DeepCopy atomDeepCopy part))

end

/-- The parts of a slice none of which is nil; `none` when some part is nil. -/
def nonNilParts {α : Type} : List (Option α) → Option (List α)
  | [] => some []
  | none :: _ => none
  | some part :: rest =>
    match nonNilParts rest with
    | none => none
    | some parts => some (part :: parts)

mutual

/-- The interface call `e.Copy()` on a term: the method of the atom (a parameter), or
`Expression.Copy`.  `none` is a run-time panic. -/
def Ex.Copy {Atom : Type} (atomCopy : Atom → Ex Atom) : Ex Atom → Option (Ex Atom)
  | .atom a => some (atomCopy a)
  | .expr thisExpr => Expression.Copy atomCopy thisExpr

/-- Go `(thisExpr *Expression) Copy()` on a receiver whose parts are terms.  The parts of
`thisExprcopy` are nil until the loop assigns them; the value returned is a term when none is
left nil. -/
def Expression.Copy {Atom : Type} (atomCopy : Atom → Ex Atom) :
    Expression Atom → Option (Ex Atom)
  | ⟨parts, needsEval, correctlyInstantiated, evaledHash, cachedHash⟩ =>
    match @newEmptyExpressionOfLength Atom parts.length with
    | none => none
    | some thisExprcopy =>
      match copyLoop atomCopy parts 0 thisExprcopy.Parts with
      | none => none
      | some copyParts =>
        match nonNilParts copyParts with
        | none => none
        | some copied =>
          some (.expr { Parts := copied, needsEval := needsEval,
                        correctlyInstantiated := correctlyInstantiated,
                        EvaledHash := evaledHash, CachedHash := cachedHash })

/-- The loop `for i := range thisExpr.GetParts()` of `Copy`: the first list is what is left of
the parts, `i` the index of its head, the last list is `thisExprcopy.GetParts()`. -/
def copyLoop {Atom : Type} (atomCopy : Atom → Ex Atom) :
    List (Ex Atom) → Nat → List (Option (Ex Atom)) → Option (List (Option (Ex Atom)))
  | [], _, copyParts => some copyParts
  | part :: rest, i, copyParts =>
    match Ex.Copy atomCopy part with
    | none => none
    | some partCopy =>
      match setIdx copyParts i (some partCopy) with
      | none => none
      | some copyParts1 => copyLoop atomCopy rest (i + 1) copyParts1

end

/-! ### `DeepCopy` and `Copy` on a receiver with nil parts

`newEmptyExpressionOfLength` returns an expression whose parts are nil interface values.  On
such a receiver the method calls `thisExpr.GetParts()[i].DeepCopy()` and
`thisExpr.GetParts()[i].Copy()` panic at a nil part (nil pointer dereference). -/

/-- The loop `for i := range thisExpr.GetParts()` of `DeepCopy` on parts that may be nil. -/
def deepCopyNilLoop {Atom : Type} (atomDeepCopy : Atom → Ex Atom) :
    List (Option (Ex Atom)) → Expression Atom → Option (Expression Atom)
  | [], thisExprcopy => some thisExprcopy
  | none :: _, _ => none
  | some part :: rest, thisExprcopy =>
    deepCopyNilLoop atomDeepCopy rest (thisExprcopy.AppendEx (Ex.DeepCopy atomDeepCopy part))

/-- Go `(thisExpr *Expression) DeepCopy()` on a receiver whose parts may be nil; `none` is the
panic of a method call on a nil part. -/
def ExpressionWithNil.DeepCopy {Atom : Type} (atomDeepCopy : Atom → Ex Atom)
    (thisExpr : ExpressionOf (Option (Ex Atom))) : Option (Ex Atom) :=
  match deepCopyNilLoop atomDeepCopy thisExpr.Parts NewEmptyExpression with
  | none => none
  | some thisExprcopy =>
    let thisExprcopy := { thisExprcopy with needsEval := thisExpr.needsEval }
    let thisExprcopy := { thisExprcopy with
      correctlyInstantiated := thisExpr.correctlyInstantiated }
    let thisExprcopy := { thisExprcopy with EvaledHash := thisExpr.EvaledHash }
    let thisExprcopy := { thisExprcopy with CachedHash := thisExpr.CachedHash }
    some (.expr thisExprcopy)

/-- The loop `for i := range thisExpr.GetParts()` of `Copy` on parts that may be nil. -/
def copyNilLoop {Atom : Type} (atomCopy : Atom → Ex Atom) :
    List (Option (Ex Atom)) → Nat → List (Option (Ex Atom)) →
      Option (List (Option (Ex Atom)))
  | [], _, copyParts => some copyParts
  | none :: _, _, _ => none
  | some part :: rest, i, copyParts =>
    match Ex.Copy atomCopy part with
    | none => none
    | some partCopy =>
      match setIdx copyParts i (some partCopy) with
      | none => none
      | some copyParts1 => copyNilLoop atomCopy rest (i + 1) copyParts1

/-- Go `(thisExpr *Expression) Copy()` on a receiver whose parts may be nil; `none` is a
panic, and the expression returned is `thisExprcopy`. -/
def ExpressionWithNil.Copy {Atom : Type} (atomCopy : Atom → Ex Atom)
    (thisExpr : ExpressionOf (Option (Ex Atom))) : Option (ExpressionOf (Option (Ex Atom))) :=
  match @newEmptyExpressionOfLength Atom thisExpr.Parts.length with
  | none => none
  | some thisExprcopy =>
    match copyNilLoop atomCopy thisExpr.Parts 0 thisExprcopy.Parts with
    | none => none
    | some copyParts =>
      some { Parts := copyParts, needsEval := thisExpr.needsEval,
             correctlyInstantiated := thisExpr.correctlyInstantiated,
             EvaledHash := thisExpr.EvaledHash, CachedHash := thisExpr.CachedHash }

/-! ### `PropagateConditionals` (ex_expression.go, lines 61-87)

The function `S` is not part of these sources; it is a parameter. -/

/-- The first loop `for _, e := range thisExpr.GetParts()[1:]`: the value of `foundCond`
after the loop, `none` for a panic. -/
def foundCondLoop {Atom : Type} (asSymbol : Atom → Option String) :
    List (Ex Atom) → Option Bool
  | [] => some false
  | e :: rest =>
    match HeadAssertion asSymbol e "System`ConditionalExpression" with
    | none => none
    | some none => foundCondLoop asSymbol rest
    | some (some cond) =>
      if cond.GetParts.length = 3 then some true
      else foundCondLoop asSymbol rest

/-- The second loop `for _, e := range thisExpr.GetParts()[1:]`: `resEx` and `resCond` after
the loop, `none` for a panic. -/
def hoistLoop {Atom : Type} (asSymbol : Atom → Option String)
    (atomDeepCopy : Atom → Ex Atom) :
    List (Ex Atom) → Expression Atom → Expression Atom →
      Option (Expression Atom × Expression Atom)
  | [], resEx, resCond => some (resEx, resCond)
  | e :: rest, resEx, resCond =>
    match HeadAssertion asSymbol e "System`ConditionalExpression" with
    | none => none
    | some none =>
      hoistLoop asSymbol atomDeepCopy rest (resEx.AppendEx (Ex.DeepCopy atomDeepCopy e)) resCond
    | some (some cond) =>
      if cond.GetParts.length = 3 then
        match cond.GetParts.get? 1, cond.GetParts.get? 2 with
        | some value, some condition =>
          hoistLoop asSymbol atomDeepCopy rest
            (resEx.AppendEx (Ex.DeepCopy atomDeepCopy value))
            (resCond.AppendEx (Ex.DeepCopy atomDeepCopy condition))
        | _, _ => none
      else
        hoistLoop asSymbol atomDeepCopy rest (resEx.AppendEx (Ex.DeepCopy atomDeepCopy e))
          resCond

/-- Go `(thisExpr *Expression) PropagateConditionals()`; `none` is a run-time panic (of
`GetParts()[1:]` or inside `HeadAssertion`). -/
def Expression.PropagateConditionals {Atom : Type} (asSymbol : Atom → Option String)
    (atomDeepCopy : Atom → Ex Atom) (S : String → Ex Atom) (thisExpr : Expression Atom) :
    Option (Expression Atom × Bool) :=
  match thisExpr.GetParts with
  | [] => none
  | head :: args =>
    match foundCondLoop asSymbol args with
    | none => none
    | some false => some (thisExpr, false)
    | some true =>
      match hoistLoop asSymbol atomDeepCopy args (E [head]) (E [S "And"]) with
      | none => none
      | some (resEx, resCond) =>
        some (E [S "ConditionalExpression", .expr resEx, .expr resCond], true)

/-! ### `Hash` (ex_expression.go, lines 225-238)

Hash values are `uint64` values.  `hash/fnv` and `encoding/binary` are modelled from the Go
standard library.  The method `Hash` of an atom may update the atom (a cache, as in
`Expression.Hash`): the parameter `atomHash` gives the value and the atom after the call. -/

/-- The initial state of `fnv.New64a()`. -/
def fnvOffset64 : Nat := 14695981039346656037

/-- The multiplier of the 64-bit FNV hashes. -/
def fnvPrime64 : Nat := 1099511628211

/-- The state after `h.Write(data)` of a 64-bit FNV-1a hash in state `h`. -/
def fnvWrite (h : Nat) (data : List Nat) : Nat :=
  data.foldl (fun acc c => ((acc ^^^ c) * fnvPrime64) % 2 ^ 64) h

/-- The 8 bytes that `binary.LittleEndian.PutUint64(b, v)` writes. -/
def putUint64 (v : Nat) : List Nat :=
  (List.range 8).map (fun (k : Nat) => v / 256 ^ k % 256)

/-- The bytes written first by `Expression.Hash`. -/
def hashSeed : List Nat := [72, 5, 244, 86, 5, 210, 69, 30]

mutual

/-- The interface call `part.Hash()`: the value and the term after the call. -/
def Ex.Hash {Atom : Type} (atomHash : Atom → Nat × Atom) : Ex Atom → Nat × Ex Atom
  | .atom a => ((atomHash a).1, .atom (atomHash a).2)
  | .expr thisExpr =>
    ((Expression.Hash atomHash thisExpr).1, .expr (Expression.Hash atomHash thisExpr).2)

/-- Go `(thisExpr *Expression) Hash()`: the value and the expression after the call. -/
def Expression.Hash {Atom : Type} (atomHash : Atom → Nat × Atom) :
    Expression Atom → Nat × Expression Atom
  | ⟨parts, needsEval, correctlyInstantiated, evaledHash, cachedHash⟩ =>
    if cachedHash > 0 then
      (cachedHash, ⟨parts, needsEval, correctlyInstantiated, evaledHash, cachedHash⟩)
    else
      let h := fnvWrite fnvOffset64 hashSeed
      let sum64 := (hashLoop atomHash parts h).1
      (sum64, ⟨(hashLoop atomHash parts h).2, needsEval, correctlyInstantiated, evaledHash,
        sum64⟩)

/-- The loop `for _, part := range thisExpr.GetParts()` of `Hash`: the state of `h` and the
parts after the loop. -/
def hashLoop {Atom : Type} (atomHash : Atom → Nat × Atom) :
    List (Ex Atom) → Nat → Nat × List (Ex Atom)
  | [], h => (h, [])
  | part :: rest, h =>
    let h1 := fnvWrite h (putUint64 (Ex.Hash atomHash part).1)
    ((hashLoop atomHash rest h1).1,
      (Ex.Hash atomHash part).2 :: (hashLoop atomHash rest h1).2)

end

/-! ### Atomic leaves -/

mutual

/-- The atoms at the leaves of a term, from left to right. -/
def Ex.leaves {Atom : Type} : Ex Atom → List Atom
  | .atom a => [a]
  | .expr ⟨parts, _, _, _, _⟩ => leavesList parts

/-- The atoms at the leaves of a list of terms. -/
def leavesList {Atom : Type} : List (Ex Atom) → List Atom
  | [] => []
  | part :: rest => Ex.leaves part ++ leavesList rest

end

end Atoms

namespace Cas

/-! ## Auxiliary definitions for the proofs about `permutations` -/

/-- All digit strings of length `k` whose digits are below `m`, `m - 1`, ..., in lexicographic
order. -/
def allDigits : Nat → Nat → List (List Nat)
  | _, 0 => [[]]
  | m, k + 1 => (List.range' 0 m).flatMap fun d => (allDigits (m - 1) k).map (d :: ·)

/-- The digit strings that come after a given one in `allDigits`. -/
def laterDigits : Nat → List Nat → List (List Nat)
  | _, [] => []
  | m, d :: ds =>
    (laterDigits (m - 1) ds).map (d :: ·) ++
      (List.range' (d + 1) (m - (d + 1))).flatMap fun d' =>
        (allDigits (m - 1) ds.length).map (d' :: ·)

/-- Every digit has its largest value. -/
def Maxed : Nat → List Nat → Prop
  | _, [] => True
  | m, d :: ds => d + 1 = m ∧ Maxed (m - 1) ds

/-- Every digit is below its radix. -/
def ValidDigits : Nat → List Nat → Prop
  | _, [] => True
  | m, d :: ds => d < m ∧ ValidDigits (m - 1) ds

/-- The elements selected by a digit string: digit `d` selects position `d` of what is left. -/
def picked {α : Type} : List α → List Nat → List α
  | _, [] => []
  | s, d :: ds => (s.drop d).take 1 ++ picked (s.eraseIdx d) ds

/-- The elements that a digit string leaves unselected, in their original order. -/
def unpicked {α : Type} : List α → List Nat → List α
  | s, [] => s
  | s, d :: ds => unpicked (s.eraseIdx d) ds

/-- All ordered arrangements of `r` elements at distinct positions of `s`. -/
def arrangements {α : Type} : List α → Nat → List (List α)
  | _, 0 => [[]]
  | s, r + 1 => (List.range' 0 s.length).flatMap fun k =>
      (arrangements (s.eraseIdx k) r).map fun t => (s.drop k).take 1 ++ t

/-- The cycle counters that stand for a digit string: radix minus digit. -/
def cyc : Nat → List Nat → List Int
  | _, [] => []
  | m, d :: ds => ((m : Int) - (d : Int)) :: cyc (m - 1) ds

/-- The value `pool[el]` (`0` out of range). -/
def lookup (pool : List Int) (el : Int) : Int := (getI pool el).getD 0

/-- The positions `0, ..., n-1` as a slice of `int`. -/
def idx0 (n : Nat) : List Int := (List.range n).map Int.ofNat

/-- The state of the main loop that stands for a digit string. -/
def stateOf (pool : List Int) (ds : List Nat) (res : List (List Int)) : PermState :=
  { indices := picked (idx0 pool.length) ds ++ unpicked (idx0 pool.length) ds
    cycles := cyc pool.length ds
    result := picked pool ds
    res := res }

/-! ## The greedy assignment of the specification -/

/-- Remove the first element that satisfies `p`; `none` when no element does. -/
def takeFirst {α : Type} (p : α → Bool) : List α → Option (List α)
  | [] => none
  | b :: rest => if p b then some rest else (takeFirst p rest).map (b :: ·)

/-- The greedy unmatched-first assignment, in the words of the specification: the elements of
the first list are processed in order, and each takes the first not-yet-taken element of the
second list (its second argument is the list of the elements not yet taken, in their original
order) whose verdict against it is Equal.  The value is `true` when every element of the first
list obtains a partner. -/
def greedyAssign {α : Type} (equal : α → α → Bool) : List α → List α → Bool
  | [], _ => true
  | a :: rest, B =>
    match takeFirst (equal a) B with
    | none => false
    | some B1 => greedyAssign equal rest B1

/-- The elements of a list, whose head has index `j`, at the positions that are not in
`matched`. -/
def unmatchedFrom {α : Type} (matched : List Nat) : Nat → List α → List α
  | _, [] => []
  | j, b :: rest =>
    if j ∈ matched then unmatchedFrom matched (j + 1) rest
    else b :: unmatchedFrom matched (j + 1) rest

/-- A bijection between the positions of `A` and the positions of `B` such that every paired
couple `(a, b)` has element verdict `a.IsEqual(b) = EQUAL_TRUE`. -/
def PairingBijection {Ex σ : Type} (isEqual : Ex → Ex → σ → String) (es : σ)
    (A B : List Ex) : Prop :=
  ∃ f : Fin A.length → Fin B.length, Function.Bijective f ∧
    ∀ i : Fin A.length, isEqual (A.get i) (B.get (f i)) es = "EQUAL_TRUE"

/-! ## Auxiliary definitions for the statements about expressions -/

/-- The value part and the condition part of a term that is an expression with exactly 3 parts
whose head is the symbol named ``System`ConditionalExpression``; `none` for any other term. -/
def conditionalParts {Atom : Type} (asSymbol : Atom → Option String) :
    Atoms.Ex Atom → Option (Atoms.Ex Atom × Atoms.Ex Atom)
  | .expr ⟨[.atom h, value, condition], _, _, _, _⟩ =>
    if asSymbol h = some "System`ConditionalExpression" then some (value, condition) else none
  | _ => none

/-- A term is an atom or an expression with at least one part. -/
def HasHead {Atom : Type} : Atoms.Ex Atom → Prop
  | .atom _ => True
  | .expr e => e.Parts ≠ []

/-- What `PropagateConditionals` puts in place of an argument: the copy of its value part
when it is a conditional, its own copy otherwise. -/
def hoistedValue {Atom : Type} (asSymbol : Atom → Option String)
    (atomDeepCopy : Atom → Atoms.Ex Atom) (e : Atoms.Ex Atom) : Atoms.Ex Atom :=
  match conditionalParts asSymbol e with
  | some (value, _) => Atoms.Ex.DeepCopy atomDeepCopy value
  | none => Atoms.Ex.DeepCopy atomDeepCopy e

/-- What `PropagateConditionals` hoists from an argument: the copy of its condition part when
it is a conditional, nothing otherwise. -/
def hoistedCondition {Atom : Type} (asSymbol : Atom → Option String)
    (atomDeepCopy : Atom → Atoms.Ex Atom) (e : Atoms.Ex Atom) : Option (Atoms.Ex Atom) :=
  match conditionalParts asSymbol e with
  | some (_, condition) => some (Atoms.Ex.DeepCopy atomDeepCopy condition)
  | none => none

/-- The fingerprint of a list of parts: the 64-bit FNV-1a digest of the 8 seed bytes followed
by the 8-byte little-endian encoding of the hash of each part, from left to right. -/
def fingerprint {Atom : Type} (atomHash : Atom → Nat × Atom) (parts : List (Atoms.Ex Atom)) :
    Nat :=
  Atoms.fnvWrite Atoms.fnvOffset64
    (Atoms.hashSeed ++ (parts.map (fun p => Atoms.putUint64 (Atoms.Ex.Hash atomHash p).1)).flatten)

/-- An expression whose parts are terms, seen as an expression whose parts may be nil. -/
def withNil {Atom : Type} (t : Atoms.Expression Atom) :
    Atoms.ExpressionOf (Option (Atoms.Ex Atom)) :=
  { Parts := t.Parts.map some, needsEval := t.needsEval,
    correctlyInstantiated := t.correctlyInstantiated,
    EvaledHash := t.EvaledHash, CachedHash := t.CachedHash }

/-! ## The first scan alone

`CommutativeReplace` with the second scan (cas.go, lines 193-215) removed. -/

section FirstScan

variable {Ex σ : Type}

/-- The body of `if len(lhs_components) == 2 { ... }` with the first scan only. -/
def replaceTwoFirstScan (isMatchQ : Ex → Ex → σ → Bool) (es : σ) (p0 p1 rhs : Ex)
    (cs : List Ex) : Option (List Ex) :=
  match scanOuter isMatchQ es p0 p1 rhs cs.length 0 cs with
  | none => none
  | some (_, c1) => some c1

/-- `CommutativeReplace` with the first scan only. -/
def CommutativeReplaceFirstScan (fuel : Nat) (isMatchQ : Ex → Ex → σ → Bool)
    (components : List Ex) (lhs_components : List Ex) (rhs : Ex) (es : σ) :
    Option (List (List Int) × List Ex) := do
  let toPermute : List Int := (List.range lhs_components.length).map Int.ofNat
  let perms ← permutations fuel toPermute lhs_components.length
  match lhs_components with
  | [p0, p1] =>
    let c1 ← replaceTwoFirstScan isMatchQ es p0 p1 rhs components
    some (perms, c1)
  | _ => some (perms, components)

end FirstScan

section ReplaceLemmas

variable {Ex σ : Type}

theorem removeAt_eq_eraseIdx (cs : List Ex) (i : Nat) : removeAt cs i = cs.eraseIdx i :=
  (List.eraseIdx_eq_take_drop_succ cs i).symm

theorem insertAt_removeAt (cs : List Ex) (i : Nat) (e : Ex) (h : cs[i]? = some e) :
    insertAt (removeAt cs i) i e = cs := by
  induction cs generalizing i with
  | nil => simp at h
  | cons a t ih =>
    cases i with
    | zero =>
      simp at h
      simp [insertAt, removeAt, h]
    | succ i =>
      simp at h
      have := ih i h
      simp [insertAt, removeAt] at this ⊢
      exact this

theorem getElem?_removeAt (cs : List Ex) (i j : Nat) :
    (removeAt cs i)[j]? = if j < i then cs[j]? else cs[j + 1]? := by
  rw [removeAt_eq_eraseIdx, List.getElem?_eraseIdx]

/-- The inner loop finds nothing when no element from position `j` on matches. -/
theorem scanInner_none (isMatchQ : Ex → Ex → σ → Bool) (es : σ) (pat rhs : Ex) (cs : List Ex)
    (k j : Nat) (hk : j + k = cs.length)
    (h : ∀ j' e, j ≤ j' → cs[j']? = some e → isMatchQ e pat es = false) :
    scanInner isMatchQ es pat rhs cs k j = some none := by
  induction k generalizing j with
  | zero => rfl
  | succ k ih =>
    have hj : j < cs.length := by omega
    have hg : cs[j]? = some cs[j] := List.getElem?_eq_getElem hj
    simp only [scanInner, List.get?_eq_getElem?, hg, h j _ (le_refl j) hg]
    exact ih (j + 1) (by omega) (fun j' e hle he => h j' e (by omega) he)

/-- The inner loop returns at the first matching position `j0` at or after `j`. -/
theorem scanInner_some (isMatchQ : Ex → Ex → σ → Bool) (es : σ) (pat rhs : Ex) (cs : List Ex)
    (k j j0 : Nat) (e0 : Ex) (hk : j + k = cs.length) (hle : j ≤ j0) (h0 : cs[j0]? = some e0)
    (hm : isMatchQ e0 pat es = true)
    (h : ∀ j' e, j ≤ j' → j' < j0 → cs[j']? = some e → isMatchQ e pat es = false) :
    scanInner isMatchQ es pat rhs cs k j = some (some (removeAt cs j0 ++ [rhs])) := by
  induction k generalizing j with
  | zero =>
    have := (List.getElem?_eq_some_iff.1 h0).1
    omega
  | succ k ih =>
    have hj : j < cs.length := by omega
    have hg : cs[j]? = some cs[j] := List.getElem?_eq_getElem hj
    rcases Nat.eq_or_lt_of_le hle with heq | hlt
    · subst heq
      rw [hg] at h0
      cases h0
      simp only [scanInner, List.get?_eq_getElem?, hg, hm, if_true]
    · simp only [scanInner, List.get?_eq_getElem?, hg, h j _ (le_refl j) hlt hg]
      exact ih (j + 1) (by omega) (by omega) (fun j' e hle he => h j' e (by omega) he)

/-- The scan changes nothing when, from position `i` on, no element matching `first` has a
partner (an element at another position matching `second`). -/
theorem scanOuter_none (isMatchQ : Ex → Ex → σ → Bool) (es : σ) (first second rhs : Ex)
    (cs : List Ex) (k i : Nat) (hk : i + k = cs.length)
    (h : ∀ i' e, i ≤ i' → cs[i']? = some e → isMatchQ e first es = true →
      ∀ j' e', j' ≠ i' → cs[j']? = some e' → isMatchQ e' second es = false) :
    scanOuter isMatchQ es first second rhs k i cs = some (false, cs) := by
  induction k generalizing i with
  | zero => rfl
  | succ k ih =>
    have hi : i < cs.length := by omega
    have hg : cs[i]? = some cs[i] := List.getElem?_eq_getElem hi
    have ih' := ih (i + 1) (by omega) (fun i' e hle he => h i' e (by omega) he)
    simp only [scanOuter, List.get?_eq_getElem?, hg]
    by_cases hm : isMatchQ cs[i] first es = true
    · have hin : scanInner isMatchQ es second rhs (removeAt cs i) (removeAt cs i).length 0
          = some none := by
        apply scanInner_none _ _ _ _ _ _ _ (by omega)
        intro j' e _ he
        rw [getElem?_removeAt] at he
        split at he
        · exact h i _ (le_refl i) hg hm j' e (by omega) he
        · exact h i _ (le_refl i) hg hm (j' + 1) e (by omega) he
      simp only [hm, if_true, hin, insertAt_removeAt cs i _ hg]
      exact ih'
    · simp only [hm]
      exact ih'

/-- The scan returns at the first position `i0` (at or after `i`) whose element matches
`first` and has a partner; the partner removed is the first one, `j1`, in the list without
position `i0`. -/
theorem scanOuter_some (isMatchQ : Ex → Ex → σ → Bool) (es : σ) (first second rhs : Ex)
    (cs : List Ex) (k i i0 j1 : Nat) (e0 e1 : Ex) (hk : i + k = cs.length) (hle : i ≤ i0)
    (h0 : cs[i0]? = some e0) (hm0 : isMatchQ e0 first es = true)
    (h1 : (removeAt cs i0)[j1]? = some e1) (hm1 : isMatchQ e1 second es = true)
    (hfirst : ∀ j' e, j' < j1 → (removeAt cs i0)[j']? = some e → isMatchQ e second es = false)
    (h : ∀ i' e, i ≤ i' → i' < i0 → cs[i']? = some e → isMatchQ e first es = true →
      ∀ j' e', j' ≠ i' → cs[j']? = some e' → isMatchQ e' second es = false) :
    scanOuter isMatchQ es first second rhs k i cs
      = some (true, removeAt (removeAt cs i0) j1 ++ [rhs]) := by
  induction k generalizing i with
  | zero =>
    have := (List.getElem?_eq_some_iff.1 h0).1
    omega
  | succ k ih =>
    have hi : i < cs.length := by omega
    have hg : cs[i]? = some cs[i] := List.getElem?_eq_getElem hi
    simp only [scanOuter, List.get?_eq_getElem?, hg]
    rcases Nat.eq_or_lt_of_le hle with heq | hlt
    · subst heq
      rw [hg] at h0
      cases h0
      have hin : scanInner isMatchQ es second rhs (removeAt cs i) (removeAt cs i).length 0
          = some (some (removeAt (removeAt cs i) j1 ++ [rhs])) :=
        scanInner_some _ _ _ _ _ _ _ j1 e1 (by omega) (Nat.zero_le _) h1 hm1
          (fun j' e _ hlt he => hfirst j' e hlt he)
      simp only [hm0, if_true, hin]
    · have ih' := ih (i + 1) (by omega) (by omega)
        (fun i' e hle hlt' he => h i' e (by omega) hlt' he)
      by_cases hm : isMatchQ cs[i] first es = true
      · have hin : scanInner isMatchQ es second rhs (removeAt cs i) (removeAt cs i).length 0
            = some none := by
          apply scanInner_none _ _ _ _ _ _ _ (by omega)
          intro j' e _ he
          rw [getElem?_removeAt] at he
          split at he
          · exact h i _ (le_refl i) hlt hg hm j' e (by omega) he
          · exact h i _ (le_refl i) hlt hg hm (j' + 1) e (by omega) he
        simp only [hm, if_true, hin, insertAt_removeAt cs i _ hg]
        exact ih'
      · simp only [hm]
        exact ih'

theorem eraseIdx_eraseIdx_of_le (cs : List Ex) (i j : Nat) (h : i ≤ j) :
    (cs.eraseIdx i).eraseIdx j = (cs.eraseIdx (j + 1)).eraseIdx i := by
  induction cs generalizing i j with
  | nil => simp
  | cons a t ih =>
    cases i with
    | zero => simp
    | succ i =>
      cases j with
      | zero => omega
      | succ j => simp [ih i j (by omega)]

/-- When some element matching `first` has a partner matching `second` at another position,
the scan removes the lowest such position `i` and its lowest partner `j`, and appends `rhs`. -/
theorem scanOuter_of_pair (isMatchQ : Ex → Ex → σ → Bool) (es : σ) (first second rhs : Ex)
    (cs : List Ex)
    (hp : ∃ (i j : Nat) (a b : Ex), i ≠ j ∧ cs[i]? = some a ∧ cs[j]? = some b ∧
      isMatchQ a first es = true ∧ isMatchQ b second es = true) :
    ∃ (i j : Nat) (a b : Ex), i ≠ j ∧ cs[i]? = some a ∧ cs[j]? = some b ∧
      isMatchQ a first es = true ∧ isMatchQ b second es = true ∧
      (∀ (i' j' : Nat) (a' b' : Ex), i' < i → i' ≠ j' → cs[i']? = some a' → cs[j']? = some b' →
        ¬ (isMatchQ a' first es = true ∧ isMatchQ b' second es = true)) ∧
      (∀ (j' : Nat) (b' : Ex), j' < j → j' ≠ i → cs[j']? = some b' → isMatchQ b' second es = false) ∧
      scanOuter isMatchQ es first second rhs cs.length 0 cs
        = some (true, (cs.eraseIdx (max i j)).eraseIdx (min i j) ++ [rhs]) := by
  classical
  have hex : ∃ i : Nat, ∃ (j : Nat) (a b : Ex), i ≠ j ∧ cs[i]? = some a ∧ cs[j]? = some b ∧
      isMatchQ a first es = true ∧ isMatchQ b second es = true := hp
  obtain ⟨jw, aw, bw, hw⟩ := Nat.find_spec hex
  have hmin := fun i' (hlt : i' < Nat.find hex) => Nat.find_min hex hlt
  generalize Nat.find hex = i at hw hmin
  obtain ⟨hne, hia, hjb, hma, hmb⟩ := hw
  have hex2 : ∃ j : Nat, ∃ b : Ex, i ≠ j ∧ cs[j]? = some b ∧ isMatchQ b second es = true :=
    ⟨jw, bw, hne, hjb, hmb⟩
  obtain ⟨b, hb⟩ := Nat.find_spec hex2
  have hmin2 := fun j' (hlt : j' < Nat.find hex2) => Nat.find_min hex2 hlt
  generalize Nat.find hex2 = j at hb hmin2
  obtain ⟨hij, hjb2, hmb2⟩ := hb
  have hnopair : ∀ (i' j' : Nat) (a' b' : Ex), i' < i → i' ≠ j' → cs[i']? = some a' → cs[j']? = some b' →
      ¬ (isMatchQ a' first es = true ∧ isMatchQ b' second es = true) := by
    intro i' j' a' b' hlt hne' ha' hb' hm
    exact hmin i' hlt ⟨j', a', b', hne', ha', hb', hm.1, hm.2⟩
  have hnopartner : ∀ (j' : Nat) (b' : Ex), j' < j → j' ≠ i → cs[j']? = some b' →
      isMatchQ b' second es = false := by
    intro j' b' hlt hne' hb'
    by_contra hcon
    exact hmin2 j' hlt ⟨b', fun h => hne' h.symm, hb', by simpa using hcon⟩
  refine ⟨i, j, aw, b, hij, hia, hjb2, hma, hmb2, hnopair, hnopartner, ?_⟩
  have hilt : i < cs.length := (List.getElem?_eq_some_iff.1 hia).1
  have hjlt : j < cs.length := (List.getElem?_eq_some_iff.1 hjb2).1
  have key := scanOuter_some isMatchQ es first second rhs cs cs.length 0 i
    (if j < i then j else j - 1) aw b (by omega) (Nat.zero_le _) hia hma
    (by
      rw [getElem?_removeAt]
      by_cases hji : j < i
      · simp only [hji, if_true]; exact hjb2
      · have h1 : ¬ (j - 1 < i) := by omega
        have h2 : j - 1 + 1 = j := by omega
        simp only [hji, if_false, h1, h2]; exact hjb2)
    hmb2
    (by
      intro j' e hlt he
      rw [getElem?_removeAt] at he
      split at he
      · exact hnopartner j' e (by split at hlt <;> omega) (by omega) he
      · exact hnopartner (j' + 1) e (by split at hlt <;> omega) (by omega) he)
    (by
      intro i' e _ hlt he hm j' e' hne' he'
      by_contra hcon
      exact hnopair i' j' e e' hlt (fun h => hne' h.symm) he he' ⟨hm, by simpa using hcon⟩)
  rw [key]
  congr 3
  rw [removeAt_eq_eraseIdx, removeAt_eq_eraseIdx]
  by_cases hji : j < i
  · simp only [hji, if_true]
    rw [Nat.max_eq_left (by omega), Nat.min_eq_right (by omega)]
  · have hlt : i < j := by omega
    simp only [hji, if_false]
    rw [Nat.max_eq_right (by omega), Nat.min_eq_left (by omega),
      eraseIdx_eraseIdx_of_le cs i (j - 1) (by omega)]
    have h2 : j - 1 + 1 = j := by omega
    rw [h2]

end ReplaceLemmas

/-! ## Digit strings: the counter behind `cycles` -/

theorem allDigits_eq_cons (m k : Nat) (h : k ≤ m) :
    allDigits m k = List.replicate k 0 :: laterDigits m (List.replicate k 0) := by
  induction k generalizing m with
  | zero => rfl
  | succ k ih =>
    obtain ⟨m', rfl⟩ : ∃ m', m = m' + 1 := ⟨m - 1, by omega⟩
    simp only [allDigits, laterDigits, List.replicate_succ, List.range'_succ,
      List.flatMap_cons, Nat.add_sub_cancel, List.length_replicate, Nat.zero_add]
    rw [ih m' (by omega)]
    simp

theorem laterDigits_maxed (m : Nat) (mx : List Nat) (h : Maxed m mx) :
    laterDigits m mx = [] := by
  induction mx generalizing m with
  | nil => rfl
  | cons d ds ih =>
    obtain ⟨h1, h2⟩ := h
    subst h1
    have h2' : Maxed d ds := by simpa using h2
    simp [laterDigits, ih _ h2']

theorem laterDigits_step (m : Nat) (pre : List Nat) (d : Nat) (mx : List Nat)
    (hd : d + 1 < m - pre.length) (hmx : Maxed (m - pre.length - 1) mx)
    (hlen : pre.length + 1 + mx.length ≤ m) :
    laterDigits m (pre ++ d :: mx)
      = (pre ++ (d + 1) :: List.replicate mx.length 0)
        :: laterDigits m (pre ++ (d + 1) :: List.replicate mx.length 0) := by
  induction pre generalizing m with
  | nil =>
    simp only [List.length_nil, Nat.sub_zero] at hd hmx hlen
    simp only [List.nil_append, laterDigits, laterDigits_maxed _ _ hmx, List.map_nil,
      List.length_replicate]
    obtain ⟨c, hc⟩ : ∃ c, m - (d + 1) = c + 1 := ⟨m - (d + 1) - 1, by omega⟩
    have hc' : m - (d + 1 + 1) = c := by omega
    rw [hc, hc', List.range'_succ, List.flatMap_cons, allDigits_eq_cons (m - 1) _ (by omega)]
    simp
  | cons p pre ih =>
    simp only [List.length_cons] at hd hmx hlen
    have := ih (m - 1) (by omega) (by
      have : m - 1 - pre.length - 1 = m - (pre.length + 1) - 1 := by omega
      rw [this]; exact hmx) (by omega)
    show laterDigits m (p :: (pre ++ d :: mx)) = (p :: (pre ++ (d + 1) :: List.replicate mx.length 0))
        :: laterDigits m (p :: (pre ++ (d + 1) :: List.replicate mx.length 0))
    rw [laterDigits, laterDigits, this]
    simp

theorem length_allDigits (m k : Nat) : (allDigits m k).length = m.descFactorial k := by
  induction k generalizing m with
  | zero => simp [allDigits]
  | succ k ih =>
    simp only [allDigits, List.length_flatMap, List.length_map, ih]
    cases m with
    | zero => simp
    | succ m =>
      rw [Nat.succ_descFactorial_succ]
      simp [Function.comp_def, ih, List.map_const', List.sum_replicate]

/-! ## Arrangements selected by digit strings -/

section Picked

variable {α β : Type}

theorem take_one_drop (s : List α) (k : Nat) (h : k < s.length) :
    (s.drop k).take 1 = [s[k]] := by
  rw [List.drop_eq_getElem_cons h]
  rfl

theorem picked_append (s : List α) (pre ds : List Nat) :
    picked s (pre ++ ds) = picked s pre ++ picked (unpicked s pre) ds := by
  induction pre generalizing s with
  | nil => rfl
  | cons d pre ih => simp [picked, unpicked, ih]

theorem unpicked_append (s : List α) (pre ds : List Nat) :
    unpicked s (pre ++ ds) = unpicked (unpicked s pre) ds := by
  induction pre generalizing s with
  | nil => rfl
  | cons d pre ih => simp [unpicked, ih]

theorem picked_replicate_zero (s : List α) (k : Nat) :
    picked s (List.replicate k 0) = s.take k := by
  induction k generalizing s with
  | zero => simp [picked]
  | succ k ih =>
    cases s with
    | nil => simp [picked, List.replicate_succ, ih]
    | cons a t => simp [picked, List.replicate_succ, ih]

theorem unpicked_replicate_zero (s : List α) (k : Nat) :
    unpicked s (List.replicate k 0) = s.drop k := by
  induction k generalizing s with
  | zero => simp [unpicked]
  | succ k ih =>
    cases s with
    | nil => simp [unpicked, List.replicate_succ, ih]
    | cons a t => simp [unpicked, List.replicate_succ, ih]

/-- Trailing zero digits do not change the arrangement of the whole list. -/
theorem picked_unpicked_zeros (s : List α) (pre : List Nat) (k : Nat) :
    picked s (pre ++ List.replicate k 0) ++ unpicked s (pre ++ List.replicate k 0)
      = picked s pre ++ unpicked s pre := by
  rw [picked_append, unpicked_append, picked_replicate_zero, unpicked_replicate_zero,
    List.append_assoc, List.take_append_drop]

theorem map_eraseIdx' (f : α → β) (s : List α) (k : Nat) :
    (s.eraseIdx k).map f = (s.map f).eraseIdx k := by
  induction s generalizing k with
  | nil => rfl
  | cons a t ih => cases k <;> simp [ih]

theorem picked_map (f : α → β) (s : List α) (ds : List Nat) :
    picked (s.map f) ds = (picked s ds).map f := by
  induction ds generalizing s with
  | nil => rfl
  | cons d ds ih => simp [picked, ← map_eraseIdx', ih, List.map_take, List.map_drop]

theorem length_picked (s : List α) (ds : List Nat) (h : ValidDigits s.length ds) :
    (picked s ds).length = ds.length := by
  induction ds generalizing s with
  | nil => rfl
  | cons d ds ih =>
    obtain ⟨h1, h2⟩ := h
    have hl : (s.eraseIdx d).length = s.length - 1 := by
      rw [List.length_eraseIdx, if_pos h1]
    simp only [picked, take_one_drop s d h1, List.length_append, List.length_cons,
      List.length_nil, ih _ (hl ▸ h2)]
    omega

theorem length_unpicked (s : List α) (ds : List Nat) (h : ValidDigits s.length ds) :
    (unpicked s ds).length = s.length - ds.length := by
  induction ds generalizing s with
  | nil => rfl
  | cons d ds ih =>
    obtain ⟨h1, h2⟩ := h
    have hl : (s.eraseIdx d).length = s.length - 1 := by
      rw [List.length_eraseIdx, if_pos h1]
    simp only [unpicked, ih _ (hl ▸ h2), hl, List.length_cons]
    omega

theorem mem_of_mem_picked (s : List α) (ds : List Nat) (x : α) (h : x ∈ picked s ds) :
    x ∈ s := by
  induction ds generalizing s with
  | nil => simp [picked] at h
  | cons d ds ih =>
    simp only [picked, List.mem_append] at h
    rcases h with h | h
    · exact List.mem_of_mem_drop (List.mem_of_mem_take h)
    · exact List.eraseIdx_subset _ _ (ih _ h)

theorem mem_of_mem_unpicked (s : List α) (ds : List Nat) (x : α) (h : x ∈ unpicked s ds) :
    x ∈ s := by
  induction ds generalizing s with
  | nil => exact h
  | cons d ds ih => exact List.eraseIdx_subset _ _ (ih _ h)

/-- The arrangements are the selections of the digit strings, in the order of the strings. -/
theorem map_picked_allDigits (s : List α) (r : Nat) :
    (allDigits s.length r).map (picked s) = arrangements s r := by
  induction r generalizing s with
  | zero => rfl
  | succ r ih =>
    simp only [allDigits, arrangements, List.map_flatMap, List.map_map]
    apply List.flatMap_congr
    intro k hk
    have hk' : k < s.length := by simpa using hk
    have hl : (s.eraseIdx k).length = s.length - 1 := by
      rw [List.length_eraseIdx, if_pos hk']
    rw [← ih, hl, List.map_map]
    rfl

theorem length_arrangements (s : List α) (r : Nat) :
    (arrangements s r).length = s.length.descFactorial r := by
  rw [← map_picked_allDigits, List.length_map, length_allDigits]

theorem mem_arrangements_iff (s : List α) (hs : s.Nodup) (r : Nat) (t : List α) :
    t ∈ arrangements s r ↔ t.length = r ∧ t.Nodup ∧ ∀ x ∈ t, x ∈ s := by
  induction r generalizing s t with
  | zero =>
    simp only [arrangements, List.mem_singleton]
    constructor
    · rintro rfl
      simp
    · rintro ⟨h, -, -⟩
      exact List.length_eq_zero.1 h
  | succ r ih =>
    simp only [arrangements, List.mem_flatMap, List.mem_map, List.mem_range'_1]
    constructor
    · rintro ⟨k, ⟨-, hk⟩, t', ht', rfl⟩
      have hk' : k < s.length := by omega
      obtain ⟨h1, h2, h3⟩ := (ih _ (hs.eraseIdx k) t').1 ht'
      rw [take_one_drop s k hk']
      refine ⟨by simp [h1], ?_, ?_⟩
      · simp only [List.singleton_append, List.nodup_cons]
        refine ⟨fun hmem => ?_, h2⟩
        obtain ⟨i, hi, hik, heq⟩ := List.mem_eraseIdx_iff_getElem.1 (h3 _ hmem)
        exact hik ((List.Nodup.getElem_inj_iff hs).1 heq)
      · intro x hx
        simp only [List.singleton_append, List.mem_cons] at hx
        rcases hx with rfl | hx
        · exact List.getElem_mem _
        · exact List.eraseIdx_subset _ _ (h3 x hx)
    · rintro ⟨h1, h2, h3⟩
      cases t with
      | nil => simp at h1
      | cons x t' =>
        obtain ⟨k, hk, rfl⟩ := List.getElem_of_mem (h3 x (List.mem_cons_self _ _))
        refine ⟨k, ⟨Nat.zero_le _, by omega⟩, t', ?_, by rw [take_one_drop s k hk]; rfl⟩
        rw [ih _ (hs.eraseIdx k)]
        simp only [List.nodup_cons] at h2
        refine ⟨by simpa using h1, h2.2, fun y hy => ?_⟩
        obtain ⟨i, hi, rfl⟩ := List.getElem_of_mem (h3 y (List.mem_cons_of_mem _ hy))
        refine List.mem_eraseIdx_iff_getElem.2 ⟨i, hi, ?_, rfl⟩
        rintro rfl
        exact h2.1 hy

theorem nodup_arrangements (s : List α) (hs : s.Nodup) (r : Nat) :
    (arrangements s r).Nodup := by
  induction r generalizing s with
  | zero => simp [arrangements]
  | succ r ih =>
    simp only [arrangements]
    rw [List.nodup_flatMap]
    refine ⟨fun k _ => ?_, ?_⟩
    · exact (ih _ (hs.eraseIdx k)).map (fun a b h => List.append_cancel_left h)
    · refine List.Pairwise.imp_of_mem ?_ (List.nodup_range' 0 s.length)
      intro a b ha hb hab
      have ha' : a < s.length := by simpa using ha
      have hb' : b < s.length := by simpa using hb
      rw [Function.onFun, take_one_drop s a ha', take_one_drop s b hb']
      intro t hta htb
      simp only [List.mem_map] at hta htb
      obtain ⟨ta, -, rfl⟩ := hta
      obtain ⟨tb, -, heq⟩ := htb
      simp only [List.singleton_append, List.cons.injEq] at heq
      exact hab ((List.Nodup.getElem_inj_iff hs).1 heq.1).symm

end Picked

/-! ## The loops of `permutations` -/

section PermLoops

theorem cyc_append (m : Nat) (pre ds : List Nat) :
    cyc m (pre ++ ds) = cyc m pre ++ cyc (m - pre.length) ds := by
  induction pre generalizing m with
  | nil => rfl
  | cons d pre ih =>
    rw [List.cons_append, cyc, cyc, ih, List.length_cons,
      show m - 1 - pre.length = m - (pre.length + 1) by omega, List.cons_append]

theorem length_cyc (m : Nat) (ds : List Nat) : (cyc m ds).length = ds.length := by
  induction ds generalizing m with
  | nil => rfl
  | cons d ds ih => simp [cyc, ih]

theorem cyc_zeros (n r : Nat) (h : r ≤ n) :
    (List.range r).map (fun (i : Nat) => (n : Int) - (i : Int)) = cyc n (List.replicate r 0) := by
  induction r generalizing n with
  | zero => rfl
  | succ r ih =>
    obtain ⟨m, rfl⟩ : ∃ m, n = m + 1 := ⟨n - 1, by omega⟩
    rw [List.range_succ_eq_map, List.replicate_succ]
    simp only [List.map_cons, List.map_map, cyc, Nat.add_sub_cancel, ← ih m (by omega)]
    congr 1
    apply List.map_congr_left
    intro i _
    simp only [Function.comp, Nat.succ_eq_add_one]
    push_cast
    ring

theorem validDigits_append (m : Nat) (pre ds : List Nat) :
    ValidDigits m (pre ++ ds) ↔ ValidDigits m pre ∧ ValidDigits (m - pre.length) ds := by
  induction pre generalizing m with
  | nil => simp [ValidDigits]
  | cons d pre ih =>
    rw [List.cons_append, ValidDigits, ValidDigits, ih, List.length_cons,
      show m - 1 - pre.length = m - (pre.length + 1) by omega, and_assoc]

theorem validDigits_zeros (m k : Nat) (h : k ≤ m) : ValidDigits m (List.replicate k 0) := by
  induction k generalizing m with
  | zero => trivial
  | succ k ih => exact ⟨by omega, ih (m - 1) (by omega)⟩

theorem getI_append_cons (P : List Int) (x : Int) (Q : List Int) (j : Int)
    (hj : j = P.length) : getI (P ++ x :: Q) j = some x := by
  subst hj
  simp [getI, List.getElem?_append_right (le_refl P.length)]

theorem setI_append_cons (P : List Int) (x : Int) (Q : List Int) (j v : Int)
    (hj : j = P.length) : setI (P ++ x :: Q) j v = some (P ++ v :: Q) := by
  subst hj
  simp [setI]

theorem rotateLoop_spec (t : List Int) : ∀ (P : List Int) (x : Int) (j : Int),
    j = P.length → ∃ y, rotateLoop t.length j (P ++ x :: t) = some (P ++ t ++ [y]) := by
  induction t with
  | nil =>
    intro P x j _
    exact ⟨x, by simp [rotateLoop]⟩
  | cons y t ih =>
    intro P x j hj
    have h1 : getI (P ++ x :: y :: t) (j + 1) = some y := by
      have := getI_append_cons (P ++ [x]) y t (j + 1) (by simp [hj])
      simpa using this
    have h2 : setI (P ++ x :: y :: t) j y = some (P ++ y :: y :: t) :=
      setI_append_cons P x (y :: t) j y hj
    obtain ⟨y', hy'⟩ := ih (P ++ [y]) y (j + 1) (by simp [hj])
    refine ⟨y', ?_⟩
    simp only [List.length_cons, rotateLoop, h1, h2, Option.bind_eq_bind, Option.some_bind]
    simpa using hy'

theorem fillLoop_spec (pool indices : List Int)
    (hlook : ∀ el ∈ indices, getI pool el = some (lookup pool el)) :
    ∀ (cnt : Nat) (k : Int) (R0 R1 : List Int), k = R0.length → R1.length = cnt →
      R0.length + cnt ≤ indices.length →
      fillLoop pool indices cnt k (R0 ++ R1)
        = some (R0 ++ ((indices.drop R0.length).take cnt).map (lookup pool)) := by
  intro cnt
  induction cnt with
  | zero =>
    intro k R0 R1 _ h1 _
    have : R1 = [] := List.length_eq_zero.1 h1
    simp [fillLoop, this]
  | succ cnt ih =>
    intro k R0 R1 hk h1 hlen
    obtain ⟨y, R1', rfl⟩ : ∃ y R1', R1 = y :: R1' := by
      cases R1 with
      | nil => simp at h1
      | cons y t => exact ⟨y, t, rfl⟩
    have hlt : R0.length < indices.length := by omega
    have hel : getI indices k = some indices[R0.length] := by
      subst hk
      simp [getI, List.getElem?_eq_getElem hlt]
    have hv := hlook _ (List.getElem_mem hlt)
    have hset : setI (R0 ++ y :: R1') k (lookup pool indices[R0.length])
        = some (R0 ++ lookup pool indices[R0.length] :: R1') :=
      setI_append_cons R0 y R1' k _ hk
    have := ih (k + 1) (R0 ++ [lookup pool indices[R0.length]]) R1' (by simp [hk])
      (by simpa using h1) (by simp; omega)
    have e : ((indices.drop R0.length).take (cnt + 1)).map (lookup pool)
        = lookup pool indices[R0.length]
          :: ((indices.drop (R0.length + 1)).take cnt).map (lookup pool) := by
      rw [List.drop_eq_getElem_cons hlt]
      rfl
    simp only [fillLoop, hel, hv, hset, Option.bind_eq_bind, Option.some_bind, e]
    simp only [List.append_assoc, List.singleton_append, List.length_append,
      List.length_singleton] at this
    exact this

theorem initResult_spec (pool : List Int) (l : List Int)
    (hlook : ∀ el ∈ l, getI pool el = some (lookup pool el)) :
    initResult pool l = some (l.map (lookup pool)) := by
  induction l with
  | nil => rfl
  | cons el rest ih =>
    simp only [initResult, hlook el (List.mem_cons_self _ _),
      ih (fun e he => hlook e (List.mem_cons_of_mem _ he)), Option.bind_eq_bind,
      Option.some_bind, List.map_cons]

theorem getI_idx0 (pool : List Int) (el : Int) (h : el ∈ idx0 pool.length) :
    getI pool el = some (lookup pool el) := by
  simp only [idx0, List.mem_map, List.mem_range] at h
  obtain ⟨i, hi, rfl⟩ := h
  simp [lookup, getI, List.getElem?_eq_getElem hi]

theorem map_lookup_idx0 (pool : List Int) : (idx0 pool.length).map (lookup pool) = pool := by
  apply List.ext_getElem
  · simp [idx0]
  · intro i h1 h2
    simp [idx0, lookup, getI, List.getElem?_eq_getElem h2]

theorem length_idx0 (n : Nat) : (idx0 n).length = n := by simp [idx0]

theorem split_two {α : Type} (s : List α) (d : Nat) (h : d + 1 < s.length) :
    ∃ A x y B, s = A ++ x :: y :: B ∧ A.length = d := by
  refine ⟨s.take d, s[d], s[d + 1], s.drop (d + 2), ?_, by simp; omega⟩
  have h1 : s.drop d = s[d] :: s.drop (d + 1) := List.drop_eq_getElem_cons (by omega)
  have h2 : s.drop (d + 1) = s[d + 1] :: s.drop (d + 2) := List.drop_eq_getElem_cons h
  rw [← h2, ← h1, List.take_append_drop]

theorem split_last {α : Type} (s : List α) (d : Nat) (h : d + 1 = s.length) :
    ∃ A x, s = A ++ [x] ∧ A.length = d := by
  refine ⟨s.take d, s[d], ?_, by simp; omega⟩
  have h1 : s.drop d = s[d] :: s.drop (d + 1) := List.drop_eq_getElem_cons (by omega)
  have h2 : s.drop (d + 1) = [] := List.drop_of_length_le (by omega)
  rw [← h2, ← h1, List.take_append_drop]

theorem picked_single {α : Type} (A : List α) (x : α) (Q : List α) :
    picked (A ++ x :: Q) [A.length] = [x] := by
  simp [picked]

theorem unpicked_single {α : Type} (A : List α) (x : α) (Q : List α) :
    unpicked (A ++ x :: Q) [A.length] = A ++ Q := by
  simp [unpicked, List.eraseIdx_append_of_length_le]

theorem innerLoop_spec (pool : List Int) (R : Nat) (hR : R ≤ pool.length) :
    ∀ (c : Nat) (pre mx : List Nat) (st : PermState),
      pre.length = c → pre.length + mx.length = R → ValidDigits pool.length pre →
      Maxed (pool.length - c) mx →
      st.indices = picked (idx0 pool.length) pre ++ unpicked (idx0 pool.length) pre →
      st.cycles = cyc pool.length (pre ++ List.replicate mx.length 0) →
      st.result.length = R → st.result.take c = picked pool pre →
      (Maxed pool.length (pre ++ mx) ∧
        ∃ st', innerLoop pool pool.length R c st = some (false, st') ∧ st'.res = st.res) ∨
      (∃ pre0 d mx0, pre ++ mx = pre0 ++ d :: mx0 ∧ d + 1 < pool.length - pre0.length ∧
        Maxed (pool.length - pre0.length - 1) mx0 ∧
        innerLoop pool pool.length R c st
          = some (true, stateOf pool (pre0 ++ (d + 1) :: List.replicate mx0.length 0)
              (st.res ++ [picked pool (pre0 ++ (d + 1) :: List.replicate mx0.length 0)]))) := by
  intro c
  induction c with
  | zero =>
    intro pre mx st hc _ _ hmx _ _ _ _
    have : pre = [] := List.length_eq_zero.1 hc
    subst this
    exact Or.inl ⟨by simpa using hmx, st, rfl, rfl⟩
  | succ c ih =>
    intro pre mx st hc hlen hval hmx hind hcyc hrl hrt
    obtain ⟨pre0, d, rfl⟩ : ∃ pre0 d, pre = pre0 ++ [d] := by
      rcases List.eq_nil_or_concat pre with h | ⟨L, b, h⟩
      · simp [h] at hc
      · exact ⟨L, b, by simpa using h⟩
    have hc0 : pre0.length = c := by simpa using hc
    obtain ⟨hval0, hvd⟩ := (validDigits_append _ _ _).1 hval
    have hd : d < pool.length - c := by
      rw [hc0] at hvd
      exact hvd.1
    -- the unselected positions
    have hsl : (unpicked (idx0 pool.length) pre0).length = pool.length - c := by
      rw [length_unpicked _ _ (by rw [length_idx0]; exact hval0), length_idx0, hc0]
    have hpl : (picked (idx0 pool.length) pre0).length = c := by
      rw [length_picked _ _ (by rw [length_idx0]; exact hval0), hc0]
    have hcl : (cyc pool.length pre0).length = c := by rw [length_cyc, hc0]
    -- the cycle counter at position `c`
    have hcyc' : st.cycles = cyc pool.length pre0
        ++ (((pool.length - c : Nat) : Int) - (d : Int))
          :: cyc (pool.length - c - 1) (List.replicate mx.length 0) := by
      rw [hcyc, List.append_assoc, cyc_append, hc0]
      rfl
    have hci : getI st.cycles (c : Int) = some (((pool.length - c : Nat) : Int) - (d : Int)) := by
      rw [hcyc']
      exact getI_append_cons _ _ _ _ (by rw [hcl])
    have hset1 : ∀ v : Int, setI st.cycles (c : Int) v = some (cyc pool.length pre0
        ++ v :: cyc (pool.length - c - 1) (List.replicate mx.length 0)) := by
      intro v
      rw [hcyc']
      exact setI_append_cons _ _ _ _ _ (by rw [hcl])
    have hind' : st.indices = picked (idx0 pool.length) pre0
        ++ (picked (unpicked (idx0 pool.length) pre0) [d]
          ++ unpicked (unpicked (idx0 pool.length) pre0) [d]) := by
      rw [hind, picked_append, unpicked_append, List.append_assoc]
    have hrt0 : st.result.take c = picked pool pre0 := by
      have h1 : (st.result.take (c + 1)).take c = (picked pool (pre0 ++ [d])).take c := by
        rw [hrt]
      rw [List.take_take, Nat.min_eq_left (by omega), picked_append, List.take_left'
        (by rw [length_picked _ _ hval0, hc0])] at h1
      exact h1
    by_cases hcarry : d + 1 = pool.length - c
    · -- the counter is exhausted: rotate and go on with position `c - 1`
      obtain ⟨A, x, hs, hA⟩ := split_last (unpicked (idx0 pool.length) pre0) d (by omega)
      have hind2 : st.indices = picked (idx0 pool.length) pre0 ++ x :: A := by
        rw [hind', hs, ← hA, picked_single, unpicked_single]
        simp
      have hz : ((pool.length - c : Nat) : Int) - (d : Int) - 1 = 0 := by omega
      have hidx : getI st.indices (c : Int) = some x := by
        rw [hind2]
        exact getI_append_cons _ _ _ _ (by rw [hpl])
      obtain ⟨y, hrot⟩ := rotateLoop_spec A (picked (idx0 pool.length) pre0) x (c : Int)
        (by rw [hpl])
      have hcnt : ((pool.length : Int) - 1 - (c : Int)).toNat = A.length := by omega
      have hset2 : setI (picked (idx0 pool.length) pre0 ++ A ++ [y]) ((pool.length : Int) - 1) x
          = some (picked (idx0 pool.length) pre0 ++ A ++ [x]) :=
        setI_append_cons _ _ _ _ _ (by rw [List.length_append, hpl, hA]; omega)
      have hset3 : ∀ v0 : Int, setI (cyc pool.length pre0 ++ v0
            :: cyc (pool.length - c - 1) (List.replicate mx.length 0)) (c : Int)
            ((pool.length : Int) - (c : Int))
          = some (cyc pool.length pre0 ++ ((pool.length : Int) - (c : Int))
            :: cyc (pool.length - c - 1) (List.replicate mx.length 0)) :=
        fun v0 => setI_append_cons _ _ _ _ _ (by rw [hcl])
      have hstep : innerLoop pool pool.length R (c + 1) st
          = innerLoop pool pool.length R c
              { st with
                indices := picked (idx0 pool.length) pre0 ++ A ++ [x]
                cycles := cyc pool.length pre0 ++ ((pool.length : Int) - (c : Int))
                  :: cyc (pool.length - c - 1) (List.replicate mx.length 0) } := by
        rw [innerLoop]
        simp only [hci, hset1, hz, hidx, hcnt, Option.bind_eq_bind, Option.some_bind, if_true]
        rw [hind2, hrot]
        simp only [Option.some_bind, hset2, hset3]
      have hmx' : Maxed (pool.length - c) (d :: mx) := by
        refine ⟨hcarry, ?_⟩
        rw [show pool.length - c - 1 = pool.length - (c + 1) by omega]
        exact hmx
      have hcast : (((pool.length - c : Nat) : Int) - ((0 : Nat) : Int))
          = (pool.length : Int) - (c : Int) := by omega
      have := ih pre0 (d :: mx)
        { st with
          indices := picked (idx0 pool.length) pre0 ++ A ++ [x]
          cycles := cyc pool.length pre0 ++ ((pool.length : Int) - (c : Int))
            :: cyc (pool.length - c - 1) (List.replicate mx.length 0) }
        hc0 (by simp at hlen ⊢; omega) hval0 hmx'
        (by
          show _ ++ A ++ [x] = _
          rw [hs, List.append_assoc])
        (by
          show _ = cyc pool.length (pre0 ++ List.replicate (mx.length + 1) 0)
          rw [cyc_append, hc0, List.replicate_succ, cyc, hcast])
        hrl hrt0
      rw [hstep]
      rcases this with ⟨h1, st', h2, h3⟩ | ⟨pre00, d0, mx0, h1, h2, h3, h4⟩
      · exact Or.inl ⟨by simpa using h1, st', h2, h3⟩
      · exact Or.inr ⟨pre00, d0, mx0, by simpa using h1, h2, h3, h4⟩
    · -- the counter is not exhausted: swap, refresh the result and leave the loop
      have hlt : d + 1 < pool.length - c := by omega
      obtain ⟨A, x, y, B, hs, hA⟩ := split_two (unpicked (idx0 pool.length) pre0) d (by omega)
      have hind2 : st.indices = picked (idx0 pool.length) pre0 ++ x :: (A ++ y :: B) := by
        rw [hind', hs, ← hA, picked_single, unpicked_single]
        simp
      have hnz : ¬ (((pool.length - c : Nat) : Int) - (d : Int) - 1 = 0) := by omega
      have hidx : getI st.indices (c : Int) = some x := by
        rw [hind2]
        exact getI_append_cons _ _ _ _ (by rw [hpl])
      have hnj : (pool.length : Int) - (((pool.length - c : Nat) : Int) - (d : Int) - 1)
          = ((picked (idx0 pool.length) pre0 ++ x :: A).length : Int) := by
        rw [List.length_append, List.length_cons, hpl, hA]
        omega
      have hidx2 : getI st.indices
          ((pool.length : Int) - (((pool.length - c : Nat) : Int) - (d : Int) - 1)) = some y := by
        rw [hind2, show picked (idx0 pool.length) pre0 ++ x :: (A ++ y :: B)
          = (picked (idx0 pool.length) pre0 ++ x :: A) ++ y :: B by simp]
        exact getI_append_cons _ _ _ _ hnj
      have hset4 : setI st.indices (c : Int) y
          = some (picked (idx0 pool.length) pre0 ++ y :: (A ++ y :: B)) := by
        rw [hind2]
        exact setI_append_cons _ _ _ _ _ (by rw [hpl])
      have hset5 : setI (picked (idx0 pool.length) pre0 ++ y :: (A ++ y :: B))
          ((pool.length : Int) - (((pool.length - c : Nat) : Int) - (d : Int) - 1)) x
          = some (picked (idx0 pool.length) pre0 ++ y :: (A ++ x :: B)) := by
        rw [show picked (idx0 pool.length) pre0 ++ y :: (A ++ y :: B)
          = (picked (idx0 pool.length) pre0 ++ y :: A) ++ y :: B by simp,
          show picked (idx0 pool.length) pre0 ++ y :: (A ++ x :: B)
          = (picked (idx0 pool.length) pre0 ++ y :: A) ++ x :: B by simp]
        exact setI_append_cons _ _ _ _ _ (by rw [hnj]; simp)
      -- the new digit string
      have hvalD : ValidDigits pool.length (pre0 ++ (d + 1) :: List.replicate mx.length 0) := by
        rw [validDigits_append, hc0]
        refine ⟨hval0, hlt, validDigits_zeros _ _ ?_⟩
        simp at hlen
        omega
      have hI2 : picked (idx0 pool.length) pre0 ++ y :: (A ++ x :: B)
          = picked (idx0 pool.length) (pre0 ++ (d + 1) :: List.replicate mx.length 0)
            ++ unpicked (idx0 pool.length) (pre0 ++ (d + 1) :: List.replicate mx.length 0) := by
        rw [show pre0 ++ (d + 1) :: List.replicate mx.length 0
          = (pre0 ++ [d + 1]) ++ List.replicate mx.length 0 by simp, picked_unpicked_zeros,
          picked_append, unpicked_append, hs,
          show A ++ x :: y :: B = (A ++ [x]) ++ y :: B by simp,
          show d + 1 = (A ++ [x]).length by simp [hA], picked_single, unpicked_single]
        simp
      have hDl : (picked (idx0 pool.length)
          (pre0 ++ (d + 1) :: List.replicate mx.length 0)).length = R := by
        rw [length_picked _ _ (by rw [length_idx0]; exact hvalD)]
        simp at hlen ⊢
        omega
      have hcR : c < R := by
        simp at hlen
        omega
      have hfill : fillLoop pool (picked (idx0 pool.length) pre0 ++ y :: (A ++ x :: B))
          ((R : Int) - (c : Int)).toNat (c : Int) st.result
          = some (picked pool (pre0 ++ (d + 1) :: List.replicate mx.length 0)) := by
        have hspec := fillLoop_spec pool (picked (idx0 pool.length) pre0 ++ y :: (A ++ x :: B))
          (by
            intro el hel
            apply getI_idx0
            rw [hI2, List.mem_append] at hel
            rcases hel with h | h
            · exact mem_of_mem_picked _ _ _ h
            · exact mem_of_mem_unpicked _ _ _ h)
          ((R : Int) - (c : Int)).toNat (c : Int) (st.result.take c) (st.result.drop c)
          (by rw [List.length_take, hrl, Nat.min_eq_left (by omega)])
          (by rw [List.length_drop, hrl]; omega)
          (by
            rw [List.length_take, hrl, Nat.min_eq_left (by omega), hI2, List.length_append, hDl]
            omega)
        rw [List.take_append_drop] at hspec
        rw [hspec, hI2, List.length_take, hrl, Nat.min_eq_left (by omega),
          List.drop_append_of_le_length (by omega),
          show ((R : Int) - (c : Int)).toNat = (List.drop c (picked (idx0 pool.length)
            (pre0 ++ (d + 1) :: List.replicate mx.length 0))).length by
              rw [List.length_drop, hDl]; omega,
          List.take_left', List.map_drop, ← picked_map, map_lookup_idx0, hrt0]
        · congr 1
          conv_rhs => rw [← List.take_append_drop c
            (picked pool (pre0 ++ (d + 1) :: List.replicate mx.length 0))]
          congr 1
          rw [picked_append, List.take_left' (by rw [length_picked _ _ hval0, hc0])]
        · rfl
      have hcyc2 : cyc pool.length pre0 ++ (((pool.length - c : Nat) : Int) - (d : Int) - 1)
            :: cyc (pool.length - c - 1) (List.replicate mx.length 0)
          = cyc pool.length (pre0 ++ (d + 1) :: List.replicate mx.length 0) := by
        rw [cyc_append, hc0, cyc]
        congr 2
        push_cast
        ring
      refine Or.inr ⟨pre0, d, mx, by simp, by rw [hc0]; exact hlt, ?_, ?_⟩
      · rw [hc0, show pool.length - c - 1 = pool.length - (c + 1) by omega]
        exact hmx
      · rw [innerLoop]
        simp only [hci, hset1, hnz, hidx, hidx2, hset4, hset5, hfill, Option.bind_eq_bind,
          Option.some_bind, if_false, stateOf, hcyc2]
        rw [hI2]

theorem outerLoop_spec (pool : List Int) (R : Nat) (hR : R ≤ pool.length) :
    ∀ (fuel : Nat) (ds : List Nat) (res : List (List Int)),
      ValidDigits pool.length ds → ds.length = R → (laterDigits pool.length ds).length < fuel →
      outerLoop pool pool.length R fuel (stateOf pool ds res)
        = some (res ++ (laterDigits pool.length ds).map (picked pool)) := by
  intro fuel
  induction fuel with
  | zero =>
    intro ds res _ _ h
    omega
  | succ fuel ih =>
    intro ds res hval hlen hfuel
    rw [outerLoop]
    by_cases hn : ((pool.length : Int) > 0)
    · rw [if_pos hn, Int.toNat_ofNat]
      have hspec := innerLoop_spec pool R hR R ds [] (stateOf pool ds res) hlen (by simpa using hlen)
        hval trivial rfl (by simp [stateOf]) (by simp [stateOf, length_picked _ _ hval, hlen])
        (by
          simp only [stateOf]
          exact List.take_of_length_le (by rw [length_picked _ _ hval, hlen]))
      rcases hspec with ⟨hmax, st', hst, hres⟩ | ⟨pre0, d, mx0, hsplit, hd, hmx, hst⟩
      · rw [List.append_nil] at hmax
        rw [hst, laterDigits_maxed _ _ hmax]
        simp [hres, stateOf]
      · rw [List.append_nil] at hsplit
        subst hsplit
        have hlen' : pre0.length + 1 + mx0.length ≤ pool.length := by
          simp at hlen
          omega
        have hval' : ValidDigits pool.length (pre0 ++ (d + 1) :: List.replicate mx0.length 0) := by
          rw [validDigits_append] at hval ⊢
          exact ⟨hval.1, by omega, validDigits_zeros _ _ (by omega)⟩
        have hstep := laterDigits_step pool.length pre0 d mx0 hd hmx hlen'
        rw [hstep] at hfuel ⊢
        rw [hst]
        simp only [Option.bind_eq_bind, Option.some_bind, if_true]
        rw [ih _ _ hval' (by simpa using hlen) (by simpa using hfuel)]
        simp [stateOf]
    · rw [if_neg hn]
      have h0 : pool.length = 0 := by omega
      have : ds = [] := List.length_eq_zero.1 (by omega)
      subst this
      simp [stateOf, laterDigits]

/-- With enough fuel `permutations` returns the arrangements of the pool, in the order of the
digit strings. -/
theorem permutations_eq_arrangements (pool : List Int) (R : Nat) (hR : R ≤ pool.length)
    (fuel : Nat) (hfuel : pool.length.descFactorial R ≤ fuel) :
    permutations fuel pool (R : Int) = some (arrangements pool R) := by
  have h1 : ¬ ((R : Int) > (pool.length : Int)) := by omega
  have h2 : ¬ ((R : Int) < 0) := by omega
  have hinit : initResult pool ((List.map Int.ofNat (List.range pool.length)).take R)
      = some (picked pool (List.replicate R 0)) := by
    show initResult pool ((idx0 pool.length).take R) = _
    rw [initResult_spec pool _ (fun el hel => getI_idx0 pool el (List.mem_of_mem_take hel)),
      List.map_take, map_lookup_idx0, picked_replicate_zero]
  have hst : ({ indices := List.map Int.ofNat (List.range pool.length)
                cycles := List.map (fun (i : Nat) => (pool.length : Int) - (i : Int)) (List.range R)
                result := picked pool (List.replicate R 0)
                res := [picked pool (List.replicate R 0)] } : PermState)
      = stateOf pool (List.replicate R 0) [picked pool (List.replicate R 0)] := by
    simp only [stateOf, picked_replicate_zero, unpicked_replicate_zero, List.take_append_drop,
      cyc_zeros _ _ hR]
    rfl
  have hall := allDigits_eq_cons pool.length R hR
  have hlen : (laterDigits pool.length (List.replicate R 0)).length < fuel := by
    have := length_allDigits pool.length R
    rw [hall, List.length_cons] at this
    omega
  simp only [permutations, h1, h2, if_false, Int.toNat_ofNat, hinit, Option.bind_eq_bind,
    Option.some_bind, hst]
  rw [outerLoop_spec pool R hR fuel _ _ (validDigits_zeros _ _ hR) (by simp) hlen,
    ← map_picked_allDigits, hall]
  rfl

end PermLoops

section ReplaceTheorems

variable {Ex σ : Type}

theorem permutations_two (fuel : Nat) (h : 2 ≤ fuel) :
    permutations fuel ((List.range 2).map Int.ofNat) ((2 : Nat) : Int)
      = some [[0, 1], [1, 0]] := by
  obtain ⟨f, rfl⟩ : ∃ f, fuel = f + 2 := ⟨fuel - 2, by omega⟩
  rfl

theorem replaceTwo_of_no_pair (isMatchQ : Ex → Ex → σ → Bool) (es : σ) (p0 p1 rhs : Ex)
    (cs : List Ex)
    (hno : ∀ (i j : Nat) (a b : Ex), i ≠ j → cs[i]? = some a → cs[j]? = some b →
      ¬ (isMatchQ a p0 es = true ∧ isMatchQ b p1 es = true)) :
    replaceTwo isMatchQ es p0 p1 rhs cs = some cs := by
  have h1 : scanOuter isMatchQ es p0 p1 rhs cs.length 0 cs = some (false, cs) := by
    apply scanOuter_none _ _ _ _ _ _ _ _ (by omega)
    intro i' e _ he hm j' e' hne he'
    by_contra hcon
    exact hno i' j' e e' (fun h => hne h.symm) he he' ⟨hm, by simpa using hcon⟩
  have h2 : scanOuter isMatchQ es p1 p0 rhs cs.length 0 cs = some (false, cs) := by
    apply scanOuter_none _ _ _ _ _ _ _ _ (by omega)
    intro i' e _ he hm j' e' hne he'
    by_contra hcon
    exact hno j' i' e' e hne he' he ⟨by simpa using hcon, hm⟩
  simp only [replaceTwo, h1, h2]

end ReplaceTheorems

section EqualityLemmas

variable {Ex σ : Type}

theorem iterableLoop_spec (isMatchQ : Ex → Ex → σ → Bool) (deepCopy : Ex → Ex) (r : Rule Ex)
    (es : σ) : ∀ (Q P : List Ex) (i : Nat), i = P.length →
      iterableLoop isMatchQ deepCopy r es Q.length i (P ++ Q)
        = some (P ++ Q.map (fun e => if isMatchQ e r.Lhs es then deepCopy r.Rhs else e)) := by
  intro Q
  induction Q with
  | nil =>
    intro P i _
    simp [iterableLoop]
  | cons e Q ih =>
    intro P i hi
    subst hi
    have hg : (P ++ e :: Q)[P.length]? = some e := by
      simp [List.getElem?_append_right (le_refl P.length)]
    have hset : ∀ v : Ex, (P ++ e :: Q).set P.length v = (P ++ [v]) ++ Q := by
      intro v
      simp
    have ih1 := ih (P ++ [deepCopy r.Rhs]) (P.length + 1) (by simp)
    have ih2 := ih (P ++ [e]) (P.length + 1) (by simp)
    simp only [List.length_cons, iterableLoop, List.get?_eq_getElem?, hg, hset]
    by_cases hm : isMatchQ e r.Lhs es = true
    · simp only [hm, if_true, ih1, List.map_cons]
      simp
    · simp only [hm, List.map_cons]
      rw [show P ++ e :: Q = (P ++ [e]) ++ Q by simp, ih2]
      simp

/-- The loop of `FunctionIsEqual` over verdicts from the three constants: `EQUAL_TRUE` when
all the pairs left have verdict `EQUAL_TRUE`, `EQUAL_UNK` otherwise. -/
theorem functionLoop_spec (isEqual : Ex → Ex → σ → String) (es : σ) (others : List Ex) :
    ∀ (rest : List Ex) (i : Nat),
      (∀ k a, rest[k]? = some a → ∃ b, others[i + k]? = some b ∧
        (isEqual a b es = "EQUAL_TRUE" ∨ isEqual a b es = "EQUAL_FALSE" ∨
          isEqual a b es = "EQUAL_UNK")) →
      (functionLoop isEqual es others rest i = some "EQUAL_TRUE" ↔
        ∀ k a b, rest[k]? = some a → others[i + k]? = some b → isEqual a b es = "EQUAL_TRUE") ∧
      (functionLoop isEqual es others rest i = some "EQUAL_TRUE" ∨
        functionLoop isEqual es others rest i = some "EQUAL_UNK") := by
  intro rest
  induction rest with
  | nil =>
    intro i _
    simp [functionLoop]
  | cons a rest ih =>
    intro i h
    obtain ⟨b, hb, hv⟩ := h 0 a (by simp)
    rw [Nat.add_zero] at hb
    have ih' := ih (i + 1) (fun k a' hk => by
      have := h (k + 1) a' (by simpa using hk)
      rwa [show i + (k + 1) = i + 1 + k by omega] at this)
    have hstep : (∀ k a' b', (a :: rest)[k]? = some a' → others[i + k]? = some b' →
          isEqual a' b' es = "EQUAL_TRUE") ↔
        (isEqual a b es = "EQUAL_TRUE" ∧ ∀ k a' b', rest[k]? = some a' →
          others[i + 1 + k]? = some b' → isEqual a' b' es = "EQUAL_TRUE") := by
      constructor
      · intro hall
        refine ⟨hall 0 a b (by simp) (by rwa [Nat.add_zero]), fun k a' b' h1 h2 => ?_⟩
        exact hall (k + 1) a' b' (by simpa using h1)
          (by rwa [show i + (k + 1) = i + 1 + k by omega])
      · rintro ⟨h0, hrest⟩ k a' b' h1 h2
        cases k with
        | zero =>
          simp only [List.getElem?_cons_zero, Option.some.injEq] at h1
          rw [Nat.add_zero, hb] at h2
          cases h1
          cases h2
          exact h0
        | succ k =>
          exact hrest k a' b' (by simpa using h1)
            (by rwa [show i + 1 + k = i + (k + 1) by omega])
    rw [hstep]
    simp only [functionLoop, List.get?_eq_getElem?, hb]
    rcases hv with hv | hv | hv
    · simp only [hv]
      simpa using ih'
    · simp [hv]
    · simp [hv]

end EqualityLemmas

section ExpressionLemmas

open Atoms

variable {Atom : Type}

/-- The loop of `Expression.IsEqual` over verdicts from the three constants: `EQUAL_TRUE` when
all the pairs left have verdict `EQUAL_TRUE`, `EQUAL_UNK` otherwise. -/
theorem isEqualLoop_spec (atomIsEqual : Atom → Ex Atom → String) (others : List (Ex Atom)) :
    ∀ (rest : List (Ex Atom)) (i : Nat),
      (∀ k a, rest[k]? = some a → ∃ b, others[i + k]? = some b ∧
        (Ex.IsEqual atomIsEqual a b = some "EQUAL_TRUE" ∨
          Ex.IsEqual atomIsEqual a b = some "EQUAL_FALSE" ∨
          Ex.IsEqual atomIsEqual a b = some "EQUAL_UNK")) →
      (isEqualLoop atomIsEqual others rest i = some "EQUAL_TRUE" ↔
        ∀ k a b, rest[k]? = some a → others[i + k]? = some b →
          Ex.IsEqual atomIsEqual a b = some "EQUAL_TRUE") ∧
      (isEqualLoop atomIsEqual others rest i = some "EQUAL_TRUE" ∨
        isEqualLoop atomIsEqual others rest i = some "EQUAL_UNK") := by
  intro rest
  induction rest with
  | nil =>
    intro i _
    simp [isEqualLoop]
  | cons a rest ih =>
    intro i h
    obtain ⟨b, hb, hv⟩ := h 0 a (by simp)
    rw [Nat.add_zero] at hb
    have ih' := ih (i + 1) (fun k a' hk => by
      have := h (k + 1) a' (by simpa using hk)
      rwa [show i + (k + 1) = i + 1 + k by omega] at this)
    have hstep : (∀ k a' b', (a :: rest)[k]? = some a' → others[i + k]? = some b' →
          Ex.IsEqual atomIsEqual a' b' = some "EQUAL_TRUE") ↔
        (Ex.IsEqual atomIsEqual a b = some "EQUAL_TRUE" ∧ ∀ k a' b', rest[k]? = some a' →
          others[i + 1 + k]? = some b' → Ex.IsEqual atomIsEqual a' b' = some "EQUAL_TRUE") := by
      constructor
      · intro hall
        refine ⟨hall 0 a b (by simp) (by rwa [Nat.add_zero]), fun k a' b' h1 h2 => ?_⟩
        exact hall (k + 1) a' b' (by simpa using h1)
          (by rwa [show i + (k + 1) = i + 1 + k by omega])
      · rintro ⟨h0, hrest⟩ k a' b' h1 h2
        cases k with
        | zero =>
          simp only [List.getElem?_cons_zero, Option.some.injEq] at h1
          rw [Nat.add_zero, hb] at h2
          cases h1
          cases h2
          exact h0
        | succ k =>
          exact hrest k a' b' (by simpa using h1)
            (by rwa [show i + 1 + k = i + (k + 1) by omega])
    rw [hstep]
    simp only [isEqualLoop, List.get?_eq_getElem?, hb]
    rcases hv with hv | hv | hv
    · simp only [hv]
      simpa using ih'
    · simp [hv]
    · simp [hv]

theorem expression_isEqual_expr (atomIsEqual : Atom → Ex Atom → String)
    (thisExpr other : Expression Atom) :
    Expression.IsEqual atomIsEqual thisExpr (.expr other)
      = if thisExpr.Parts.length ≠ other.Parts.length then some "EQUAL_UNK"
        else isEqualLoop atomIsEqual other.Parts thisExpr.Parts 0 := by
  cases thisExpr
  rw [Expression.IsEqual]

end ExpressionLemmas

section CommutativeLemmas

variable {Ex σ : Type}

theorem commutativeInner_cons (isEqual : Ex → Ex → σ → String) (es : σ) (e1 e2 : Ex)
    (rest : List Ex) (j : Nat) (matched : List Nat) :
    commutativeInner isEqual es e1 (e2 :: rest) j matched
      = if j ∈ matched then commutativeInner isEqual es e1 rest (j + 1) matched
        else if isEqual e1 e2 es = "EQUAL_TRUE" then (true, j :: matched)
        else commutativeInner isEqual es e1 rest (j + 1) matched := by
  rw [commutativeInner]
  by_cases hj : j ∈ matched
  · simp only [hj, if_true]
  · simp only [hj, if_false]
    by_cases ht : isEqual e1 e2 es = "EQUAL_TRUE"
    · simp only [ht, if_true]
      rfl
    · simp only [ht, if_false, ite_self]

theorem unmatchedFrom_cons_of_lt {α : Type} (matched : List Nat) (j0 j : Nat) (L : List α)
    (h : j0 < j) : unmatchedFrom (j0 :: matched) j L = unmatchedFrom matched j L := by
  induction L generalizing j with
  | nil => rfl
  | cons b rest ih =>
    have hne : j ≠ j0 := by omega
    simp only [unmatchedFrom, List.mem_cons, hne, false_or, ih (j + 1) (by omega)]

theorem unmatchedFrom_nil {α : Type} (j : Nat) (L : List α) : unmatchedFrom [] j L = L := by
  induction L generalizing j with
  | nil => rfl
  | cons b rest ih => simp [unmatchedFrom, ih]

/-- One run of the inner loop: either no free element has verdict `EQUAL_TRUE`, or the first
free one, at position `j1`, is taken. -/
theorem commutativeInner_spec (isEqual : Ex → Ex → σ → String) (es : σ) (e1 : Ex)
    (matched : List Nat) : ∀ (L : List Ex) (j : Nat),
      (commutativeInner isEqual es e1 L j matched = (false, matched) ∧
        takeFirst (fun b => decide (isEqual e1 b es = "EQUAL_TRUE"))
          (unmatchedFrom matched j L) = none) ∨
      (∃ (j1 : Nat) (b : Ex), j ≤ j1 ∧ j1 ∉ matched ∧ L[j1 - j]? = some b ∧
        isEqual e1 b es = "EQUAL_TRUE" ∧
        commutativeInner isEqual es e1 L j matched = (true, j1 :: matched) ∧
        takeFirst (fun b => decide (isEqual e1 b es = "EQUAL_TRUE"))
          (unmatchedFrom matched j L) = some (unmatchedFrom (j1 :: matched) j L)) := by
  intro L
  induction L with
  | nil =>
    intro j
    exact Or.inl ⟨rfl, rfl⟩
  | cons e2 rest ih =>
    intro j
    rw [commutativeInner_cons]
    by_cases hj : j ∈ matched
    · simp only [hj, if_true, unmatchedFrom]
      rcases ih (j + 1) with h | ⟨j1, b, hle, hn, hb, hm, hres, htf⟩
      · exact Or.inl h
      · refine Or.inr ⟨j1, b, by omega, hn, ?_, hm, hres, ?_⟩
        · rw [show j1 - j = (j1 - (j + 1)) + 1 by omega]
          simpa using hb
        · simp only [List.mem_cons, hj, or_true, if_true]
          exact htf
    · by_cases ht : isEqual e1 e2 es = "EQUAL_TRUE"
      · refine Or.inr ⟨j, e2, le_refl j, hj, by simp, ht, by simp [hj, ht], ?_⟩
        simp [unmatchedFrom, hj, takeFirst, ht, unmatchedFrom_cons_of_lt]
      · simp only [hj, ht, if_false, unmatchedFrom, takeFirst, decide_False, Bool.false_eq_true]
        rcases ih (j + 1) with ⟨h1, h2⟩ | ⟨j1, b, hle, hn, hb, hm, hres, htf⟩
        · exact Or.inl ⟨h1, by simp [h2]⟩
        · refine Or.inr ⟨j1, b, by omega, hn, ?_, hm, hres, ?_⟩
          · rw [show j1 - j = (j1 - (j + 1)) + 1 by omega]
            simpa using hb
          · have hne : j ≠ j1 := by omega
            simp [htf, hj, hne]

/-- The outer loop computes the greedy assignment on the elements not yet taken. -/
theorem commutativeOuter_eq_greedy (isEqual : Ex → Ex → σ → String) (es : σ) (B : List Ex) :
    ∀ (A : List Ex) (matched : List Nat),
      commutativeOuter isEqual es B A matched
        = if greedyAssign (fun a b => decide (isEqual a b es = "EQUAL_TRUE")) A
            (unmatchedFrom matched 0 B) then "EQUAL_TRUE" else "EQUAL_UNK" := by
  intro A
  induction A with
  | nil =>
    intro matched
    simp [commutativeOuter, greedyAssign]
  | cons a rest ih =>
    intro matched
    rw [commutativeOuter, greedyAssign]
    rcases commutativeInner_spec isEqual es a matched B 0 with
      ⟨h1, h2⟩ | ⟨j1, b, _, _, _, _, hres, htf⟩
    · simp [h1, h2]
    · simp only [hres, htf]
      exact ih (j1 :: matched)

/-- `CommutativeIsEqual` in terms of the greedy assignment. -/
theorem commutativeIsEqual_eq (isEqual : Ex → Ex → σ → String) (es : σ) (A B : List Ex) :
    CommutativeIsEqual isEqual A B es
      = if A.length ≠ B.length then "EQUAL_FALSE"
        else if greedyAssign (fun a b => decide (isEqual a b es = "EQUAL_TRUE")) A B
          then "EQUAL_TRUE" else "EQUAL_UNK" := by
  rw [CommutativeIsEqual, commutativeOuter_eq_greedy, unmatchedFrom_nil]

end CommutativeLemmas

section PairingLemmas

variable {Ex σ : Type}

/-- When the outer loop ends with `EQUAL_TRUE`, the positions it has taken, in the order of
the elements of `A`, are pairwise distinct, were free before, and hold partners. -/
theorem commutativeOuter_positions (isEqual : Ex → Ex → σ → String) (es : σ) (B : List Ex) :
    ∀ (A : List Ex) (matched : List Nat),
      commutativeOuter isEqual es B A matched = "EQUAL_TRUE" →
      ∃ js : List Nat, js.Nodup ∧ (∀ j ∈ js, j ∉ matched) ∧
        List.Forall₂ (fun a j => ∃ b, B[j]? = some b ∧ isEqual a b es = "EQUAL_TRUE") A js := by
  intro A
  induction A with
  | nil =>
    intro matched _
    exact ⟨[], List.nodup_nil, by simp, List.Forall₂.nil⟩
  | cons a rest ih =>
    intro matched h
    rw [commutativeOuter] at h
    rcases commutativeInner_spec isEqual es a matched B 0 with
      ⟨h1, -⟩ | ⟨j1, b, -, hn, hb, hm, hres, -⟩
    · rw [h1] at h
      simp at h
    · rw [hres] at h
      obtain ⟨js, hnd, hfree, hall⟩ := ih (j1 :: matched) h
      refine ⟨j1 :: js, List.nodup_cons.2 ⟨fun hmem => ?_, hnd⟩, ?_, ?_⟩
      · exact hfree j1 hmem (List.mem_cons_self _ _)
      · intro j hj
        rcases List.mem_cons.1 hj with rfl | hj
        · exact hn
        · exact fun hmem => hfree j hj (List.mem_cons_of_mem _ hmem)
      · exact List.Forall₂.cons ⟨b, by simpa using hb, hm⟩ hall

/-- A result `EQUAL_TRUE` comes with equal lengths and a bijection pairing Equal elements. -/
theorem pairing_of_commutativeIsEqual (isEqual : Ex → Ex → σ → String) (es : σ)
    (A B : List Ex) (h : CommutativeIsEqual isEqual A B es = "EQUAL_TRUE") :
    A.length = B.length ∧ PairingBijection isEqual es A B := by
  rw [CommutativeIsEqual] at h
  by_cases hlen : A.length = B.length
  · rw [if_neg (by simpa using hlen)] at h
    obtain ⟨js, hnd, -, hall⟩ := commutativeOuter_positions isEqual es B A [] h
    have hjl : A.length = js.length := hall.length_eq
    have hrel : ∀ (i : Nat) (h1 : i < A.length) (h2 : i < js.length),
        ∃ b, B[js.get ⟨i, h2⟩]? = some b ∧ isEqual (A.get ⟨i, h1⟩) b es = "EQUAL_TRUE" :=
      fun i h1 h2 => hall.get h1 h2
    have hlt : ∀ (i : Nat) (h2 : i < js.length), js.get ⟨i, h2⟩ < B.length := by
      intro i h2
      obtain ⟨b, hb, -⟩ := hrel i (by omega) h2
      exact (List.getElem?_eq_some_iff.1 hb).1
    refine ⟨hlen, fun i => ⟨js.get ⟨i.val, by omega⟩, hlt _ _⟩, ?_, ?_⟩
    · rw [Fintype.bijective_iff_injective_and_card]
      refine ⟨fun i i' hii => ?_, by simp [hlen]⟩
      have h1 : js.get ⟨i.val, by omega⟩ = js.get ⟨i'.val, by omega⟩ := by
        simpa using congrArg Fin.val hii
      have h2 := (List.Nodup.get_inj_iff hnd).1 h1
      exact Fin.ext (by simpa using congrArg Fin.val h2)
    · intro i
      obtain ⟨b, hb, hm⟩ := hrel i.val i.isLt (by omega)
      obtain ⟨hb1, hb2⟩ := List.getElem?_eq_some_iff.1 hb
      have : B.get ⟨js.get ⟨i.val, by omega⟩, hlt _ _⟩ = b := by
        simpa using hb2
      rw [this]
      exact hm
  · rw [if_pos (by simpa using hlen)] at h
    exact absurd h (by decide)

end PairingLemmas

section GreedyComplete

variable {α : Type}

theorem takeFirst_eq_none (p : α → Bool) (B : List α) (h : takeFirst p B = none) :
    ∀ b ∈ B, p b = false := by
  induction B with
  | nil => simp
  | cons b rest ih =>
    rw [takeFirst] at h
    by_cases hp : p b = true
    · simp [hp] at h
    · simp only [hp, Bool.false_eq_true, if_false, Option.map_eq_none'] at h
      intro x hx
      rcases List.mem_cons.1 hx with rfl | hx
      · simpa using hp
      · exact ih h x hx

theorem takeFirst_eq_some (p : α → Bool) (B B1 : List α) (h : takeFirst p B = some B1) :
    ∃ b, p b = true ∧ B.Perm (b :: B1) := by
  induction B generalizing B1 with
  | nil => simp [takeFirst] at h
  | cons b rest ih =>
    rw [takeFirst] at h
    by_cases hp : p b = true
    · simp only [hp, if_true, Option.some.injEq] at h
      subst h
      exact ⟨b, hp, List.Perm.refl _⟩
    · simp only [hp, Bool.false_eq_true, if_false, Option.map_eq_some'] at h
      obtain ⟨B2, h2, rfl⟩ := h
      obtain ⟨b1, hb1, hperm⟩ := ih B2 h2
      exact ⟨b1, hb1, (hperm.cons b).trans (List.Perm.swap _ _ _)⟩

/-- The greedy assignment succeeds whenever some assignment of all the elements exists, if
the relation is symmetric and transitive on the elements concerned. -/
theorem greedyAssign_complete (equal : α → α → Bool) (S : α → Prop)
    (hsym : ∀ x y, S x → S y → equal x y = true → equal y x = true)
    (htrans : ∀ x y z, S x → S y → S z → equal x y = true → equal y z = true →
      equal x z = true) :
    ∀ (A B : List α), (∀ x ∈ A, S x) → (∀ x ∈ B, S x) →
      (∃ B1 : List α, B1.Perm B ∧ List.Forall₂ (fun a b => equal a b = true) A B1) →
      greedyAssign equal A B = true := by
  classical
  intro A
  induction A with
  | nil =>
    intro B _ _ _
    rfl
  | cons a rest ih =>
    intro B hA hB hM
    obtain ⟨B1, hperm, hall⟩ := hM
    obtain ⟨b0, B0, hab0, hrest, rfl⟩ := List.forall₂_cons_left_iff.1 hall
    have hSa : S a := hA a (List.mem_cons_self _ _)
    have hSrest : ∀ x ∈ rest, S x := fun x hx => hA x (List.mem_cons_of_mem _ hx)
    have hb0B : b0 ∈ B := hperm.subset (List.mem_cons_self _ _)
    rw [greedyAssign]
    cases htf : takeFirst (equal a) B with
    | none =>
      have := takeFirst_eq_none _ _ htf b0 hb0B
      rw [hab0] at this
      cases this
    | some B2 =>
      obtain ⟨b1, hab1, hB2⟩ := takeFirst_eq_some _ _ _ htf
      have hSB2 : ∀ x ∈ B2, S x := fun x hx =>
        hB x (hB2.symm.subset (List.mem_cons_of_mem _ hx))
      have hSb1 : S b1 := hB b1 (hB2.symm.subset (List.mem_cons_self _ _))
      have hSb0 : S b0 := hB b0 hb0B
      apply ih B2 hSrest hSB2
      have hpp : (b0 :: B0).Perm (b1 :: B2) := hperm.trans hB2
      by_cases hbb : b0 = b1
      · subst hbb
        exact ⟨B0, hpp.cons_inv, hrest⟩
      · have hb1B0 : b1 ∈ B0 := by
          have : b1 ∈ b0 :: B0 := hpp.symm.subset (List.mem_cons_self _ _)
          rcases List.mem_cons.1 this with h | h
          · exact absurd h.symm hbb
          · exact h
        have hB0 : B0.Perm (b1 :: B0.erase b1) := List.perm_cons_erase hb1B0
        have hE : (b0 :: B0.erase b1).Perm B2 := by
          have h1 : (b1 :: b0 :: B0.erase b1).Perm (b1 :: B2) :=
            ((List.Perm.swap b0 b1 _).trans (hB0.symm.cons b0)).trans hpp
          exact h1.cons_inv
        obtain ⟨A2, hA2, hA2p⟩ := List.perm_comp_forall₂ hB0.symm hrest.flip
        obtain ⟨a1, A1, hb1a1, hA1, rfl⟩ := List.forall₂_cons_left_iff.1 hA2
        have ha1 : a1 ∈ rest := hA2p.subset (List.mem_cons_self _ _)
        have hSa1 : S a1 := hSrest a1 ha1
        have h1 : equal b1 a = true := hsym a b1 hSa hSb1 hab1
        have h2 : equal a1 a = true := htrans a1 b1 a hSa1 hSb1 hSa hb1a1 h1
        have h3 : equal a1 b0 = true := htrans a1 a b0 hSa1 hSa hSb0 h2 hab0
        have hall2 : List.Forall₂ (fun a b => equal a b = true) (a1 :: A1)
            (b0 :: B0.erase b1) := List.Forall₂.cons h3 hA1.flip
        obtain ⟨B3, hB3, hB3p⟩ := List.perm_comp_forall₂ hA2p.symm hall2
        exact ⟨B3, hB3p.trans hE, hB3⟩

end GreedyComplete

section PairingBridge

variable {Ex σ : Type}

theorem length_eq_of_pairing (isEqual : Ex → Ex → σ → String) (es : σ) (A B : List Ex)
    (h : PairingBijection isEqual es A B) : A.length = B.length := by
  obtain ⟨f, hf, -⟩ := h
  simpa using Fintype.card_of_bijective hf

/-- A bijection pairing Equal elements gives a rearrangement of `B` that matches `A` position
by position. -/
theorem perm_of_pairing (isEqual : Ex → Ex → σ → String) (es : σ) (A B : List Ex)
    (h : PairingBijection isEqual es A B) :
    ∃ B1 : List Ex, B1.Perm B ∧
      List.Forall₂ (fun a b => decide (isEqual a b es = "EQUAL_TRUE") = true) A B1 := by
  have hlen := length_eq_of_pairing isEqual es A B h
  obtain ⟨f, hf, hm⟩ := h
  refine ⟨List.ofFn (fun i : Fin A.length => B.get (f i)), ?_, ?_⟩
  · let s : Equiv.Perm (Fin B.length) := (finCongr hlen.symm).trans (Equiv.ofBijective f hf)
    have h1 := Equiv.Perm.ofFn_comp_perm s B.get
    rw [List.ofFn_get] at h1
    have h2 : List.ofFn (fun i : Fin A.length => B.get (f i)) = List.ofFn (B.get ∘ s) := by
      rw [List.ofFn_congr hlen]
      rfl
    rw [h2]
    exact h1
  · rw [List.forall₂_iff_get]
    refine ⟨by simp, fun i h1 h2 => ?_⟩
    simp only [List.get_ofFn, decide_eq_true_eq]
    exact hm ⟨i, h1⟩

theorem pairing_symm (isEqual : Ex → Ex → σ → String) (es : σ) (A B : List Ex)
    (hsym : ∀ x y, (x ∈ A ∨ x ∈ B) → (y ∈ A ∨ y ∈ B) → isEqual x y es = "EQUAL_TRUE" →
      isEqual y x es = "EQUAL_TRUE")
    (h : PairingBijection isEqual es A B) : PairingBijection isEqual es B A := by
  obtain ⟨f, hf, hm⟩ := h
  let e := Equiv.ofBijective f hf
  refine ⟨e.symm, e.symm.bijective, fun j => ?_⟩
  have := hm (e.symm j)
  have hfe : f (e.symm j) = j := e.apply_symm_apply j
  rw [hfe] at this
  exact hsym _ _ (Or.inl (List.get_mem _ _ _)) (Or.inr (List.get_mem _ _ _)) this

/-- Under symmetry and transitivity on the elements of `A` and `B`, a bijection pairing
Equal elements makes `CommutativeIsEqual` return `EQUAL_TRUE`. -/
theorem commutativeIsEqual_of_pairing (isEqual : Ex → Ex → σ → String) (es : σ)
    (A B : List Ex)
    (hsym : ∀ x y, (x ∈ A ∨ x ∈ B) → (y ∈ A ∨ y ∈ B) → isEqual x y es = "EQUAL_TRUE" →
      isEqual y x es = "EQUAL_TRUE")
    (htrans : ∀ x y z, (x ∈ A ∨ x ∈ B) → (y ∈ A ∨ y ∈ B) → (z ∈ A ∨ z ∈ B) →
      isEqual x y es = "EQUAL_TRUE" → isEqual y z es = "EQUAL_TRUE" →
      isEqual x z es = "EQUAL_TRUE")
    (h : PairingBijection isEqual es A B) :
    CommutativeIsEqual isEqual A B es = "EQUAL_TRUE" := by
  have hlen := length_eq_of_pairing isEqual es A B h
  have hg := greedyAssign_complete (fun a b => decide (isEqual a b es = "EQUAL_TRUE"))
    (fun x => x ∈ A ∨ x ∈ B)
    (fun x y hx hy hxy => by simpa using hsym x y hx hy (by simpa using hxy))
    (fun x y z hx hy hz hxy hyz => by
      simpa using htrans x y z hx hy hz (by simpa using hxy) (by simpa using hyz))
    A B (fun x hx => Or.inl hx) (fun x hx => Or.inr hx) (perm_of_pairing isEqual es A B h)
  rw [commutativeIsEqual_eq, if_neg (by simpa using hlen), hg]
  rfl

theorem commutativeIsEqual_values (isEqual : Ex → Ex → σ → String) (es : σ) (A B : List Ex) :
    (A.length ≠ B.length ∧ CommutativeIsEqual isEqual A B es = "EQUAL_FALSE") ∨
    (A.length = B.length ∧ (CommutativeIsEqual isEqual A B es = "EQUAL_TRUE" ∨
      CommutativeIsEqual isEqual A B es = "EQUAL_UNK")) := by
  rw [commutativeIsEqual_eq]
  by_cases hlen : A.length = B.length
  · refine Or.inr ⟨hlen, ?_⟩
    rw [if_neg (by simpa using hlen)]
    split
    · exact Or.inl rfl
    · exact Or.inr rfl
  · exact Or.inl ⟨hlen, by rw [if_pos hlen]⟩

end PairingBridge

/-- C1. `CommutativeReplace` with a 2-component pattern `(p0, p1)`: when two distinct positions
of the target list hold an element matching `p0` and an element matching `p1`, the call returns
and the list after it is the original list without two positions, in original order, followed
by the replacement `r`: the positions are the lowest `i` whose element matches `p0` and has a
partner, and its lowest partner `j` (another position, matching `p1`); the list has `n - 1`
elements and its last element is `r`.  In particular `[a, b, c]`, where `b` matches neither
component and `a`, `c` match the two components, becomes `[b, r]`. -/
theorem commutativeReplace_two_success {Ex σ : Type} (isMatchQ : Ex → Ex → σ → Bool) (es : σ)
    (p0 p1 r : Ex) (fuel : Nat) (hfuel : 2 ≤ fuel) :
    (∀ cs : List Ex,
      (∃ (i j : Nat) (a b : Ex), i ≠ j ∧ cs[i]? = some a ∧ cs[j]? = some b ∧
        isMatchQ a p0 es = true ∧ isMatchQ b p1 es = true) →
      ∃ (i j : Nat) (a b : Ex) (out : List Ex),
        i ≠ j ∧ cs[i]? = some a ∧ cs[j]? = some b ∧
        isMatchQ a p0 es = true ∧ isMatchQ b p1 es = true ∧
        (∀ (i' j' : Nat) (a' b' : Ex), i' < i → i' ≠ j' → cs[i']? = some a' →
          cs[j']? = some b' → ¬ (isMatchQ a' p0 es = true ∧ isMatchQ b' p1 es = true)) ∧
        (∀ (j' : Nat) (b' : Ex), j' < j → j' ≠ i → cs[j']? = some b' →
          isMatchQ b' p1 es = false) ∧
        out = (cs.eraseIdx (max i j)).eraseIdx (min i j) ∧
        out.length = cs.length - 2 ∧
        CommutativeReplace fuel isMatchQ cs [p0, p1] r es
          = some ([[0, 1], [1, 0]], out ++ [r]) ∧
        (out ++ [r]).length = cs.length - 1 ∧
        (out ++ [r]).getLast? = some r) ∧
    (∀ a b c : Ex, isMatchQ b p0 es = false → isMatchQ b p1 es = false →
      (isMatchQ a p0 es = true ∧ isMatchQ c p1 es = true) ∨
        (isMatchQ c p0 es = true ∧ isMatchQ a p1 es = true) →
      CommutativeReplace fuel isMatchQ [a, b, c] [p0, p1] r es
        = some ([[0, 1], [1, 0]], [b, r])) := by
  have hperm := permutations_two fuel hfuel
  have main : ∀ cs : List Ex,
      (∃ (i j : Nat) (a b : Ex), i ≠ j ∧ cs[i]? = some a ∧ cs[j]? = some b ∧
        isMatchQ a p0 es = true ∧ isMatchQ b p1 es = true) →
      ∃ (i j : Nat) (a b : Ex) (out : List Ex),
        i ≠ j ∧ cs[i]? = some a ∧ cs[j]? = some b ∧
        isMatchQ a p0 es = true ∧ isMatchQ b p1 es = true ∧
        (∀ (i' j' : Nat) (a' b' : Ex), i' < i → i' ≠ j' → cs[i']? = some a' →
          cs[j']? = some b' → ¬ (isMatchQ a' p0 es = true ∧ isMatchQ b' p1 es = true)) ∧
        (∀ (j' : Nat) (b' : Ex), j' < j → j' ≠ i → cs[j']? = some b' →
          isMatchQ b' p1 es = false) ∧
        out = (cs.eraseIdx (max i j)).eraseIdx (min i j) ∧
        out.length = cs.length - 2 ∧
        CommutativeReplace fuel isMatchQ cs [p0, p1] r es
          = some ([[0, 1], [1, 0]], out ++ [r]) ∧
        (out ++ [r]).length = cs.length - 1 ∧
        (out ++ [r]).getLast? = some r := by
    intro cs hp
    obtain ⟨i, j, a, b, hij, hia, hjb, hma, hmb, hmi, hmj, hscan⟩ :=
      scanOuter_of_pair isMatchQ es p0 p1 r cs hp
    have hilt : i < cs.length := (List.getElem?_eq_some_iff.1 hia).1
    have hjlt : j < cs.length := (List.getElem?_eq_some_iff.1 hjb).1
    have hlen : ((cs.eraseIdx (max i j)).eraseIdx (min i j)).length = cs.length - 2 := by
      rw [List.length_eraseIdx, List.length_eraseIdx]
      have h1 : max i j < cs.length := by omega
      have h2 : min i j < cs.length - 1 := by omega
      rw [if_pos h1, if_pos h2]
      omega
    refine ⟨i, j, a, b, _, hij, hia, hjb, hma, hmb, hmi, hmj, rfl, hlen, ?_, ?_, ?_⟩
    · simp only [CommutativeReplace, List.length_cons, List.length_nil, replaceTwo, hscan]
      rw [hperm]
      rfl
    · rw [List.length_append, hlen]
      simp only [List.length_cons, List.length_nil]
      omega
    · simp
  refine ⟨main, ?_⟩
  intro a b c hb0 hb1 hac
  obtain ⟨i, j, a', b', out, hij, hia, hjb, hma, hmb, -, -, hout, -, hres, -, -⟩ :=
    main [a, b, c] (by
      rcases hac with h | h
      · exact ⟨0, 2, a, c, by decide, rfl, rfl, h.1, h.2⟩
      · exact ⟨2, 0, c, a, by decide, rfl, rfl, h.1, h.2⟩)
  rw [hres, hout]
  have hi1 : i ≠ 1 := by
    rintro rfl
    simp at hia
    subst hia
    rw [hb0] at hma
    cases hma
  have hj1 : j ≠ 1 := by
    rintro rfl
    simp at hjb
    subst hjb
    rw [hb1] at hmb
    cases hmb
  have hilt : i < 3 := (List.getElem?_eq_some_iff.1 hia).1
  have hjlt : j < 3 := (List.getElem?_eq_some_iff.1 hjb).1
  have hcases : (i = 0 ∧ j = 2) ∨ (i = 2 ∧ j = 0) := by omega
  rcases hcases with ⟨rfl, rfl⟩ | ⟨rfl, rfl⟩ <;> rfl

/-- The claim C1 at concrete lists, with patterns matching by last digit: in `[10, 5, 21, 30]`
the elements `10` and `21` match the components `0` and `1`, and two elements are removed and
`99` is appended; `[10, 5, 21]` becomes `[5, 99]`. -/
theorem commutativeReplace_two_success_witness :
    (∃ out : List Nat,
      CommutativeReplace 2 (fun (a b : Nat) (_ : Unit) => a % 10 == b) [10, 5, 21, 30] [0, 1] 99 ()
        = some ([[0, 1], [1, 0]], out ++ [99]) ∧ out.length = 2) ∧
    CommutativeReplace 2 (fun (a b : Nat) (_ : Unit) => a % 10 == b) [10, 5, 21] [0, 1] 99 ()
      = some ([[0, 1], [1, 0]], [5, 99]) := by
  have h := commutativeReplace_two_success (fun (a b : Nat) (_ : Unit) => a % 10 == b) () 0 1 99 2
    (by decide)
  refine ⟨?_, h.2 10 5 21 (by decide) (by decide) (Or.inl ⟨by decide, by decide⟩)⟩
  obtain ⟨i, j, a, b, out, -, -, -, -, -, -, -, -, hlen, hres, -, -⟩ :=
    h.1 [10, 5, 21, 30] ⟨0, 2, 10, 21, by decide, rfl, rfl, by decide, by decide⟩
  exact ⟨out, hres, hlen⟩

/-- C2. `CommutativeReplace` with a 2-component pattern `(p0, p1)`: when no two distinct
positions hold an element matching `p0` and an element matching `p1`, the call returns and the
list after it is the list before it, whatever elements match one component alone. -/
theorem commutativeReplace_two_failure {Ex σ : Type} (isMatchQ : Ex → Ex → σ → Bool) (es : σ)
    (p0 p1 r : Ex) (cs : List Ex) (fuel : Nat) (hfuel : 2 ≤ fuel)
    (hno : ∀ (i j : Nat) (a b : Ex), i ≠ j → cs[i]? = some a → cs[j]? = some b →
      ¬ (isMatchQ a p0 es = true ∧ isMatchQ b p1 es = true)) :
    CommutativeReplace fuel isMatchQ cs [p0, p1] r es = some ([[0, 1], [1, 0]], cs) := by
  simp only [CommutativeReplace, List.length_cons, List.length_nil,
    replaceTwo_of_no_pair isMatchQ es p0 p1 r cs hno]
  rw [permutations_two fuel hfuel]
  rfl

/-- The claim C2 at the list `[10, 20, 5]`, with patterns matching by last digit: `10` and `20`
match component `0`, nothing matches component `1`, and the list is unchanged. -/
theorem commutativeReplace_two_failure_witness :
    CommutativeReplace 2 (fun (a b : Nat) (_ : Unit) => a % 10 == b) [10, 20, 5] [0, 1] 99 ()
      = some ([[0, 1], [1, 0]], [10, 20, 5]) :=
  commutativeReplace_two_failure (fun (a b : Nat) (_ : Unit) => a % 10 == b) () 0 1 99
    [10, 20, 5] 2 (by decide) (by
      intro i j a b _ _ hb h
      have hmem : b ∈ [10, 20, 5] := List.getElem?_mem hb
      simp only [List.mem_cons, List.mem_singleton, List.not_mem_nil, or_false] at hmem
      rcases hmem with rfl | rfl | rfl <;> exact absurd h.2 (by decide))

/-- C3, as amended.  `CommutativeReplace` rewrites only for patterns with exactly two
components.  For `lhs_components = [p0, p1]`: when an assignment of two distinct target
positions to the two components exists, each assigned element matching its component, the call
returns and has removed the two elements of such an assignment (positions `i` for `p0` and `j`
for `p1`) and appended the replacement, so the list has `n - k + 1` elements.  For every other
number of components the call returns and leaves the list unchanged. -/
theorem commutativeReplace_general {Ex σ : Type} (isMatchQ : Ex → Ex → σ → Bool) (es : σ)
    (cs lhs : List Ex) (r : Ex) (fuel : Nat) (hfuel : lhs.length.factorial ≤ fuel) :
    (∀ p0 p1 : Ex, lhs = [p0, p1] →
      (∃ f : Fin lhs.length → Fin cs.length, Function.Injective f ∧
        ∀ i, isMatchQ (cs.get (f i)) (lhs.get i) es = true) →
      ∃ (i j : Nat) (a b : Ex) (perms : List (List Int)),
        i ≠ j ∧ cs[i]? = some a ∧ cs[j]? = some b ∧
        isMatchQ a p0 es = true ∧ isMatchQ b p1 es = true ∧
        CommutativeReplace fuel isMatchQ cs lhs r es
          = some (perms, (cs.eraseIdx (max i j)).eraseIdx (min i j) ++ [r]) ∧
        ((cs.eraseIdx (max i j)).eraseIdx (min i j) ++ [r]).length
          = cs.length - lhs.length + 1) ∧
    (lhs.length ≠ 2 →
      ∃ perms : List (List Int), CommutativeReplace fuel isMatchQ cs lhs r es
        = some (perms, cs)) := by
  have hperm : permutations fuel ((List.range lhs.length).map Int.ofNat) (lhs.length : Int)
      = some (arrangements ((List.range lhs.length).map Int.ofNat) lhs.length) := by
    have := permutations_eq_arrangements ((List.range lhs.length).map Int.ofNat) lhs.length
      (by simp) fuel (by simpa [Nat.descFactorial_self] using hfuel)
    exact this
  constructor
  · intro p0 p1 hl hf
    subst hl
    obtain ⟨f, hinj, hm⟩ := hf
    have hp : ∃ (i j : Nat) (a b : Ex), i ≠ j ∧ cs[i]? = some a ∧ cs[j]? = some b ∧
        isMatchQ a p0 es = true ∧ isMatchQ b p1 es = true := by
      refine ⟨(f ⟨0, by simp⟩).val, (f ⟨1, by simp⟩).val, cs.get (f ⟨0, by simp⟩),
        cs.get (f ⟨1, by simp⟩), ?_, ?_, ?_, hm ⟨0, by simp⟩, hm ⟨1, by simp⟩⟩
      · intro h
        have := hinj (Fin.ext h)
        simp at this
      · simp [List.getElem?_eq_getElem]
      · simp [List.getElem?_eq_getElem]
    obtain ⟨i, j, a, b, hij, hia, hjb, hma, hmb, -, -, hscan⟩ :=
      scanOuter_of_pair isMatchQ es p0 p1 r cs hp
    have hilt : i < cs.length := (List.getElem?_eq_some_iff.1 hia).1
    have hjlt : j < cs.length := (List.getElem?_eq_some_iff.1 hjb).1
    refine ⟨i, j, a, b, arrangements ((List.range [p0, p1].length).map Int.ofNat)
      [p0, p1].length, hij, hia, hjb, hma, hmb, ?_, ?_⟩
    · simp only [CommutativeReplace, hperm, replaceTwo, hscan, Option.bind_eq_bind,
        Option.some_bind]
    · rw [List.length_append, List.length_eraseIdx, List.length_eraseIdx]
      have h1 : max i j < cs.length := by omega
      have h2 : min i j < cs.length - 1 := by omega
      rw [if_pos h1, if_pos h2]
      simp only [List.length_cons, List.length_nil]
      omega
  · intro hk
    refine ⟨arrangements ((List.range lhs.length).map Int.ofNat) lhs.length, ?_⟩
    simp only [CommutativeReplace, hperm, Option.bind_eq_bind, Option.some_bind]
    split
    · simp at hk
    · rfl

/-- The amended claim C3 at a 2-component pattern (`[10, 5, 21]` with the components `0` and
`1`, matching by last digit: two elements are replaced by one) and at a 1-component pattern
(the list `[7]` stays `[7]`). -/
theorem commutativeReplace_general_witness :
    (∃ (perms : List (List Int)) (out : List Nat),
      CommutativeReplace 2 (fun (a b : Nat) (_ : Unit) => a % 10 == b) [10, 5, 21] [0, 1] 99 ()
        = some (perms, out) ∧ out.length = 3 - 2 + 1) ∧
    (∃ perms : List (List Int),
      CommutativeReplace 1 (fun (a b : Nat) (_ : Unit) => a == b) [7] [7] 9 ()
        = some (perms, [7])) := by
  constructor
  · obtain ⟨i, j, a, b, perms, -, -, -, -, -, hres, hlen⟩ :=
      (commutativeReplace_general (fun (a b : Nat) (_ : Unit) => a % 10 == b) () [10, 5, 21]
        [0, 1] 99 2 (by decide)).1 0 1 rfl
        ⟨fun k => if k.val = 0 then ⟨0, by decide⟩ else ⟨2, by decide⟩, by decide, by decide⟩
    exact ⟨perms, _, hres, hlen⟩
  · exact (commutativeReplace_general (fun (a b : Nat) (_ : Unit) => a == b) () [7] [7] 9 1
      (by decide)).2 (by decide)

/-- C3 fails as stated: with the 3-component pattern `[1, 2, 3]` and the target `[1, 2, 3]`,
where position `i` matches component `i`, the call leaves all `n = 3` elements in place
instead of `n - k + 1 = 1`. -/
theorem commutativeReplace_general_counterexample :
    (∀ i : Fin 3, (fun (a b : Nat) (_ : Unit) => a == b) ([1, 2, 3].get i) ([1, 2, 3].get i) ()
        = true) ∧
      CommutativeReplace 6 (fun (a b : Nat) (_ : Unit) => a == b) [1, 2, 3] [1, 2, 3] 9 ()
        = some ([[0, 1, 2], [0, 2, 1], [1, 0, 2], [1, 2, 0], [2, 0, 1], [2, 1, 0]], [1, 2, 3]) ∧
      [1, 2, 3].length ≠ 3 - 3 + 1 := by
  refine ⟨by decide, by decide, by decide⟩

/-- C4. `permutations(pool, r)` on a pool of `n` pairwise-distinct integers: for `0 <= r <= n`
the call terminates (every fuel from `n!/(n-r)!` on gives the same value) and returns exactly
`n!/(n-r)!` tuples, each of length `r` and made of pairwise-distinct pool elements, the tuples
pairwise distinct, and every ordered arrangement of `r` distinct pool elements occurs at
exactly one position of the output; for `r > n` the output is empty. -/
theorem permutations_correct (pool : List Int) (hnd : pool.Nodup) :
    (∀ r : Int, 0 ≤ r → r ≤ pool.length →
      ∃ out : List (List Int),
        (∀ fuel : Nat, pool.length.factorial / (pool.length - r.toNat).factorial ≤ fuel →
          permutations fuel pool r = some out) ∧
        out.length = pool.length.factorial / (pool.length - r.toNat).factorial ∧
        (∀ t ∈ out, t.length = r.toNat ∧ t.Nodup ∧ ∀ x ∈ t, x ∈ pool) ∧
        out.Nodup ∧
        (∀ t : List Int, t.length = r.toNat → t.Nodup → (∀ x ∈ t, x ∈ pool) →
          ∃! i : Nat, out[i]? = some t)) ∧
    (∀ (r : Int) (fuel : Nat), r > pool.length → permutations fuel pool r = some []) := by
  constructor
  · intro r h0 hr
    obtain ⟨R, rfl⟩ : ∃ R : Nat, r = R := ⟨r.toNat, by omega⟩
    have hR : R ≤ pool.length := by omega
    rw [Int.toNat_ofNat, ← Nat.descFactorial_eq_div hR]
    refine ⟨arrangements pool R, fun fuel hfuel => permutations_eq_arrangements pool R hR fuel hfuel,
      length_arrangements pool R, fun t ht => (mem_arrangements_iff pool hnd R t).1 ht,
      nodup_arrangements pool hnd R, fun t h1 h2 h3 => ?_⟩
    obtain ⟨i, hi, rfl⟩ := List.getElem_of_mem ((mem_arrangements_iff pool hnd R t).2 ⟨h1, h2, h3⟩)
    refine ⟨i, List.getElem?_eq_getElem hi, fun j hj => ?_⟩
    obtain ⟨hj1, hj2⟩ := List.getElem?_eq_some_iff.1 hj
    exact (List.Nodup.getElem_inj_iff (nodup_arrangements pool hnd R)).1 hj2
  · intro r fuel hr
    simp [permutations, hr]

/-- The claim C4 at `n = 4`, `r = 2` (twelve tuples) and at `n = 2`, `r = 3` (no tuple). -/
theorem permutations_correct_witness :
    (∃ out : List (List Int),
      permutations 12 [10, 20, 30, 40] 2 = some out ∧ out.length = 12) ∧
    permutations 0 [10, 20] 3 = some [] := by
  constructor
  · obtain ⟨out, h1, h2, -⟩ := (permutations_correct [10, 20, 30, 40] (by decide)).1 2
      (by decide) (by decide)
    exact ⟨out, h1 12 (by decide), h2.trans (by decide)⟩
  · exact (permutations_correct [10, 20] (by decide)).2 3 0 (by decide)

/-- C5. `IterableReplace` returns, the list keeps its length, every position whose original
element matches `Lhs` holds `Rhs.DeepCopy()` and every other position holds its original
element; when no element matches, the list is unchanged. -/
theorem iterableReplace_spec {Ex σ : Type} (isMatchQ : Ex → Ex → σ → Bool)
    (deepCopy : Ex → Ex) (cs : List Ex) (r : Rule Ex) (es : σ) :
    ∃ out : List Ex,
      IterableReplace isMatchQ deepCopy cs r es = some out ∧
      out.length = cs.length ∧
      (∀ (i : Nat) (e : Ex), cs[i]? = some e →
        out[i]? = some (if isMatchQ e r.Lhs es then deepCopy r.Rhs else e)) ∧
      ((∀ e ∈ cs, isMatchQ e r.Lhs es = false) → out = cs) := by
  refine ⟨cs.map (fun e => if isMatchQ e r.Lhs es then deepCopy r.Rhs else e), ?_, by simp,
    ?_, ?_⟩
  · have := iterableLoop_spec isMatchQ deepCopy r es cs [] 0 rfl
    simpa [IterableReplace] using this
  · intro i e h
    simp [List.getElem?_map, h]
  · intro h
    conv_rhs => rw [← List.map_id cs]
    apply List.map_congr_left
    intro e he
    simp [h e he]

/-- The claim C5 at the list `[1, 12, 21, 5]` with the rule `1 -> 7`, matching by last digit
and a deep copy that adds `1000`: the two matching positions hold `1007`. -/
theorem iterableReplace_spec_witness :
    ∃ out : List Nat,
      IterableReplace (fun (a b : Nat) (_ : Unit) => a % 10 == b) (fun x => x + 1000)
        [1, 12, 21, 5] ⟨1, 7⟩ () = some out ∧ out.length = 4 := by
  obtain ⟨out, h1, h2, -⟩ := iterableReplace_spec (fun (a b : Nat) (_ : Unit) => a % 10 == b)
    (fun x => x + 1000) [1, 12, 21, 5] ⟨1, 7⟩ ()
  exact ⟨out, h1, h2⟩

/-- C6. Position-wise three-valued equality.  For two argument lists (`FunctionIsEqual`) or
two expressions (`Expression.IsEqual`) with the same number of parts, whose element verdicts
are among `EQUAL_TRUE`, `EQUAL_FALSE`, `EQUAL_UNK`: the result is `EQUAL_TRUE` exactly when
every corresponding pair has verdict `EQUAL_TRUE`, and it is `EQUAL_UNK` otherwise; in
particular it is never `EQUAL_FALSE`. -/
theorem positionwise_isEqual {Ex σ Atom : Type} :
    (∀ (isEqual : Ex → Ex → σ → String) (es : σ) (A B : List Ex),
      A.length = B.length →
      (∀ (i : Nat) (a b : Ex), A[i]? = some a → B[i]? = some b →
        isEqual a b es = "EQUAL_TRUE" ∨ isEqual a b es = "EQUAL_FALSE" ∨
          isEqual a b es = "EQUAL_UNK") →
      (FunctionIsEqual isEqual A B es = some "EQUAL_TRUE" ↔
        ∀ (i : Nat) (a b : Ex), A[i]? = some a → B[i]? = some b →
          isEqual a b es = "EQUAL_TRUE") ∧
      (FunctionIsEqual isEqual A B es = some "EQUAL_TRUE" ∨
        FunctionIsEqual isEqual A B es = some "EQUAL_UNK") ∧
      FunctionIsEqual isEqual A B es ≠ some "EQUAL_FALSE") ∧
    (∀ (atomIsEqual : Atom → Atoms.Ex Atom → String) (thisExpr other : Atoms.Expression Atom),
      thisExpr.Parts.length = other.Parts.length →
      (∀ (i : Nat) (a b : Atoms.Ex Atom), thisExpr.Parts[i]? = some a →
        other.Parts[i]? = some b →
        Atoms.Ex.IsEqual atomIsEqual a b = some "EQUAL_TRUE" ∨
          Atoms.Ex.IsEqual atomIsEqual a b = some "EQUAL_FALSE" ∨
          Atoms.Ex.IsEqual atomIsEqual a b = some "EQUAL_UNK") →
      (Atoms.Expression.IsEqual atomIsEqual thisExpr (.expr other) = some "EQUAL_TRUE" ↔
        ∀ (i : Nat) (a b : Atoms.Ex Atom), thisExpr.Parts[i]? = some a →
          other.Parts[i]? = some b →
          Atoms.Ex.IsEqual atomIsEqual a b = some "EQUAL_TRUE") ∧
      (Atoms.Expression.IsEqual atomIsEqual thisExpr (.expr other) = some "EQUAL_TRUE" ∨
        Atoms.Expression.IsEqual atomIsEqual thisExpr (.expr other) = some "EQUAL_UNK") ∧
      Atoms.Expression.IsEqual atomIsEqual thisExpr (.expr other) ≠ some "EQUAL_FALSE") := by
  constructor
  · intro isEqual es A B hlen hv
    have hspec := functionLoop_spec isEqual es B A 0 (fun k a hk => by
      have hk' : k < B.length := hlen ▸ (List.getElem?_eq_some_iff.1 hk).1
      refine ⟨B[k], by simp [List.getElem?_eq_getElem hk'], ?_⟩
      exact hv k a B[k] hk (List.getElem?_eq_getElem hk'))
    simp only [Nat.zero_add] at hspec
    have hF : FunctionIsEqual isEqual A B es = functionLoop isEqual es B A 0 := by
      simp [FunctionIsEqual, hlen]
    rw [hF]
    refine ⟨hspec.1, hspec.2, ?_⟩
    rcases hspec.2 with h | h <;> rw [h] <;> decide
  · intro atomIsEqual thisExpr other hlen hv
    have hspec := isEqualLoop_spec atomIsEqual other.Parts thisExpr.Parts 0 (fun k a hk => by
      have hk' : k < other.Parts.length := hlen ▸ (List.getElem?_eq_some_iff.1 hk).1
      refine ⟨other.Parts[k], by simp [List.getElem?_eq_getElem hk'], ?_⟩
      exact hv k a other.Parts[k] hk (List.getElem?_eq_getElem hk'))
    simp only [Nat.zero_add] at hspec
    have hF : Atoms.Expression.IsEqual atomIsEqual thisExpr (.expr other)
        = Atoms.isEqualLoop atomIsEqual other.Parts thisExpr.Parts 0 := by
      rw [expression_isEqual_expr]
      simp [hlen]
    rw [hF]
    refine ⟨hspec.1, hspec.2, ?_⟩
    rcases hspec.2 with h | h <;> rw [h] <;> decide

/-- The claim C6 at the lists `[1, 2]` and `[1, 3]`, with verdict `EQUAL_TRUE` for equal
numbers and `EQUAL_FALSE` otherwise, and at the expressions `f[x]` and `f[y]` over atoms whose
verdict is always `EQUAL_FALSE`: the result is `EQUAL_TRUE` or `EQUAL_UNK`, never
`EQUAL_FALSE`. -/
theorem positionwise_isEqual_witness :
    ((FunctionIsEqual (fun (a b : Nat) (_ : Unit) => if a = b then "EQUAL_TRUE" else "EQUAL_FALSE")
        [1, 2] [1, 3] () = some "EQUAL_TRUE" ∨
      FunctionIsEqual (fun (a b : Nat) (_ : Unit) => if a = b then "EQUAL_TRUE" else "EQUAL_FALSE")
        [1, 2] [1, 3] () = some "EQUAL_UNK") ∧
    FunctionIsEqual (fun (a b : Nat) (_ : Unit) => if a = b then "EQUAL_TRUE" else "EQUAL_FALSE")
      [1, 2] [1, 3] () ≠ some "EQUAL_FALSE") ∧
    Atoms.Expression.IsEqual (fun (_ : String) (_ : Atoms.Ex String) => "EQUAL_FALSE")
      ⟨[.atom "f", .atom "x"], true, true, 0, 0⟩
      (.expr ⟨[.atom "f", .atom "y"], true, true, 0, 0⟩) ≠ some "EQUAL_FALSE" := by
  constructor
  · exact ((@positionwise_isEqual Nat Unit Unit).1
      (fun (a b : Nat) (_ : Unit) => if a = b then "EQUAL_TRUE" else "EQUAL_FALSE") ()
      [1, 2] [1, 3] rfl (by
        intro i a b _ _
        by_cases h : a = b
        · exact Or.inl (if_pos h)
        · exact Or.inr (Or.inl (if_neg h)))).2
  · exact ((@positionwise_isEqual Nat Unit String).2
      (fun (_ : String) (_ : Atoms.Ex String) => "EQUAL_FALSE")
      ⟨[.atom "f", .atom "x"], true, true, 0, 0⟩ ⟨[.atom "f", .atom "y"], true, true, 0, 0⟩
      rfl (by
        intro i a b ha _
        have hmem : a ∈ [Atoms.Ex.atom "f", Atoms.Ex.atom "x"] := List.getElem?_mem ha
        simp only [List.mem_cons, List.mem_singleton, List.not_mem_nil, or_false] at hmem
        rcases hmem with rfl | rfl <;> exact Or.inr (Or.inl (by rw [Atoms.Ex.IsEqual])))).2.2

/-- C7, as amended.  When the numbers of parts differ, `FunctionIsEqual` and
`CommutativeIsEqual` return `EQUAL_FALSE` on two argument lists, and `Expression.IsEqual`
returns `EQUAL_UNK` on two expressions. -/
theorem count_mismatch {Ex σ Atom : Type} :
    (∀ (isEqual : Ex → Ex → σ → String) (es : σ) (A B : List Ex), A.length ≠ B.length →
      FunctionIsEqual isEqual A B es = some "EQUAL_FALSE" ∧
      CommutativeIsEqual isEqual A B es = "EQUAL_FALSE") ∧
    (∀ (atomIsEqual : Atom → Atoms.Ex Atom → String) (thisExpr other : Atoms.Expression Atom),
      thisExpr.Parts.length ≠ other.Parts.length →
      Atoms.Expression.IsEqual atomIsEqual thisExpr (.expr other) = some "EQUAL_UNK") := by
  constructor
  · intro isEqual es A B h
    simp [FunctionIsEqual, CommutativeIsEqual, h]
  · intro atomIsEqual thisExpr other h
    rw [expression_isEqual_expr]
    simp [h]

/-- The amended claim C7 at the expressions `f[x]` and `f[x, y]`, and at the lists `[1]` and
`[1, 2]`. -/
theorem count_mismatch_witness :
    FunctionIsEqual (fun (_ _ : Nat) (_ : Unit) => "EQUAL_TRUE") [1] [1, 2] ()
      = some "EQUAL_FALSE" ∧
    Atoms.Expression.IsEqual (fun (_ : String) (_ : Atoms.Ex String) => "EQUAL_TRUE")
      ⟨[.atom "f", .atom "x"], true, true, 0, 0⟩
      (.expr ⟨[.atom "f", .atom "x", .atom "y"], true, true, 0, 0⟩) = some "EQUAL_UNK" :=
  ⟨((@count_mismatch Nat Unit String).1 _ () [1] [1, 2]
      (by decide)).1,
    (@count_mismatch Nat Unit String).2 _ _ _ (by decide)⟩

/-- C7 fails as stated: the expressions `f[x]` and `f[x, y]` have 2 and 3 parts, and
`Expression.IsEqual` returns `EQUAL_UNK`, not `EQUAL_FALSE`. -/
theorem count_mismatch_counterexample :
    ([Atoms.Ex.atom "f", Atoms.Ex.atom "x"].length
        ≠ [Atoms.Ex.atom "f", Atoms.Ex.atom "x", Atoms.Ex.atom "y"].length) ∧
    Atoms.Expression.IsEqual (fun (_ : String) (_ : Atoms.Ex String) => "EQUAL_TRUE")
      ⟨[.atom "f", .atom "x"], true, true, 0, 0⟩
      (.expr ⟨[.atom "f", .atom "x", .atom "y"], true, true, 0, 0⟩) ≠ some "EQUAL_FALSE" := by
  refine ⟨by decide, by decide⟩

/-- C8. `CommutativeIsEqual` on two lists of equal length is the greedy unmatched-first
assignment of the specification (`greedyAssign`): `EQUAL_TRUE` when every element of `A`, in
order, obtains the first not-yet-taken element of `B` whose verdict against it is
`EQUAL_TRUE`, and `EQUAL_UNK` when one obtains none; the result is never `EQUAL_FALSE`; and it
depends on the element verdicts only through which of them are `EQUAL_TRUE`. -/
theorem commutativeIsEqual_greedy {Ex σ : Type} (isEqual : Ex → Ex → σ → String) (es : σ)
    (A B : List Ex) (hlen : A.length = B.length) :
    CommutativeIsEqual isEqual A B es
      = (if greedyAssign (fun a b => decide (isEqual a b es = "EQUAL_TRUE")) A B
          then "EQUAL_TRUE" else "EQUAL_UNK") ∧
    CommutativeIsEqual isEqual A B es ≠ "EQUAL_FALSE" ∧
    (∀ isEqual1 : Ex → Ex → σ → String,
      (∀ a b, isEqual1 a b es = "EQUAL_TRUE" ↔ isEqual a b es = "EQUAL_TRUE") →
      CommutativeIsEqual isEqual1 A B es = CommutativeIsEqual isEqual A B es) := by
  have h1 : CommutativeIsEqual isEqual A B es
      = (if greedyAssign (fun a b => decide (isEqual a b es = "EQUAL_TRUE")) A B
          then "EQUAL_TRUE" else "EQUAL_UNK") := by
    rw [commutativeIsEqual_eq, if_neg (by simpa using hlen)]
  refine ⟨h1, ?_, ?_⟩
  · rw [h1]
    split <;> decide
  · intro isEqual1 hiff
    rw [commutativeIsEqual_eq isEqual1, commutativeIsEqual_eq isEqual]
    have : (fun a b => decide (isEqual1 a b es = "EQUAL_TRUE"))
        = (fun a b => decide (isEqual a b es = "EQUAL_TRUE")) := by
      funext a b
      simp [hiff a b]
    rw [this]

/-- The claim C8 at `A = [1, 2, 3]`, `B = [3, 1, 2]`, with verdict `EQUAL_TRUE` for equal
numbers and `EQUAL_FALSE` otherwise: every element finds a partner. -/
theorem commutativeIsEqual_greedy_witness :
    CommutativeIsEqual
        (fun (a b : Nat) (_ : Unit) => if a = b then "EQUAL_TRUE" else "EQUAL_FALSE")
        [1, 2, 3] [3, 1, 2] ()
      = (if greedyAssign (fun (a b : Nat) => decide ((if a = b then "EQUAL_TRUE"
          else "EQUAL_FALSE") = "EQUAL_TRUE")) [1, 2, 3] [3, 1, 2]
          then "EQUAL_TRUE" else "EQUAL_UNK") :=
  (commutativeIsEqual_greedy
    (fun (a b : Nat) (_ : Unit) => if a = b then "EQUAL_TRUE" else "EQUAL_FALSE") ()
    [1, 2, 3] [3, 1, 2] rfl).1

/-- C9. `CommutativeIsEqual` never falsely reports Equal: a result `EQUAL_TRUE` comes with
equal lengths and a bijection between the positions of `A` and of `B` whose paired couples all
have verdict `EQUAL_TRUE`.  In particular, for `A = [x, x, y]` and `B = [x, y, y]` with the
verdict of `x` against `y` not `EQUAL_TRUE`, the result is not `EQUAL_TRUE`. -/
theorem commutativeIsEqual_sound {Ex σ : Type} (isEqual : Ex → Ex → σ → String) (es : σ) :
    (∀ A B : List Ex, CommutativeIsEqual isEqual A B es = "EQUAL_TRUE" →
      A.length = B.length ∧ PairingBijection isEqual es A B) ∧
    (∀ x y : Ex, isEqual x y es ≠ "EQUAL_TRUE" →
      CommutativeIsEqual isEqual [x, x, y] [x, y, y] es ≠ "EQUAL_TRUE") := by
  refine ⟨fun A B h => pairing_of_commutativeIsEqual isEqual es A B h, ?_⟩
  intro x y hxy
  rw [commutativeIsEqual_eq]
  by_cases hxx : isEqual x x es = "EQUAL_TRUE"
  · simp [greedyAssign, takeFirst, hxx, hxy]
  · simp [greedyAssign, takeFirst, hxx, hxy]

/-- The claim C9 with verdict `EQUAL_TRUE` for equal numbers and `EQUAL_FALSE` otherwise: for
`A = [1, 2, 3]`, `B = [3, 1, 2]` the result `EQUAL_TRUE` comes with a pairing bijection, and for
`A = [1, 1, 2]`, `B = [1, 2, 2]` the result is not `EQUAL_TRUE`. -/
theorem commutativeIsEqual_sound_witness :
    PairingBijection
      (fun (a b : Nat) (_ : Unit) => if a = b then "EQUAL_TRUE" else "EQUAL_FALSE") ()
      [1, 2, 3] [3, 1, 2] ∧
    CommutativeIsEqual
      (fun (a b : Nat) (_ : Unit) => if a = b then "EQUAL_TRUE" else "EQUAL_FALSE")
      [1, 1, 2] [1, 2, 2] () ≠ "EQUAL_TRUE" :=
  ⟨((commutativeIsEqual_sound
      (fun (a b : Nat) (_ : Unit) => if a = b then "EQUAL_TRUE" else "EQUAL_FALSE") ()).1
      [1, 2, 3] [3, 1, 2] (by decide)).2,
    (commutativeIsEqual_sound
      (fun (a b : Nat) (_ : Unit) => if a = b then "EQUAL_TRUE" else "EQUAL_FALSE") ()).2 1 2
      (by decide)⟩

/-- C10. When the relation "`IsEqual` returns `EQUAL_TRUE`" is symmetric and transitive on the
elements of `A` and `B`, `CommutativeIsEqual(A, B) = CommutativeIsEqual(B, A)`, and the result
is `EQUAL_TRUE` exactly when a bijection pairing Equal elements exists. -/
theorem commutativeIsEqual_comm {Ex σ : Type} (isEqual : Ex → Ex → σ → String) (es : σ)
    (A B : List Ex)
    (hsym : ∀ x y, (x ∈ A ∨ x ∈ B) → (y ∈ A ∨ y ∈ B) → isEqual x y es = "EQUAL_TRUE" →
      isEqual y x es = "EQUAL_TRUE")
    (htrans : ∀ x y z, (x ∈ A ∨ x ∈ B) → (y ∈ A ∨ y ∈ B) → (z ∈ A ∨ z ∈ B) →
      isEqual x y es = "EQUAL_TRUE" → isEqual y z es = "EQUAL_TRUE" →
      isEqual x z es = "EQUAL_TRUE") :
    CommutativeIsEqual isEqual A B es = CommutativeIsEqual isEqual B A es ∧
    (CommutativeIsEqual isEqual A B es = "EQUAL_TRUE" ↔ PairingBijection isEqual es A B) := by
  have hsym' : ∀ x y, (x ∈ B ∨ x ∈ A) → (y ∈ B ∨ y ∈ A) → isEqual x y es = "EQUAL_TRUE" →
      isEqual y x es = "EQUAL_TRUE" := fun x y hx hy => hsym x y hx.symm hy.symm
  have htrans' : ∀ x y z, (x ∈ B ∨ x ∈ A) → (y ∈ B ∨ y ∈ A) → (z ∈ B ∨ z ∈ A) →
      isEqual x y es = "EQUAL_TRUE" → isEqual y z es = "EQUAL_TRUE" →
      isEqual x z es = "EQUAL_TRUE" := fun x y z hx hy hz => htrans x y z hx.symm hy.symm hz.symm
  have hiff : CommutativeIsEqual isEqual A B es = "EQUAL_TRUE" ↔ PairingBijection isEqual es A B :=
    ⟨fun h => (pairing_of_commutativeIsEqual isEqual es A B h).2,
      commutativeIsEqual_of_pairing isEqual es A B hsym htrans⟩
  have hiff' : CommutativeIsEqual isEqual B A es = "EQUAL_TRUE" ↔ PairingBijection isEqual es B A :=
    ⟨fun h => (pairing_of_commutativeIsEqual isEqual es B A h).2,
      commutativeIsEqual_of_pairing isEqual es B A hsym' htrans'⟩
  have hswap : CommutativeIsEqual isEqual A B es = "EQUAL_TRUE" ↔
      CommutativeIsEqual isEqual B A es = "EQUAL_TRUE" := by
    rw [hiff, hiff']
    exact ⟨pairing_symm isEqual es A B hsym, pairing_symm isEqual es B A hsym'⟩
  refine ⟨?_, hiff⟩
  rcases commutativeIsEqual_values isEqual es A B with ⟨h1, h2⟩ | ⟨h1, h2⟩
  · rcases commutativeIsEqual_values isEqual es B A with ⟨h3, h4⟩ | ⟨h3, -⟩
    · rw [h2, h4]
    · exact absurd h3.symm h1
  · rcases commutativeIsEqual_values isEqual es B A with ⟨h3, -⟩ | ⟨-, h4⟩
    · exact absurd h1.symm h3
    · rcases h2 with h2 | h2
      · rw [h2, hswap.1 h2]
      · rcases h4 with h4 | h4
        · have := hswap.2 h4
          rw [h2] at this
          exact absurd this (by decide)
        · rw [h2, h4]

/-- The claim C10 at `A = [1, 2, 1]`, `B = [2, 1, 1]`, with verdict `EQUAL_TRUE` for equal
numbers and `EQUAL_FALSE` otherwise (a symmetric and transitive relation). -/
theorem commutativeIsEqual_comm_witness :
    CommutativeIsEqual
        (fun (a b : Nat) (_ : Unit) => if a = b then "EQUAL_TRUE" else "EQUAL_FALSE")
        [1, 2, 1] [2, 1, 1] ()
      = CommutativeIsEqual
        (fun (a b : Nat) (_ : Unit) => if a = b then "EQUAL_TRUE" else "EQUAL_FALSE")
        [2, 1, 1] [1, 2, 1] () :=
  (commutativeIsEqual_comm
    (fun (a b : Nat) (_ : Unit) => if a = b then "EQUAL_TRUE" else "EQUAL_FALSE") ()
    [1, 2, 1] [2, 1, 1]
    (by
      intro x y _ _ h
      by_cases hxy : x = y
      · subst hxy
        exact h
      · simp [hxy] at h)
    (by
      intro x y z _ _ _ h1 h2
      by_cases hxy : x = y
      · subst hxy
        exact h2
      · simp [hxy] at h1)).1

section SameQLemmas

variable {Ex σ : Type}

/-- When the loop of `FunctionIsSameQ` ends with `true`, every pair left is `SameQ`. -/
theorem sameQLoop_true (isSameQ : Ex → Ex → σ → Bool) (es : σ) (others : List Ex) :
    ∀ (rest : List Ex) (i : Nat), sameQLoop isSameQ es others rest i = some true →
      ∀ k a, rest[k]? = some a → ∃ b, others[i + k]? = some b ∧ isSameQ a b es = true := by
  intro rest
  induction rest with
  | nil =>
    intro i _ k a hk
    simp at hk
  | cons e1 rest ih =>
    intro i h k a hk
    simp only [sameQLoop, List.get?_eq_getElem?] at h
    cases hb : others[i]? with
    | none => simp [hb] at h
    | some e2 =>
      simp only [hb] at h
      by_cases hs : isSameQ e1 e2 es = true
      · simp only [hs, Bool.not_true, Bool.false_eq_true, if_false] at h
        cases k with
        | zero =>
          simp only [List.getElem?_cons_zero, Option.some.injEq] at hk
          subst hk
          exact ⟨e2, by simpa using hb, hs⟩
        | succ k =>
          obtain ⟨b, hb1, hb2⟩ := ih (i + 1) h k a (by simpa using hk)
          exact ⟨b, by rwa [show i + (k + 1) = i + 1 + k by omega], hb2⟩
      · simp [hs] at h

end SameQLemmas

section TermLemmas

open Atoms

variable {Atom : Type}

/-- Induction on terms: a property of the atoms that passes from the parts of an expression
to the expression holds for every term. -/
theorem ex_induction (P : Ex Atom → Prop) (hatom : ∀ a, P (.atom a))
    (hexpr : ∀ e : Expression Atom, (∀ p ∈ e.Parts, P p) → P (.expr e)) : ∀ t, P t := by
  intro t
  exact @Ex.rec Atom P (fun e => ∀ p ∈ e.Parts, P p) (fun l => ∀ p ∈ l, P p)
    hatom (fun e h => hexpr e h) (fun parts _ _ _ _ h => h)
    (fun p hp => by simp at hp)
    (fun head tail h1 h2 p hp => by
      rcases List.mem_cons.1 hp with rfl | hp
      · exact h1
      · exact h2 p hp) t

theorem leaves_expr (e : Expression Atom) : Ex.leaves (.expr e) = leavesList e.Parts := by
  cases e
  rw [Ex.leaves]

theorem mem_leavesList (l : List (Ex Atom)) (a : Atom) :
    a ∈ leavesList l ↔ ∃ p ∈ l, a ∈ Ex.leaves p := by
  induction l with
  | nil => simp [leavesList]
  | cons p rest ih => simp [leavesList, ih]

theorem deepCopyLoop_eq (atomDeepCopy : Atom → Ex Atom) (parts : List (Ex Atom)) :
    ∀ acc : Expression Atom, deepCopyLoop atomDeepCopy parts acc
      = { acc with Parts := acc.Parts ++ parts.map (Ex.DeepCopy atomDeepCopy) } := by
  induction parts with
  | nil =>
    intro acc
    simp [deepCopyLoop]
  | cons p rest ih =>
    intro acc
    rw [deepCopyLoop, ih]
    simp [Expression.AppendEx]

/-- `DeepCopy` copies the parts one by one and carries the four other fields over. -/
theorem expression_deepCopy_eq (atomDeepCopy : Atom → Ex Atom) (t : Expression Atom) :
    Expression.DeepCopy atomDeepCopy t
      = .expr { Parts := t.Parts.map (Ex.DeepCopy atomDeepCopy), needsEval := t.needsEval,
                correctlyInstantiated := t.correctlyInstantiated,
                EvaledHash := t.EvaledHash, CachedHash := t.CachedHash } := by
  cases t
  rw [Expression.DeepCopy, deepCopyLoop_eq]
  simp [NewEmptyExpression]

theorem ex_deepCopy_expr (atomDeepCopy : Atom → Ex Atom) (t : Expression Atom) :
    Ex.DeepCopy atomDeepCopy (.expr t) = Expression.DeepCopy atomDeepCopy t := by
  rw [Ex.DeepCopy]

theorem ex_isEqual_expr (atomIsEqual : Atom → Ex Atom → String) (t : Expression Atom)
    (other : Ex Atom) :
    Ex.IsEqual atomIsEqual (.expr t) other = Expression.IsEqual atomIsEqual t other := by
  rw [Ex.IsEqual]

/-- A term whose atomic leaves are Equal to their deep copies is Equal to its deep copy. -/
theorem ex_isEqual_deepCopy (atomIsEqual : Atom → Ex Atom → String)
    (atomDeepCopy : Atom → Ex Atom) :
    ∀ t : Ex Atom, (∀ a ∈ Ex.leaves t, atomIsEqual a (atomDeepCopy a) = "EQUAL_TRUE") →
      Ex.IsEqual atomIsEqual t (Ex.DeepCopy atomDeepCopy t) = some "EQUAL_TRUE" := by
  apply ex_induction
  · intro a h
    rw [Ex.DeepCopy, Ex.IsEqual, h a (by simp [Ex.leaves])]
  · intro e ih h
    rw [ex_deepCopy_expr, ex_isEqual_expr, expression_deepCopy_eq, expression_isEqual_expr,
      if_neg (by simp)]
    have hpart : ∀ (k : Nat) (a : Ex Atom), e.Parts[k]? = some a →
        Ex.IsEqual atomIsEqual a (Ex.DeepCopy atomDeepCopy a) = some "EQUAL_TRUE" := by
      intro k a hk
      have hmem : a ∈ e.Parts := List.getElem?_mem hk
      refine ih a hmem (fun x hx => h x ?_)
      rw [leaves_expr, mem_leavesList]
      exact ⟨a, hmem, hx⟩
    have hspec := isEqualLoop_spec atomIsEqual (e.Parts.map (Ex.DeepCopy atomDeepCopy))
      e.Parts 0 (fun k a hk =>
        ⟨Ex.DeepCopy atomDeepCopy a, by simp [List.getElem?_map, hk], Or.inl (hpart k a hk)⟩)
    refine hspec.1.2 (fun k a b hk hb => ?_)
    simp only [Nat.zero_add, List.getElem?_map, hk, Option.map_some', Option.some.injEq] at hb
    subst hb
    exact hpart k a hk

end TermLemmas

section ConditionalLemmas

open Atoms

variable {Atom : Type}

/-- The conditionals are the 3-part expressions whose head is the symbol of that name. -/
theorem conditionalParts_eq_some (asSymbol : Atom → Option String) (e v c : Ex Atom) :
    conditionalParts asSymbol e = some (v, c) ↔
      ∃ (cond : Expression Atom) (h : Atom), e = .expr cond ∧ cond.Parts = [.atom h, v, c] ∧
        asSymbol h = some "System`ConditionalExpression" := by
  constructor
  · intro hc
    unfold conditionalParts at hc
    split at hc
    · rename_i h value condition ne ci eh ch
      split at hc
      · rename_i hs
        simp only [Option.some.injEq, Prod.mk.injEq] at hc
        obtain ⟨rfl, rfl⟩ := hc
        exact ⟨_, h, rfl, rfl, hs⟩
      · cases hc
    · cases hc
  · rintro ⟨cond, h, rfl, hp, hs⟩
    obtain ⟨parts, ne, ci, eh, ch⟩ := cond
    simp only at hp
    subst hp
    simp [conditionalParts, hs]

/-- `HeadAssertion` on a conditional succeeds with an expression of 3 parts. -/
theorem headAssertion_of_conditional (asSymbol : Atom → Option String) (e v c : Ex Atom)
    (hc : conditionalParts asSymbol e = some (v, c)) :
    ∃ cond : Expression Atom,
      HeadAssertion asSymbol e "System`ConditionalExpression" = some (some cond) ∧
      cond.GetParts.length = 3 ∧ cond.GetParts.get? 1 = some v ∧
      cond.GetParts.get? 2 = some c := by
  obtain ⟨cond, h, rfl, hp, hs⟩ := (conditionalParts_eq_some asSymbol e v c).1 hc
  refine ⟨cond, ?_, by simp [Expression.GetParts, hp], by simp [Expression.GetParts, hp],
    by simp [Expression.GetParts, hp]⟩
  simp [HeadAssertion, Expression.GetParts, hp, hs]

/-- `HeadAssertion` on a term with a head that is not a conditional fails, or succeeds with an
expression whose number of parts is not 3. -/
theorem headAssertion_of_not_conditional (asSymbol : Atom → Option String) (e : Ex Atom)
    (hw : HasHead e) (hc : conditionalParts asSymbol e = none) :
    HeadAssertion asSymbol e "System`ConditionalExpression" = some none ∨
    ∃ cond : Expression Atom,
      HeadAssertion asSymbol e "System`ConditionalExpression" = some (some cond) ∧
      cond.GetParts.length ≠ 3 := by
  cases e with
  | atom a => exact Or.inl rfl
  | expr cond =>
    obtain ⟨parts, ne, ci, eh, ch⟩ := cond
    cases parts with
    | nil => exact absurd rfl hw
    | cons p rest =>
      cases p with
      | expr q => exact Or.inl rfl
      | atom h =>
        by_cases hs : asSymbol h = some "System`ConditionalExpression"
        · refine Or.inr ⟨⟨.atom h :: rest, ne, ci, eh, ch⟩, ?_, ?_⟩
          · simp [HeadAssertion, Expression.GetParts, hs]
          · intro hlen
            obtain ⟨v, c, rfl⟩ : ∃ v c, rest = [v, c] := by
              match rest, hlen with
              | [v, c], _ => exact ⟨v, c, rfl⟩
            simp [conditionalParts, hs] at hc
        · left
          simp only [HeadAssertion, Expression.GetParts, List.get?_cons_zero]
          cases hn : asSymbol h with
          | none => rfl
          | some name =>
            have hne : name ≠ "System`ConditionalExpression" := by
              rintro rfl
              exact hs hn
            simp [hne]

/-- The first loop finds a condition exactly when some argument is a conditional. -/
theorem foundCondLoop_eq (asSymbol : Atom → Option String) (args : List (Ex Atom))
    (hw : ∀ e ∈ args, HasHead e) :
    foundCondLoop asSymbol args
      = some (args.any (fun e => (conditionalParts asSymbol e).isSome)) := by
  induction args with
  | nil => rfl
  | cons e rest ih =>
    have ih' := ih (fun x hx => hw x (List.mem_cons_of_mem _ hx))
    rw [foundCondLoop, List.any_cons]
    cases hc : conditionalParts asSymbol e with
    | some vc =>
      obtain ⟨cond, h1, h2, -, -⟩ := headAssertion_of_conditional asSymbol e vc.1 vc.2 hc
      simp [h1, h2]
    | none =>
      rcases headAssertion_of_not_conditional asSymbol e (hw e (List.mem_cons_self _ _)) hc
        with h1 | ⟨cond, h1, h2⟩
      · simp [h1, ih']
      · simp [h1, h2, ih']

/-- The second loop appends the hoisted values and conditions. -/
theorem hoistLoop_eq (asSymbol : Atom → Option String) (atomDeepCopy : Atom → Ex Atom)
    (args : List (Ex Atom)) (hw : ∀ e ∈ args, HasHead e) :
    ∀ resEx resCond : Expression Atom,
      hoistLoop asSymbol atomDeepCopy args resEx resCond
        = some ({ resEx with
                  Parts := resEx.Parts ++ args.map (hoistedValue asSymbol atomDeepCopy) },
                { resCond with
                  Parts := resCond.Parts
                    ++ args.filterMap (hoistedCondition asSymbol atomDeepCopy) }) := by
  induction args with
  | nil =>
    intro resEx resCond
    simp [hoistLoop]
  | cons e rest ih =>
    intro resEx resCond
    have ih' := ih (fun x hx => hw x (List.mem_cons_of_mem _ hx))
    rw [hoistLoop]
    cases hc : conditionalParts asSymbol e with
    | some vc =>
      obtain ⟨cond, h1, h2, h3, h4⟩ := headAssertion_of_conditional asSymbol e vc.1 vc.2 hc
      simp only [h1, h2, h3, h4, if_true, ih']
      simp [Expression.AppendEx, hoistedValue, hoistedCondition, hc]
    | none =>
      rcases headAssertion_of_not_conditional asSymbol e (hw e (List.mem_cons_self _ _)) hc
        with h1 | ⟨cond, h1, h2⟩
      · simp only [h1, ih']
        simp [Expression.AppendEx, hoistedValue, hoistedCondition, hc]
      · simp only [h1, h2, if_false, ih']
        simp [Expression.AppendEx, hoistedValue, hoistedCondition, hc]

end ConditionalLemmas

section PropagateLemmas

open Atoms

variable {Atom : Type}

/-- `PropagateConditionals` on a receiver with a head whose arguments have heads. -/
theorem propagateConditionals_eq (asSymbol : Atom → Option String)
    (atomDeepCopy : Atom → Ex Atom) (S : String → Ex Atom) (thisExpr : Expression Atom)
    (head : Ex Atom) (args : List (Ex Atom)) (hparts : thisExpr.Parts = head :: args)
    (hargs : ∀ e ∈ args, HasHead e) :
    Expression.PropagateConditionals asSymbol atomDeepCopy S thisExpr
      = if args.any (fun e => (conditionalParts asSymbol e).isSome) then
          some (E [S "ConditionalExpression",
            .expr (E (head :: args.map (hoistedValue asSymbol atomDeepCopy))),
            .expr (E (S "And" :: args.filterMap (hoistedCondition asSymbol atomDeepCopy)))],
            true)
        else some (thisExpr, false) := by
  unfold Expression.PropagateConditionals
  simp only [Expression.GetParts, hparts, foundCondLoop_eq asSymbol args hargs]
  cases hany : args.any (fun e => (conditionalParts asSymbol e).isSome) with
  | false => simp
  | true =>
    simp only [hoistLoop_eq asSymbol atomDeepCopy args hargs, if_true]
    simp [E, NewExpression]

/-- Some argument is a conditional, stated on the parts. -/
theorem any_conditional_iff (asSymbol : Atom → Option String) (args : List (Ex Atom)) :
    args.any (fun e => (conditionalParts asSymbol e).isSome) = true ↔
      ∃ e ∈ args, ∃ (cond : Expression Atom) (h : Atom) (v c : Ex Atom),
        e = .expr cond ∧ cond.Parts = [.atom h, v, c] ∧
        asSymbol h = some "System`ConditionalExpression" := by
  rw [List.any_eq_true]
  constructor
  · rintro ⟨e, he, hs⟩
    obtain ⟨⟨v, c⟩, hvc⟩ := Option.isSome_iff_exists.1 hs
    obtain ⟨cond, h, h1, h2, h3⟩ := (conditionalParts_eq_some asSymbol e v c).1 hvc
    exact ⟨e, he, cond, h, v, c, h1, h2, h3⟩
  · rintro ⟨e, he, cond, h, v, c, h1, h2, h3⟩
    refine ⟨e, he, ?_⟩
    rw [(conditionalParts_eq_some asSymbol e v c).2 ⟨cond, h, h1, h2, h3⟩]
    rfl

end PropagateLemmas

section HashLemmas

open Atoms

variable {Atom : Type}

theorem fnvWrite_append (h : Nat) (a b : List Nat) :
    fnvWrite h (a ++ b) = fnvWrite (fnvWrite h a) b := by
  simp [fnvWrite, List.foldl_append]

theorem fnvWrite_lt (data : List Nat) : ∀ h : Nat, h < 2 ^ 64 → fnvWrite h data < 2 ^ 64 := by
  induction data with
  | nil =>
    intro h hh
    simpa [fnvWrite] using hh
  | cons c rest ih =>
    intro h _
    have := ih (((h ^^^ c) * fnvPrime64) % 2 ^ 64) (Nat.mod_lt _ (by norm_num))
    simpa [fnvWrite] using this

theorem hashLoop_fst (atomHash : Atom → Nat × Atom) (parts : List (Ex Atom)) :
    ∀ h : Nat, (hashLoop atomHash parts h).1
      = fnvWrite h (parts.map (fun p => putUint64 (Ex.Hash atomHash p).1)).flatten := by
  induction parts with
  | nil =>
    intro h
    simp [hashLoop, fnvWrite]
  | cons p rest ih =>
    intro h
    rw [hashLoop]
    simp only [ih, List.map_cons, List.flatten_cons, fnvWrite_append]

theorem hashLoop_snd (atomHash : Atom → Nat × Atom) (parts : List (Ex Atom)) :
    ∀ h : Nat, (hashLoop atomHash parts h).2
      = parts.map (fun p => (Ex.Hash atomHash p).2) := by
  induction parts with
  | nil =>
    intro h
    simp [hashLoop]
  | cons p rest ih =>
    intro h
    rw [hashLoop]
    simp only [ih, List.map_cons]

/-- `Hash` returns a non-zero cache, and otherwise computes and stores the fingerprint. -/
theorem expression_hash_eq (atomHash : Atom → Nat × Atom) (t : Expression Atom) :
    Expression.Hash atomHash t
      = if t.CachedHash > 0 then (t.CachedHash, t)
        else (fingerprint atomHash t.Parts,
          { t with Parts := t.Parts.map (fun p => (Ex.Hash atomHash p).2),
                   CachedHash := fingerprint atomHash t.Parts }) := by
  cases t
  rw [Expression.Hash]
  simp only [hashLoop_fst, hashLoop_snd, fingerprint, fnvWrite_append]

theorem ex_hash_expr (atomHash : Atom → Nat × Atom) (t : Expression Atom) :
    Ex.Hash atomHash (.expr t)
      = ((Expression.Hash atomHash t).1, .expr (Expression.Hash atomHash t).2) := by
  rw [Ex.Hash]

theorem ex_hash_atom (atomHash : Atom → Nat × Atom) (a : Atom) :
    Ex.Hash atomHash (.atom a) = ((atomHash a).1, .atom (atomHash a).2) := by
  rw [Ex.Hash]

/-- The fingerprint depends on the parts through their hashes only. -/
theorem fingerprint_congr (atomHash : Atom → Nat × Atom) (f : Ex Atom → Ex Atom)
    (parts : List (Ex Atom))
    (h : ∀ p ∈ parts, (Ex.Hash atomHash (f p)).1 = (Ex.Hash atomHash p).1) :
    fingerprint atomHash (parts.map f) = fingerprint atomHash parts := by
  unfold fingerprint
  congr 2
  rw [List.map_map]
  apply congrArg
  apply List.map_congr_left
  intro p hp
  simp [h p hp]

theorem fingerprint_lt (atomHash : Atom → Nat × Atom) (parts : List (Ex Atom)) :
    fingerprint atomHash parts < 2 ^ 64 :=
  fnvWrite_lt _ _ (by norm_num [fnvOffset64])

/-- Two consecutive calls of `Hash` return the same value when the parts have stable hashes. -/
theorem expression_hash_twice (atomHash : Atom → Nat × Atom) (t : Expression Atom)
    (hparts : ∀ p ∈ t.Parts,
      (Ex.Hash atomHash (Ex.Hash atomHash p).2).1 = (Ex.Hash atomHash p).1) :
    (Expression.Hash atomHash (Expression.Hash atomHash t).2).1
      = (Expression.Hash atomHash t).1 := by
  rw [expression_hash_eq atomHash t]
  by_cases hc : t.CachedHash > 0
  · simp only [hc, if_true]
    rw [expression_hash_eq atomHash t]
    simp only [hc, if_true]
  · simp only [hc, if_false]
    rw [expression_hash_eq]
    simp only
    split
    · rfl
    · exact fingerprint_congr atomHash (fun p => (Ex.Hash atomHash p).2) t.Parts hparts

/-- The hash of the deep copy of a term is the hash of the term. -/
theorem ex_hash_deepCopy (atomHash : Atom → Nat × Atom) (atomDeepCopy : Atom → Ex Atom) :
    ∀ t : Ex Atom,
      (∀ a ∈ Ex.leaves t, (Ex.Hash atomHash (atomDeepCopy a)).1 = (atomHash a).1) →
      (Ex.Hash atomHash (Ex.DeepCopy atomDeepCopy t)).1 = (Ex.Hash atomHash t).1 := by
  apply ex_induction
  · intro a h
    rw [Ex.DeepCopy, ex_hash_atom]
    exact h a (by simp [Ex.leaves])
  · intro e ih h
    rw [ex_deepCopy_expr, expression_deepCopy_eq, ex_hash_expr, ex_hash_expr,
      expression_hash_eq, expression_hash_eq atomHash e]
    simp only
    by_cases hc : e.CachedHash > 0
    · simp only [hc, if_true]
    · simp only [hc, if_false]
      apply fingerprint_congr
      intro p hp
      apply ih p hp
      intro a ha
      apply h
      rw [leaves_expr, mem_leavesList]
      exact ⟨p, hp, ha⟩

end HashLemmas

section CopyLemmas

open Atoms

variable {Atom : Type}

theorem setIdx_nat {α : Type} (xs : List α) (i : Nat) (v : α) (h : i < xs.length) :
    setIdx xs (i : Int) v = some (xs.set i v) := by
  simp [setIdx, h]

/-- A slice all of whose parts are assigned has its parts. -/
theorem nonNilParts_of_all {α : Type} (l : List (Option α))
    (h : ∀ k, k < l.length → ∃ c, l[k]? = some (some c)) :
    ∃ cs, nonNilParts l = some cs ∧ cs.length = l.length := by
  induction l with
  | nil => exact ⟨[], rfl, rfl⟩
  | cons x rest ih =>
    obtain ⟨c, hc⟩ := h 0 (by simp)
    simp only [List.getElem?_cons_zero, Option.some.injEq] at hc
    subst hc
    obtain ⟨cs, hcs, hlen⟩ := ih (fun k hk => by
      have := h (k + 1) (by simpa using hk)
      simpa using this)
    exact ⟨c :: cs, by simp [nonNilParts, hcs], by simp [hlen]⟩

theorem nonNilParts_eq_some {α : Type} (l : List (Option α)) :
    ∀ cs, nonNilParts l = some cs → l = cs.map some := by
  induction l with
  | nil =>
    intro cs h
    simp only [nonNilParts, Option.some.injEq] at h
    subst h
    rfl
  | cons x rest ih =>
    intro cs h
    cases x with
    | none => simp [nonNilParts] at h
    | some c =>
      cases hr : nonNilParts rest with
      | none => simp [nonNilParts, hr] at h
      | some ps =>
        simp only [nonNilParts, hr, Option.some.injEq] at h
        subst h
        simp [ih ps hr]

/-- The loop of `Copy` returns and assigns the positions it runs through. -/
theorem copyLoop_total (atomCopy : Atom → Ex Atom) (parts : List (Ex Atom)) :
    ∀ (i : Nat) (copyParts : List (Option (Ex Atom))),
      (∀ p ∈ parts, ∃ c, Ex.Copy atomCopy p = some c) →
      i + parts.length ≤ copyParts.length →
      (∀ k, k < i → ∃ c, copyParts[k]? = some (some c)) →
      ∃ r, copyLoop atomCopy parts i copyParts = some r ∧
        r.length = copyParts.length ∧
        ∀ k, k < i + parts.length → ∃ c, r[k]? = some (some c) := by
  induction parts with
  | nil =>
    intro i copyParts _ _ hassigned
    exact ⟨copyParts, rfl, rfl, fun k hk => hassigned k (by simpa using hk)⟩
  | cons p rest ih =>
    intro i copyParts hp hlen hassigned
    obtain ⟨c, hc⟩ := hp p (List.mem_cons_self _ _)
    simp only [List.length_cons] at hlen
    have hi : i < copyParts.length := by omega
    obtain ⟨r, hr, hrl, hra⟩ := ih (i + 1) (copyParts.set i (some c))
      (fun q hq => hp q (List.mem_cons_of_mem _ hq))
      (by
        simp only [List.length_set]
        omega)
      (by
        intro k hk
        by_cases hki : k = i
        · subst hki
          exact ⟨c, by simp [hi]⟩
        · obtain ⟨c1, hc1⟩ := hassigned k (by omega)
          exact ⟨c1, by rw [List.getElem?_set_ne (fun h => hki h.symm)]; exact hc1⟩)
    refine ⟨r, ?_, by simpa using hrl, fun k hk => hra k (by
      simp only [List.length_cons] at hk
      omega)⟩
    rw [copyLoop]
    simp only [hc, setIdx_nat copyParts i (some c) hi]
    exact hr

theorem ex_copy_expr (atomCopy : Atom → Ex Atom) (t : Expression Atom) :
    Ex.Copy atomCopy (.expr t) = Expression.Copy atomCopy t := by
  rw [Ex.Copy]

/-- `Copy` returns, with as many parts as the receiver and the four other fields carried
over, when the copies of the parts return. -/
theorem expression_copy_of_parts (atomCopy : Atom → Ex Atom)
    (t : Expression Atom) (hp : ∀ p ∈ t.Parts, ∃ c, Ex.Copy atomCopy p = some c) :
    ∃ copy : Expression Atom, Expression.Copy atomCopy t = some (.expr copy) ∧
      copy.Parts.length = t.Parts.length ∧ copy.needsEval = t.needsEval ∧
      copy.correctlyInstantiated = t.correctlyInstantiated ∧
      copy.EvaledHash = t.EvaledHash ∧ copy.CachedHash = t.CachedHash ∧
      copyLoop atomCopy t.Parts 0 (List.replicate t.Parts.length none)
        = some (copy.Parts.map some) := by
  obtain ⟨parts, ne, ci, eh, ch⟩ := t
  obtain ⟨r, hr, hrl, hra⟩ := copyLoop_total atomCopy parts 0
    (List.replicate parts.length none) hp (by simp) (fun k hk => by omega)
  obtain ⟨cs, hcs, hcl⟩ := nonNilParts_of_all r (fun k hk => hra k (by
    simp only [List.length_replicate] at hrl
    omega))
  have hrmap := nonNilParts_eq_some r cs hcs
  refine ⟨⟨cs, ne, ci, eh, ch⟩, ?_, ?_, rfl, rfl, rfl, rfl, ?_⟩
  · have hneg : ¬ ((parts.length : Int) < 0) := by omega
    rw [Expression.Copy]
    simp [newEmptyExpressionOfLength, hr, hneg, hcs]
  · simp only [List.length_replicate] at hrl
    simp only
    omega
  · simp only
    rw [hr, hrmap]

theorem ex_copy_total (atomCopy : Atom → Ex Atom) :
    ∀ t : Ex Atom, ∃ c, Ex.Copy atomCopy t = some c := by
  apply ex_induction
  · intro a
    exact ⟨atomCopy a, by rw [Ex.Copy]⟩
  · intro e ih
    obtain ⟨copy, hc, -⟩ := expression_copy_of_parts atomCopy e ih
    exact ⟨.expr copy, by rw [ex_copy_expr, hc]⟩

theorem copyNilLoop_map_some (atomCopy : Atom → Ex Atom) (parts : List (Ex Atom)) :
    ∀ (i : Nat) (copyParts : List (Option (Ex Atom))),
      copyNilLoop atomCopy (parts.map some) i copyParts
        = copyLoop atomCopy parts i copyParts := by
  induction parts with
  | nil =>
    intro i copyParts
    simp [copyNilLoop, copyLoop]
  | cons p rest ih =>
    intro i copyParts
    rw [List.map_cons, copyNilLoop, copyLoop]
    cases Ex.Copy atomCopy p with
    | none => rfl
    | some c =>
      simp only
      cases setIdx copyParts (i : Int) (some c) with
      | none => rfl
      | some cp => exact ih (i + 1) cp

/-- `Copy` on a receiver whose parts are terms returns an expression with as many parts as
the receiver, and so does `Copy` on the same receiver seen with parts that may be nil. -/
theorem expression_copy_total (atomCopy : Atom → Ex Atom) (t : Expression Atom) :
    ∃ copy : Expression Atom, Expression.Copy atomCopy t = some (.expr copy) ∧
      copy.Parts.length = t.Parts.length ∧ copy.needsEval = t.needsEval ∧
      copy.correctlyInstantiated = t.correctlyInstantiated ∧
      copy.EvaledHash = t.EvaledHash ∧ copy.CachedHash = t.CachedHash ∧
      ExpressionWithNil.Copy atomCopy (withNil t) = some (withNil copy) := by
  obtain ⟨copy, h1, h2, h3, h4, h5, h6, h7⟩ :=
    expression_copy_of_parts atomCopy t (fun p _ => ex_copy_total atomCopy p)
  refine ⟨copy, h1, h2, h3, h4, h5, h6, ?_⟩
  have hneg : ¬ ((t.Parts.length : Int) < 0) := by omega
  simp only [ExpressionWithNil.Copy, withNil, newEmptyExpressionOfLength, hneg, if_false,
    Int.toNat_ofNat, copyNilLoop_map_some, List.length_map, h7, h3, h4, h5, h6]

theorem deepCopyNilLoop_map_some (atomDeepCopy : Atom → Ex Atom) (parts : List (Ex Atom)) :
    ∀ acc : Expression Atom, deepCopyNilLoop atomDeepCopy (parts.map some) acc
      = some (deepCopyLoop atomDeepCopy parts acc) := by
  induction parts with
  | nil =>
    intro acc
    simp [deepCopyNilLoop, deepCopyLoop]
  | cons p rest ih =>
    intro acc
    rw [List.map_cons, deepCopyNilLoop, deepCopyLoop, ih]

/-- `DeepCopy` on a receiver whose parts are terms, seen with parts that may be nil, is the
`DeepCopy` of the receiver. -/
theorem deepCopy_withNil (atomDeepCopy : Atom → Ex Atom) (t : Expression Atom) :
    ExpressionWithNil.DeepCopy atomDeepCopy (withNil t)
      = some (Expression.DeepCopy atomDeepCopy t) := by
  cases t
  rw [Expression.DeepCopy]
  simp only [ExpressionWithNil.DeepCopy, withNil, deepCopyNilLoop_map_some]

theorem deepCopyNilLoop_nil (atomDeepCopy : Atom → Ex Atom) (parts : List (Option (Ex Atom)))
    (h : none ∈ parts) :
    ∀ acc : Expression Atom, deepCopyNilLoop atomDeepCopy parts acc = none := by
  induction parts with
  | nil => simp at h
  | cons x rest ih =>
    intro acc
    cases x with
    | none => rw [deepCopyNilLoop]
    | some p =>
      rw [deepCopyNilLoop]
      exact ih (by simpa using h) _

theorem copyNilLoop_nil (atomCopy : Atom → Ex Atom) (parts : List (Option (Ex Atom)))
    (h : none ∈ parts) :
    ∀ (i : Nat) (copyParts : List (Option (Ex Atom))),
      copyNilLoop atomCopy parts i copyParts = none := by
  induction parts with
  | nil => simp at h
  | cons x rest ih =>
    intro i copyParts
    cases x with
    | none => rw [copyNilLoop]
    | some p =>
      rw [copyNilLoop]
      cases Ex.Copy atomCopy p with
      | none => rfl
      | some c =>
        simp only
        cases setIdx copyParts (i : Int) (some c) with
        | none => rfl
        | some cp => exact ih (by simpa using h) (i + 1) cp

/-- `DeepCopy` and `Copy` panic on a receiver with a nil part. -/
theorem copies_of_nil_part (atomDeepCopy atomCopy : Atom → Ex Atom)
    (r : ExpressionOf (Option (Ex Atom))) (h : none ∈ r.Parts) :
    ExpressionWithNil.DeepCopy atomDeepCopy r = none ∧
      ExpressionWithNil.Copy atomCopy r = none := by
  constructor
  · simp only [ExpressionWithNil.DeepCopy, deepCopyNilLoop_nil atomDeepCopy r.Parts h]
  · have hneg : ¬ ((r.Parts.length : Int) < 0) := by omega
    simp only [ExpressionWithNil.Copy, newEmptyExpressionOfLength, hneg, if_false,
      copyNilLoop_nil atomCopy r.Parts h]

/-- `Swap` returns when both indices are in range, and changes the parts only. -/
theorem swap_of_bounds (thisExpr : Expression Atom) (i j : Int)
    (hi0 : 0 ≤ i + 1) (hi1 : (i + 1).toNat < thisExpr.Parts.length)
    (hj0 : 0 ≤ j + 1) (hj1 : (j + 1).toNat < thisExpr.Parts.length) :
    ∃ r : Expression Atom, thisExpr.Swap i j = some r ∧
      r.Parts.length = thisExpr.Parts.length ∧ r.needsEval = thisExpr.needsEval ∧
      r.correctlyInstantiated = thisExpr.correctlyInstantiated ∧
      r.EvaledHash = thisExpr.EvaledHash ∧ r.CachedHash = thisExpr.CachedHash := by
  have ha : getIdx thisExpr.Parts (i + 1) = some (thisExpr.Parts[(i + 1).toNat]) := by
    simp [getIdx, hi0, List.getElem?_eq_getElem hi1]
  have hb : getIdx thisExpr.Parts (j + 1) = some (thisExpr.Parts[(j + 1).toNat]) := by
    simp [getIdx, hj0, List.getElem?_eq_getElem hj1]
  refine ⟨{ thisExpr with
      Parts := (thisExpr.Parts.set (j + 1).toNat thisExpr.Parts[(i + 1).toNat]).set
        (i + 1).toNat thisExpr.Parts[(j + 1).toNat] }, ?_, ?_, rfl, rfl, rfl, rfl⟩
  · simp only [Expression.Swap, ha, hb, setIdx, hi0, hj0, hi1, hj1, List.length_set,
      and_self, if_true, Option.bind_eq_bind, Option.some_bind]
  · simp

/-- `Swap` changes the parts only. -/
theorem swap_fields (thisExpr r : Expression Atom) (i j : Int)
    (h : thisExpr.Swap i j = some r) :
    r.needsEval = thisExpr.needsEval ∧
      r.correctlyInstantiated = thisExpr.correctlyInstantiated ∧
      r.EvaledHash = thisExpr.EvaledHash ∧ r.CachedHash = thisExpr.CachedHash := by
  simp only [Expression.Swap, Option.bind_eq_bind, Option.bind_eq_some] at h
  obtain ⟨a, -, b, -, p1, -, p2, -, h⟩ := h
  cases h
  exact ⟨rfl, rfl, rfl, rfl⟩

end CopyLemmas

section HeadLemmas

open Atoms

variable {Atom : Type}

theorem headStr_eq_none_iff (asSymbol : Atom → Option String) (t : Expression Atom) :
    Expression.HeadStr asSymbol t = none ↔ t.Parts = [] := by
  obtain ⟨parts, ne, ci, eh, ch⟩ := t
  cases parts with
  | nil => simp [Expression.HeadStr, Expression.GetParts]
  | cons p rest =>
    cases p with
    | expr q => simp [Expression.HeadStr, Expression.GetParts]
    | atom a =>
      cases hs : asSymbol a <;> simp [Expression.HeadStr, Expression.GetParts, hs]

theorem headAssertion_eq_none_iff (asSymbol : Atom → Option String) (t : Expression Atom)
    (head : String) :
    HeadAssertion asSymbol (.expr t) head = none ↔ t.Parts = [] := by
  obtain ⟨parts, ne, ci, eh, ch⟩ := t
  cases parts with
  | nil => simp [HeadAssertion, Expression.GetParts]
  | cons p rest =>
    cases p with
    | expr q => simp [HeadAssertion, Expression.GetParts]
    | atom a =>
      cases hs : asSymbol a with
      | none => simp [HeadAssertion, Expression.GetParts, hs]
      | some name =>
        by_cases hn : name = head <;> simp [HeadAssertion, Expression.GetParts, hs, hn]

theorem propagateConditionals_nil (asSymbol : Atom → Option String)
    (atomDeepCopy : Atom → Ex Atom) (S : String → Ex Atom) (t : Expression Atom)
    (h : t.Parts = []) :
    Expression.PropagateConditionals asSymbol atomDeepCopy S t = none := by
  simp [Expression.PropagateConditionals, Expression.GetParts, h]

theorem propagateConditionals_isSome (asSymbol : Atom → Option String)
    (atomDeepCopy : Atom → Ex Atom) (S : String → Ex Atom) (t : Expression Atom)
    (h : t.Parts ≠ []) (hargs : ∀ e ∈ t.Parts.tail, HasHead e) :
    ∃ r, Expression.PropagateConditionals asSymbol atomDeepCopy S t = some r := by
  obtain ⟨head, args, hp⟩ : ∃ head args, t.Parts = head :: args := by
    cases hparts : t.Parts with
    | nil => exact absurd hparts h
    | cons head args => exact ⟨head, args, rfl⟩
  rw [hp] at hargs
  rw [propagateConditionals_eq asSymbol atomDeepCopy S t head args hp hargs]
  split
  · exact ⟨_, rfl⟩
  · exact ⟨_, rfl⟩

end HeadLemmas

section ScanLemmas

variable {Ex σ : Type}

/-- The first scan returns; when it returns without a replacement, the list is unchanged and
no two different positions hold a match of `first` and a match of `second`. -/
theorem scanOuter_cases (isMatchQ : Ex → Ex → σ → Bool) (es : σ) (first second rhs : Ex)
    (cs : List Ex) :
    (∃ c1, scanOuter isMatchQ es first second rhs cs.length 0 cs = some (true, c1)) ∨
    (scanOuter isMatchQ es first second rhs cs.length 0 cs = some (false, cs) ∧
      ∀ (i j : Nat) (a b : Ex), i ≠ j → cs[i]? = some a → cs[j]? = some b →
        ¬ (isMatchQ a first es = true ∧ isMatchQ b second es = true)) := by
  by_cases hp : ∃ (i j : Nat) (a b : Ex), i ≠ j ∧ cs[i]? = some a ∧ cs[j]? = some b ∧
      isMatchQ a first es = true ∧ isMatchQ b second es = true
  · obtain ⟨i, j, a, b, -, -, -, -, -, -, -, h⟩ :=
      scanOuter_of_pair isMatchQ es first second rhs cs hp
    exact Or.inl ⟨_, h⟩
  · have hno : ∀ (i j : Nat) (a b : Ex), i ≠ j → cs[i]? = some a → cs[j]? = some b →
        ¬ (isMatchQ a first es = true ∧ isMatchQ b second es = true) := by
      intro i j a b hne ha hb hm
      exact hp ⟨i, j, a, b, hne, ha, hb, hm.1, hm.2⟩
    refine Or.inr ⟨?_, hno⟩
    apply scanOuter_none _ _ _ _ _ _ _ _ (by omega)
    intro i' e _ he hm j' e' hne he'
    by_contra hcon
    exact hno i' j' e e' (fun h => hne h.symm) he he' ⟨hm, by simpa using hcon⟩

/-- After a first scan without a replacement the second scan makes no replacement. -/
theorem scanOuter_second (isMatchQ : Ex → Ex → σ → Bool) (es : σ) (p0 p1 rhs : Ex)
    (cs c1 : List Ex)
    (h : scanOuter isMatchQ es p0 p1 rhs cs.length 0 cs = some (false, c1)) :
    c1 = cs ∧ scanOuter isMatchQ es p1 p0 rhs c1.length 0 c1 = some (false, c1) := by
  rcases scanOuter_cases isMatchQ es p0 p1 rhs cs with ⟨c2, h2⟩ | ⟨h2, hno⟩
  · rw [h2] at h
    simp at h
  · rw [h2] at h
    simp only [Option.some.injEq, Prod.mk.injEq, true_and] at h
    subst h
    refine ⟨rfl, ?_⟩
    apply scanOuter_none _ _ _ _ _ _ _ _ (by omega)
    intro i' e _ he hm j' e' hne he'
    by_contra hcon
    exact hno j' i' e' e hne he' he ⟨by simpa using hcon, hm⟩

theorem replaceTwo_eq_firstScan (isMatchQ : Ex → Ex → σ → Bool) (es : σ) (p0 p1 rhs : Ex)
    (cs : List Ex) :
    replaceTwo isMatchQ es p0 p1 rhs cs = replaceTwoFirstScan isMatchQ es p0 p1 rhs cs := by
  unfold replaceTwo replaceTwoFirstScan
  cases h : scanOuter isMatchQ es p0 p1 rhs cs.length 0 cs with
  | none => rfl
  | some r =>
    obtain ⟨b, c1⟩ := r
    cases b with
    | true => rfl
    | false =>
      simp only [(scanOuter_second isMatchQ es p0 p1 rhs cs c1 h).2]

end ScanLemmas

/-- C11. `SameQ` implies Equal on argument lists: when every pair of corresponding elements
that is `IsSameQ` has element verdict `EQUAL_TRUE`, `FunctionIsSameQ(A, B) = true` implies
`FunctionIsEqual(A, B) = EQUAL_TRUE`.  The converse need not hold: there are lists and element
methods, satisfying the same hypothesis, with `FunctionIsEqual` returning `EQUAL_TRUE` and
`FunctionIsSameQ` returning `false`. -/
theorem sameQ_implies_equal {Ex σ : Type} :
    (∀ (isSameQ : Ex → Ex → σ → Bool) (isEqual : Ex → Ex → σ → String) (es : σ)
        (A B : List Ex),
      (∀ (i : Nat) (a b : Ex), A[i]? = some a → B[i]? = some b → isSameQ a b es = true →
        isEqual a b es = "EQUAL_TRUE") →
      FunctionIsSameQ isSameQ A B es = some true →
      FunctionIsEqual isEqual A B es = some "EQUAL_TRUE") ∧
    (∃ (isSameQ : Nat → Nat → Unit → Bool) (isEqual : Nat → Nat → Unit → String)
        (A B : List Nat),
      (∀ (i : Nat) (a b : Nat), A[i]? = some a → B[i]? = some b → isSameQ a b () = true →
        isEqual a b () = "EQUAL_TRUE") ∧
      FunctionIsEqual isEqual A B () = some "EQUAL_TRUE" ∧
      FunctionIsSameQ isSameQ A B () = some false) := by
  constructor
  · intro isSameQ isEqual es A B himp hsame
    rw [FunctionIsSameQ] at hsame
    by_cases hlen : A.length = B.length
    · rw [if_neg (by simpa using hlen)] at hsame
      have hpairs := sameQLoop_true isSameQ es B A 0 hsame
      have hspec := functionLoop_spec isEqual es B A 0 (fun k a hk => by
        obtain ⟨b, hb, hs⟩ := hpairs k a hk
        exact ⟨b, hb, Or.inl (himp k a b hk (by simpa using hb) hs)⟩)
      rw [FunctionIsEqual, if_neg (by simpa using hlen)]
      refine hspec.1.2 (fun k a b hk hb => ?_)
      obtain ⟨b1, hb1, hs⟩ := hpairs k a hk
      rw [hb] at hb1
      cases hb1
      exact himp k a b hk (by simpa using hb) hs
    · rw [if_pos (by simpa using hlen)] at hsame
      cases hsame
  · exact ⟨fun a b _ => a == b, fun _ _ _ => "EQUAL_TRUE", [1], [2],
      fun _ _ _ _ _ _ => rfl, by decide, by decide⟩

/-- The claim C11 at `A = B = [1, 2]`, with `IsSameQ` the equality of numbers and verdict
`EQUAL_TRUE` for equal numbers, `EQUAL_UNK` otherwise. -/
theorem sameQ_implies_equal_witness :
    FunctionIsEqual (fun (a b : Nat) (_ : Unit) => if a = b then "EQUAL_TRUE" else "EQUAL_UNK")
      [1, 2] [1, 2] () = some "EQUAL_TRUE" :=
  (@sameQ_implies_equal Nat Unit).1 (fun a b _ => a == b)
    (fun (a b : Nat) (_ : Unit) => if a = b then "EQUAL_TRUE" else "EQUAL_UNK") () [1, 2] [1, 2]
    (by
      intro i a b _ _ h
      have hab : a = b := by simpa using h
      simp [hab])
    (by decide)

/-- C12. A term equals its deep copy: for every expression `t`, of any depth, whose atomic
leaves `a` satisfy `a.IsEqual(a.DeepCopy()) = EQUAL_TRUE`, `t.IsEqual(t.DeepCopy())` returns
`EQUAL_TRUE`; `DeepCopy` yields an expression with the same number of parts whose `i`-th part
is the deep copy of the `i`-th part of `t`. -/
theorem deepCopy_isEqual {Atom : Type} (atomIsEqual : Atom → Atoms.Ex Atom → String)
    (atomDeepCopy : Atom → Atoms.Ex Atom) (t : Atoms.Expression Atom)
    (hleaves : ∀ a ∈ Atoms.Ex.leaves (.expr t),
      atomIsEqual a (atomDeepCopy a) = "EQUAL_TRUE") :
    Atoms.Expression.IsEqual atomIsEqual t (Atoms.Expression.DeepCopy atomDeepCopy t)
      = some "EQUAL_TRUE" ∧
    ∃ copy : Atoms.Expression Atom,
      Atoms.Expression.DeepCopy atomDeepCopy t = .expr copy ∧
      copy.Parts.length = t.Parts.length ∧
      ∀ (i : Nat) (p : Atoms.Ex Atom), t.Parts[i]? = some p →
        copy.Parts[i]? = some (Atoms.Ex.DeepCopy atomDeepCopy p) := by
  constructor
  · have := ex_isEqual_deepCopy atomIsEqual atomDeepCopy (.expr t) hleaves
    rwa [ex_deepCopy_expr, ex_isEqual_expr] at this
  · refine ⟨_, expression_deepCopy_eq atomDeepCopy t, by simp, fun i p hp => ?_⟩
    simp [List.getElem?_map, hp]

/-- The claim C12 at the expression `f[x, g[y]]` over string atoms that are Equal exactly to
the atom of the same name, with atoms copied as themselves. -/
theorem deepCopy_isEqual_witness :
    Atoms.Expression.IsEqual
      (fun (s : String) (o : Atoms.Ex String) =>
        match o with
        | .atom u => if s = u then "EQUAL_TRUE" else "EQUAL_FALSE"
        | .expr _ => "EQUAL_UNK")
      (Atoms.E [.atom "f", .atom "x", .expr (Atoms.E [.atom "g", .atom "y"])])
      (Atoms.Expression.DeepCopy (fun s => .atom s)
        (Atoms.E [.atom "f", .atom "x", .expr (Atoms.E [.atom "g", .atom "y"])]))
      = some "EQUAL_TRUE" :=
  (deepCopy_isEqual
    (fun (s : String) (o : Atoms.Ex String) =>
      match o with
      | .atom u => if s = u then "EQUAL_TRUE" else "EQUAL_FALSE"
      | .expr _ => "EQUAL_UNK")
    (fun s => .atom s)
    (Atoms.E [.atom "f", .atom "x", .expr (Atoms.E [.atom "g", .atom "y"])])
    (by
      intro a _
      simp)).1

/-- C13. Conditional hoisting: for every expression `h[a1, ..., an]` of well-formed terms
(every argument is an atom or an expression with at least one part, the invariant that `Parts`
is never empty) in which at least one argument is a 3-part expression headed by the symbol
named ``System`ConditionalExpression``, `PropagateConditionals` returns, with found = true,
the 3-part expression `ConditionalExpression[h[v1, ..., vn], And[c1, ..., cm]]`, where `vi` is
the deep copy of the value part of `ai` when `ai` is such a conditional and the deep copy of
`ai` otherwise, and `c1..cm` are the deep copies of the condition parts of exactly the
conditional arguments, in argument order; the inner expression keeps the head `h` and exactly
`n` arguments, and `m` is the number of conditional arguments. -/
theorem propagateConditionals_hoists {Atom : Type} (asSymbol : Atom → Option String)
    (atomDeepCopy : Atom → Atoms.Ex Atom) (S : String → Atoms.Ex Atom)
    (thisExpr : Atoms.Expression Atom) (head : Atoms.Ex Atom) (args : List (Atoms.Ex Atom))
    (hparts : thisExpr.Parts = head :: args)
    (hargs : ∀ e ∈ args, HasHead e)
    (hcond : ∃ e ∈ args, ∃ (cond : Atoms.Expression Atom) (h : Atom) (v c : Atoms.Ex Atom),
      e = .expr cond ∧ cond.Parts = [.atom h, v, c] ∧
      asSymbol h = some "System`ConditionalExpression") :
    Atoms.Expression.PropagateConditionals asSymbol atomDeepCopy S thisExpr
      = some (Atoms.E [S "ConditionalExpression",
          .expr (Atoms.E (head :: args.map (hoistedValue asSymbol atomDeepCopy))),
          .expr (Atoms.E
            (S "And" :: args.filterMap (hoistedCondition asSymbol atomDeepCopy)))], true) ∧
    (args.map (hoistedValue asSymbol atomDeepCopy)).length = args.length ∧
    (args.filterMap (hoistedCondition asSymbol atomDeepCopy)).length
      = (args.filter (fun e => (conditionalParts asSymbol e).isSome)).length ∧
    (∀ (e : Atoms.Ex Atom) (cond : Atoms.Expression Atom) (h : Atom) (v c : Atoms.Ex Atom),
      e = .expr cond → cond.Parts = [.atom h, v, c] →
      asSymbol h = some "System`ConditionalExpression" →
        conditionalParts asSymbol e = some (v, c) ∧
        hoistedValue asSymbol atomDeepCopy e = Atoms.Ex.DeepCopy atomDeepCopy v ∧
        hoistedCondition asSymbol atomDeepCopy e
          = some (Atoms.Ex.DeepCopy atomDeepCopy c)) ∧
    (∀ e : Atoms.Ex Atom,
      (¬ ∃ (cond : Atoms.Expression Atom) (h : Atom) (v c : Atoms.Ex Atom),
        e = .expr cond ∧ cond.Parts = [.atom h, v, c] ∧
        asSymbol h = some "System`ConditionalExpression") →
        conditionalParts asSymbol e = none ∧
        hoistedValue asSymbol atomDeepCopy e = Atoms.Ex.DeepCopy atomDeepCopy e ∧
        hoistedCondition asSymbol atomDeepCopy e = none) := by
  refine ⟨?_, by simp, ?_, ?_, ?_⟩
  · rw [propagateConditionals_eq asSymbol atomDeepCopy S thisExpr head args hparts hargs,
      (any_conditional_iff asSymbol args).2 hcond]
    rfl
  · clear hcond hargs hparts
    induction args with
    | nil => rfl
    | cons e rest ih =>
      cases hc : conditionalParts asSymbol e with
      | none => simp [List.filterMap_cons, List.filter_cons, hoistedCondition, hc, ih]
      | some vc => simp [List.filterMap_cons, List.filter_cons, hoistedCondition, hc, ih]
  · intro e cond h v c h1 h2 h3
    have hc := (conditionalParts_eq_some asSymbol e v c).2 ⟨cond, h, h1, h2, h3⟩
    simp [hoistedValue, hoistedCondition, hc]
  · intro e hne
    have hc : conditionalParts asSymbol e = none := by
      cases hc : conditionalParts asSymbol e with
      | none => rfl
      | some vc =>
        obtain ⟨cond, h, h1, h2, h3⟩ := (conditionalParts_eq_some asSymbol e vc.1 vc.2).1 hc
        exact absurd ⟨cond, h, vc.1, vc.2, h1, h2, h3⟩ hne
    simp [hoistedValue, hoistedCondition, hc]

/-- The claim C13 at `F[ConditionalExpression[x, cond1], y]` over string atoms, every atom a
symbol named by its string and copied as itself: the result is
`ConditionalExpression[F[x, y], And[cond1]]`. -/
theorem propagateConditionals_hoists_witness :
    Atoms.Expression.PropagateConditionals (fun (s : String) => some s) (fun s => .atom s)
      (fun s => .atom ("System`" ++ s))
      (Atoms.E [.atom "F",
        .expr (Atoms.E [.atom "System`ConditionalExpression", .atom "x", .atom "cond1"]),
        .atom "y"])
      = some (Atoms.E [.atom "System`ConditionalExpression",
          .expr (Atoms.E [.atom "F", .atom "x", .atom "y"]),
          .expr (Atoms.E [.atom "System`And", .atom "cond1"])], true) :=
  (propagateConditionals_hoists (fun (s : String) => some s) (fun s => .atom s)
    (fun s => .atom ("System`" ++ s))
    (Atoms.E [.atom "F",
      .expr (Atoms.E [.atom "System`ConditionalExpression", .atom "x", .atom "cond1"]),
      .atom "y"])
    (.atom "F")
    [.expr (Atoms.E [.atom "System`ConditionalExpression", .atom "x", .atom "cond1"]),
      .atom "y"]
    rfl
    (by
      intro e he
      simp only [List.mem_cons, List.mem_singleton, List.not_mem_nil, or_false] at he
      rcases he with rfl | rfl
      · simp [HasHead, Atoms.E, Atoms.NewExpression]
      · trivial)
    ⟨_, List.mem_cons_self _ _,
      Atoms.E [.atom "System`ConditionalExpression", .atom "x", .atom "cond1"],
      "System`ConditionalExpression", .atom "x", .atom "cond1", rfl, rfl, rfl⟩).1.trans
    rfl

/-- C14. Conditional propagation reports found exactly when a condition exists: for every
expression with non-empty `Parts` whose arguments are well-formed terms (atoms or expressions
with at least one part, the invariant that `Parts` is never empty), `PropagateConditionals`
returns, and it returns found = true if and only if some argument (a part other than the head)
is an expression with exactly 3 parts whose head is the symbol named
``System`ConditionalExpression``; when it returns found = false the returned expression is the
receiver itself, unchanged.  An argument headed `ConditionalExpression` with a number of parts
other than 3, or a conditional in head position, does not count. -/
theorem propagateConditionals_found {Atom : Type} (asSymbol : Atom → Option String)
    (atomDeepCopy : Atom → Atoms.Ex Atom) (S : String → Atoms.Ex Atom)
    (thisExpr : Atoms.Expression Atom) (head : Atoms.Ex Atom) (args : List (Atoms.Ex Atom))
    (hparts : thisExpr.Parts = head :: args)
    (hargs : ∀ e ∈ args, HasHead e) :
    ∃ (res : Atoms.Expression Atom) (found : Bool),
      Atoms.Expression.PropagateConditionals asSymbol atomDeepCopy S thisExpr
        = some (res, found) ∧
      (found = true ↔
        ∃ e ∈ args, ∃ (cond : Atoms.Expression Atom) (h : Atom) (v c : Atoms.Ex Atom),
          e = .expr cond ∧ cond.Parts = [.atom h, v, c] ∧
          asSymbol h = some "System`ConditionalExpression") ∧
      (found = false → res = thisExpr) := by
  rw [propagateConditionals_eq asSymbol atomDeepCopy S thisExpr head args hparts hargs,
    ← any_conditional_iff asSymbol args]
  cases hany : args.any (fun e => (conditionalParts asSymbol e).isSome) with
  | false => exact ⟨thisExpr, false, by simp, by simp, fun _ => rfl⟩
  | true => exact ⟨_, true, rfl, by simp, by simp⟩

/-- The claim C14 at `ConditionalExpression[x, c][ConditionalExpression[x], y]`: a conditional
in head position and an argument headed `ConditionalExpression` with 2 parts do not count, so
the receiver is returned with found = false. -/
theorem propagateConditionals_found_witness :
    ∃ (res : Atoms.Expression String) (found : Bool),
      Atoms.Expression.PropagateConditionals (fun (s : String) => some s) (fun s => .atom s)
        (fun s => .atom ("System`" ++ s))
        (Atoms.E [.expr (Atoms.E [.atom "System`ConditionalExpression", .atom "x", .atom "c"]),
          .expr (Atoms.E [.atom "System`ConditionalExpression", .atom "x"]), .atom "y"])
        = some (res, found) ∧
      (found = true ↔
        ∃ e ∈ [Atoms.Ex.expr (Atoms.E [.atom "System`ConditionalExpression", .atom "x"]),
            .atom "y"],
          ∃ (cond : Atoms.Expression String) (h : String) (v c : Atoms.Ex String),
          e = .expr cond ∧ cond.Parts = [.atom h, v, c] ∧
          (fun (s : String) => some s) h = some "System`ConditionalExpression") ∧
      (found = false →
        res = Atoms.E [.expr (Atoms.E [.atom "System`ConditionalExpression", .atom "x",
            .atom "c"]),
          .expr (Atoms.E [.atom "System`ConditionalExpression", .atom "x"]), .atom "y"]) :=
  propagateConditionals_found (fun (s : String) => some s) (fun s => .atom s)
    (fun s => .atom ("System`" ++ s))
    (Atoms.E [.expr (Atoms.E [.atom "System`ConditionalExpression", .atom "x", .atom "c"]),
      .expr (Atoms.E [.atom "System`ConditionalExpression", .atom "x"]), .atom "y"])
    (.expr (Atoms.E [.atom "System`ConditionalExpression", .atom "x", .atom "c"]))
    [.expr (Atoms.E [.atom "System`ConditionalExpression", .atom "x"]), .atom "y"]
    rfl
    (by
      intro e he
      simp only [List.mem_cons, List.mem_singleton, List.not_mem_nil, or_false] at he
      rcases he with rfl | rfl
      · simp [HasHead, Atoms.E, Atoms.NewExpression]
      · trivial)

/-- C15. Hash stability: for every expression `t`, in any cache state, whose parts have stable
hashes, two consecutive calls of `t.Hash()` with no mutation in between return the same value;
when `CachedHash` is 0 at the first call, that value is the FNV-1a 64-bit digest of the 8 seed
bytes `[72,5,244,86,5,210,69,30]` followed by the 8-byte little-endian encoding of the hash of
each part from left to right, it is below `2^64` and it is stored in `CachedHash`.  Nothing is
assumed about the digest, so this holds also when the digest is 0. -/
theorem hash_stable {Atom : Type} (atomHash : Atom → Nat × Atom) (t : Atoms.Expression Atom)
    (hparts : ∀ p ∈ t.Parts,
      (Atoms.Ex.Hash atomHash (Atoms.Ex.Hash atomHash p).2).1 = (Atoms.Ex.Hash atomHash p).1) :
    (Atoms.Expression.Hash atomHash (Atoms.Expression.Hash atomHash t).2).1
      = (Atoms.Expression.Hash atomHash t).1 ∧
    (t.CachedHash = 0 →
      (Atoms.Expression.Hash atomHash t).1
        = Atoms.fnvWrite Atoms.fnvOffset64
            ([72, 5, 244, 86, 5, 210, 69, 30]
              ++ (t.Parts.map
                    (fun p => Atoms.putUint64 (Atoms.Ex.Hash atomHash p).1)).flatten) ∧
      (Atoms.Expression.Hash atomHash t).1 < 2 ^ 64 ∧
      (Atoms.Expression.Hash atomHash t).2.CachedHash
        = (Atoms.Expression.Hash atomHash t).1) := by
  refine ⟨expression_hash_twice atomHash t hparts, fun h0 => ?_⟩
  rw [expression_hash_eq atomHash t]
  simp only [h0, gt_iff_lt, lt_self_iff_false, if_false]
  exact ⟨rfl, fingerprint_lt atomHash t.Parts, trivial⟩

/-- The claim C15 at `f[x, g[y]]` with no hash computed yet, over string atoms whose hash is
their length plus 1. -/
theorem hash_stable_witness :
    (Atoms.Expression.Hash (fun (s : String) => (s.length + 1, s))
      (Atoms.Expression.Hash (fun (s : String) => (s.length + 1, s))
        (Atoms.E [.atom "f", .atom "x", .expr (Atoms.E [.atom "g", .atom "y"])])).2).1
      = (Atoms.Expression.Hash (fun (s : String) => (s.length + 1, s))
        (Atoms.E [.atom "f", .atom "x", .expr (Atoms.E [.atom "g", .atom "y"])])).1 :=
  (hash_stable (fun (s : String) => (s.length + 1, s))
    (Atoms.E [.atom "f", .atom "x", .expr (Atoms.E [.atom "g", .atom "y"])])
    (by
      intro p hp
      simp only [Atoms.E, Atoms.NewExpression, List.mem_cons, List.mem_singleton,
        List.not_mem_nil, or_false] at hp
      rcases hp with rfl | rfl | rfl
      · decide
      · decide
      · decide)).1

/-- C16 (amended). No operation that changes `Parts` touches the hash caches: for every
expression, `AppendEx`, `AppendExArray`, `SetParts` and `Swap` leave `CachedHash` and
`EvaledHash` as they were (`Swap` returns when both positions exist); so after any of them a
non-zero `CachedHash` is still what the next `Hash()` returns, whatever the parts now are.
Only `ClearHashes` sets both fields to 0, and the next `Hash()` after it is the fingerprint
freshly computed from the current parts. -/
theorem mutation_keeps_hashes {Atom : Type} (atomHash : Atom → Nat × Atom)
    (thisExpr : Atoms.Expression Atom) (e : Atoms.Ex Atom)
    (es newParts : List (Atoms.Ex Atom)) (i j : Int) :
    ((thisExpr.AppendEx e).CachedHash = thisExpr.CachedHash ∧
      (thisExpr.AppendEx e).EvaledHash = thisExpr.EvaledHash) ∧
    ((thisExpr.AppendExArray es).CachedHash = thisExpr.CachedHash ∧
      (thisExpr.AppendExArray es).EvaledHash = thisExpr.EvaledHash) ∧
    ((thisExpr.SetParts newParts).CachedHash = thisExpr.CachedHash ∧
      (thisExpr.SetParts newParts).EvaledHash = thisExpr.EvaledHash) ∧
    (0 ≤ i + 1 → (i + 1).toNat < thisExpr.Parts.length →
      0 ≤ j + 1 → (j + 1).toNat < thisExpr.Parts.length →
      ∃ r : Atoms.Expression Atom, thisExpr.Swap i j = some r ∧
        r.CachedHash = thisExpr.CachedHash ∧ r.EvaledHash = thisExpr.EvaledHash ∧
        (0 < thisExpr.CachedHash →
          (Atoms.Expression.Hash atomHash r).1 = thisExpr.CachedHash)) ∧
    (0 < thisExpr.CachedHash →
      (Atoms.Expression.Hash atomHash (thisExpr.AppendEx e)).1 = thisExpr.CachedHash ∧
      (Atoms.Expression.Hash atomHash (thisExpr.AppendExArray es)).1 = thisExpr.CachedHash ∧
      (Atoms.Expression.Hash atomHash (thisExpr.SetParts newParts)).1
        = thisExpr.CachedHash) ∧
    (thisExpr.ClearHashes.CachedHash = 0 ∧ thisExpr.ClearHashes.EvaledHash = 0 ∧
      thisExpr.ClearHashes.Parts = thisExpr.Parts ∧
      (Atoms.Expression.Hash atomHash thisExpr.ClearHashes).1
        = fingerprint atomHash thisExpr.Parts) := by
  refine ⟨⟨rfl, rfl⟩, ⟨rfl, rfl⟩, ⟨rfl, rfl⟩, ?_, ?_, rfl, rfl, rfl, ?_⟩
  · intro hi0 hi1 hj0 hj1
    obtain ⟨r, hr, -, -, -, heh, hch⟩ := swap_of_bounds thisExpr i j hi0 hi1 hj0 hj1
    refine ⟨r, hr, hch, heh, fun hpos => ?_⟩
    rw [expression_hash_eq, hch]
    simp [hpos]
  · intro hpos
    refine ⟨?_, ?_, ?_⟩
    · rw [expression_hash_eq]
      simp [Atoms.Expression.AppendEx, hpos]
    · rw [expression_hash_eq]
      simp [Atoms.Expression.AppendExArray, hpos]
    · rw [expression_hash_eq]
      simp [Atoms.Expression.SetParts, hpos]
  · rw [expression_hash_eq]
    simp [Atoms.Expression.ClearHashes]

/-- The amended claim C16 at `f[x]` after a call of `Hash`, over string atoms whose hash is
their length plus 1: after `AppendEx(y)` the next `Hash()` returns the value cached for
`f[x]`. -/
theorem mutation_keeps_hashes_witness :
    (Atoms.Expression.Hash (fun (s : String) => (s.length + 1, s))
      ((Atoms.Expression.Hash (fun (s : String) => (s.length + 1, s))
        (Atoms.E [.atom "f", .atom "x"])).2.AppendEx (.atom "y"))).1
      = (Atoms.Expression.Hash (fun (s : String) => (s.length + 1, s))
        (Atoms.E [.atom "f", .atom "x"])).2.CachedHash :=
  ((mutation_keeps_hashes (fun (s : String) => (s.length + 1, s))
    (Atoms.Expression.Hash (fun (s : String) => (s.length + 1, s))
      (Atoms.E [.atom "f", .atom "x"])).2 (.atom "y") [] [] 0 0).2.2.2.2.1 (by decide)).1

/-- The claim C16 as stated fails at the expression `f[x]`, built by `E`, after a call of
`Hash` and then `AppendEx(y)`: `CachedHash` is not 0, and the next `Hash()` is not the
fingerprint of the current parts `f, x, y`. -/
theorem mutation_keeps_hashes_counterexample :
    ((Atoms.Expression.Hash (fun (s : String) => (s.length + 1, s))
        (Atoms.E [.atom "f", .atom "x"])).2.AppendEx (.atom "y")).CachedHash ≠ 0 ∧
    (Atoms.Expression.Hash (fun (s : String) => (s.length + 1, s))
      ((Atoms.Expression.Hash (fun (s : String) => (s.length + 1, s))
        (Atoms.E [.atom "f", .atom "x"])).2.AppendEx (.atom "y"))).1
      ≠ fingerprint (fun (s : String) => (s.length + 1, s))
          ((Atoms.Expression.Hash (fun (s : String) => (s.length + 1, s))
            (Atoms.E [.atom "f", .atom "x"])).2.AppendEx (.atom "y")).Parts := by
  constructor
  · decide
  · decide

/-- C17. Equal terms hash equally across `DeepCopy`: for every expression `t`, of any depth
and in any cache state, whose atomic leaves `a` satisfy `Hash(a.DeepCopy()) = Hash(a)`, the
deep copy has the same hash, `t.DeepCopy().Hash() = t.Hash()`; `DeepCopy` carries
`CachedHash`, `EvaledHash`, `needsEval` and `correctlyInstantiated` over unchanged. -/
theorem deepCopy_hash {Atom : Type} (atomHash : Atom → Nat × Atom)
    (atomDeepCopy : Atom → Atoms.Ex Atom) (t : Atoms.Expression Atom)
    (hleaves : ∀ a ∈ Atoms.Ex.leaves (.expr t),
      (Atoms.Ex.Hash atomHash (atomDeepCopy a)).1 = (atomHash a).1) :
    (Atoms.Ex.Hash atomHash (Atoms.Expression.DeepCopy atomDeepCopy t)).1
      = (Atoms.Expression.Hash atomHash t).1 ∧
    ∃ copy : Atoms.Expression Atom,
      Atoms.Expression.DeepCopy atomDeepCopy t = .expr copy ∧
      copy.CachedHash = t.CachedHash ∧ copy.EvaledHash = t.EvaledHash ∧
      copy.needsEval = t.needsEval ∧
      copy.correctlyInstantiated = t.correctlyInstantiated := by
  constructor
  · have := ex_hash_deepCopy atomHash atomDeepCopy (.expr t) hleaves
    rwa [ex_deepCopy_expr, ex_hash_expr] at this
  · exact ⟨_, expression_deepCopy_eq atomDeepCopy t, rfl, rfl, rfl, rfl⟩

/-- The claim C17 at `f[x, g[y]]` after a call of `Hash` (the caches of the expression and of
`g[y]` are computed), over string atoms whose hash is their length plus 1 and that are copied
as themselves. -/
theorem deepCopy_hash_witness :
    (Atoms.Ex.Hash (fun (s : String) => (s.length + 1, s))
      (Atoms.Expression.DeepCopy (fun s => .atom s)
        (Atoms.Expression.Hash (fun (s : String) => (s.length + 1, s))
          (Atoms.E [.atom "f", .atom "x", .expr (Atoms.E [.atom "g", .atom "y"])])).2)).1
      = (Atoms.Expression.Hash (fun (s : String) => (s.length + 1, s))
        (Atoms.Expression.Hash (fun (s : String) => (s.length + 1, s))
          (Atoms.E [.atom "f", .atom "x", .expr (Atoms.E [.atom "g", .atom "y"])])).2).1 :=
  (deepCopy_hash (fun (s : String) => (s.length + 1, s)) (fun s => .atom s)
    (Atoms.Expression.Hash (fun (s : String) => (s.length + 1, s))
      (Atoms.E [.atom "f", .atom "x", .expr (Atoms.E [.atom "g", .atom "y"])])).2
    (by
      intro a _
      rfl)).1

/-- C18 (amended). `Parts` can be empty: `NewExpression` and `E` yield exactly the parts they
are given, `NewHead` yields exactly one part, `NewEmptyExpression` yields no part, and
`newEmptyExpressionOfLength(n)` yields `n` parts for `n ≥ 0`, every one of them the nil
interface value; `SetParts` installs the list it is given.  `AppendEx` adds one part,
`AppendExArray` adds the parts given, `ShallowCopy` keeps the parts, and on a receiver whose
parts are terms (no nil interface value at any depth) `DeepCopy` and `Copy` return an
expression with as many parts as the receiver, so these preserve having at least one part;
on a receiver with a nil part, such as the result of `newEmptyExpressionOfLength(n)` for
`n ≥ 1`, `DeepCopy` and `Copy` panic.  On an expression whose parts are terms, the unguarded
`GetParts()[0]` of `HeadStr` and of `HeadAssertion` panics exactly when the expression has no
part; `PropagateConditionals` panics when it has no part and returns when it has at least one
part and all its arguments are atoms or expressions with at least one part. -/
theorem parts_count {Atom : Type} (asSymbol : Atom → Option String)
    (atomDeepCopy atomCopy : Atom → Atoms.Ex Atom) (S NewSymbol : String → Atoms.Ex Atom)
    (parts newParts es : List (Atoms.Ex Atom)) (head : String)
    (n : Int) (thisExpr : Atoms.Expression Atom) (e : Atoms.Ex Atom) :
    ((Atoms.NewExpression parts).Parts = parts ∧ (Atoms.E parts).Parts = parts ∧
      (Atoms.NewHead NewSymbol head).Parts = [NewSymbol head] ∧
      (Atoms.NewEmptyExpression : Atoms.Expression Atom).Parts = [] ∧
      (0 ≤ n → ∃ r : Atoms.ExpressionOf (Option (Atoms.Ex Atom)),
        Atoms.newEmptyExpressionOfLength n = some r ∧
        r.Parts = List.replicate n.toNat none ∧ r.Parts.length = n.toNat) ∧
      (n < 0 → @Atoms.newEmptyExpressionOfLength Atom n = none) ∧
      (thisExpr.SetParts newParts).Parts = newParts) ∧
    ((thisExpr.AppendEx e).Parts.length = thisExpr.Parts.length + 1 ∧
      (thisExpr.AppendExArray es).Parts.length = thisExpr.Parts.length + es.length ∧
      (Atoms.ShallowCopy thisExpr).Parts = thisExpr.Parts ∧
      (∃ copy : Atoms.Expression Atom,
        Atoms.Expression.DeepCopy atomDeepCopy thisExpr = .expr copy ∧
        copy.Parts.length = thisExpr.Parts.length ∧
        Atoms.ExpressionWithNil.DeepCopy atomDeepCopy (withNil thisExpr)
          = some (.expr copy)) ∧
      (∃ copy : Atoms.Expression Atom,
        Atoms.Expression.Copy atomCopy thisExpr = some (.expr copy) ∧
        copy.Parts.length = thisExpr.Parts.length ∧
        Atoms.ExpressionWithNil.Copy atomCopy (withNil thisExpr) = some (withNil copy))) ∧
    ((∀ r : Atoms.ExpressionOf (Option (Atoms.Ex Atom)), none ∈ r.Parts →
        Atoms.ExpressionWithNil.DeepCopy atomDeepCopy r = none ∧
        Atoms.ExpressionWithNil.Copy atomCopy r = none) ∧
      (0 < n → ∃ r : Atoms.ExpressionOf (Option (Atoms.Ex Atom)),
        Atoms.newEmptyExpressionOfLength n = some r ∧
        Atoms.ExpressionWithNil.DeepCopy atomDeepCopy r = none ∧
        Atoms.ExpressionWithNil.Copy atomCopy r = none)) ∧
    ((Atoms.Expression.HeadStr asSymbol thisExpr = none ↔ thisExpr.Parts = []) ∧
      (Atoms.HeadAssertion asSymbol (.expr thisExpr) head = none ↔ thisExpr.Parts = []) ∧
      (thisExpr.Parts = [] →
        Atoms.Expression.PropagateConditionals asSymbol atomDeepCopy S thisExpr = none) ∧
      (thisExpr.Parts ≠ [] → (∀ a ∈ thisExpr.Parts.tail, HasHead a) →
        ∃ r, Atoms.Expression.PropagateConditionals asSymbol atomDeepCopy S thisExpr
          = some r)) := by
  refine ⟨⟨rfl, rfl, rfl, rfl, ?_, ?_, rfl⟩, ⟨?_, ?_, ?_, ?_, ?_⟩, ⟨?_, ?_⟩,
    ⟨?_, ?_, ?_, ?_⟩⟩
  · intro hn
    have hneg : ¬ n < 0 := by omega
    refine ⟨⟨List.replicate n.toNat none, true, true, 0, 0⟩, ?_, rfl, by simp⟩
    simp only [Atoms.newEmptyExpressionOfLength, hneg, if_false]
  · intro hn
    simp only [Atoms.newEmptyExpressionOfLength, hn, if_true]
  · simp [Atoms.Expression.AppendEx]
  · simp [Atoms.Expression.AppendExArray]
  · simp [Atoms.ShallowCopy, Atoms.Expression.GetParts]
  · refine ⟨_, expression_deepCopy_eq atomDeepCopy thisExpr, by simp, ?_⟩
    rw [deepCopy_withNil, expression_deepCopy_eq]
  · obtain ⟨copy, hc, hl, -, -, -, -, hw⟩ := expression_copy_total atomCopy thisExpr
    exact ⟨copy, hc, hl, hw⟩
  · intro r hr
    exact copies_of_nil_part atomDeepCopy atomCopy r hr
  · intro hn
    have hneg : ¬ n < 0 := by omega
    have hpos : 0 < n.toNat := by omega
    have hmem : (none : Option (Atoms.Ex Atom)) ∈ List.replicate n.toNat none := by
      simp only [List.mem_replicate, ne_eq, and_true]
      omega
    obtain ⟨h1, h2⟩ := copies_of_nil_part atomDeepCopy atomCopy
      ⟨List.replicate n.toNat none, true, true, 0, 0⟩ hmem
    refine ⟨⟨List.replicate n.toNat none, true, true, 0, 0⟩, ?_, h1, h2⟩
    simp only [Atoms.newEmptyExpressionOfLength, hneg, if_false]
  · exact headStr_eq_none_iff asSymbol thisExpr
  · exact headAssertion_eq_none_iff asSymbol thisExpr head
  · exact propagateConditionals_nil asSymbol atomDeepCopy S thisExpr
  · exact propagateConditionals_isSome asSymbol atomDeepCopy S thisExpr

/-- The amended claim C18 over string atoms: `newEmptyExpressionOfLength(2)` returns an
expression on which `DeepCopy` and `Copy` panic. -/
theorem parts_count_witness :
    ∃ r : Atoms.ExpressionOf (Option (Atoms.Ex String)),
      Atoms.newEmptyExpressionOfLength 2 = some r ∧
      Atoms.ExpressionWithNil.DeepCopy (fun s => .atom s) r = none ∧
      Atoms.ExpressionWithNil.Copy (fun s => .atom s) r = none :=
  (parts_count (fun (s : String) => some s) (fun s => .atom s) (fun s => .atom s)
    (fun s => .atom ("System`" ++ s)) (fun s => .atom s) [] [] [] "F" 2
    (Atoms.E [.atom "F", .atom "x", .expr (Atoms.E [.atom "G", .atom "y"])])
    (.atom "x")).2.2.1.2 (by decide)

/-- The claim C18 as stated fails at `NewEmptyExpression()`, at `E()` and at
`newEmptyExpressionOfLength(0)`: each is an expression without parts, and on
`NewEmptyExpression()` the calls `HeadStr`, `HeadAssertion` and `PropagateConditionals`
panic. -/
theorem parts_count_counterexample :
    (Atoms.NewEmptyExpression : Atoms.Expression String).Parts.length = 0 ∧
    (Atoms.E ([] : List (Atoms.Ex String))).Parts.length = 0 ∧
    (@Atoms.newEmptyExpressionOfLength String 0).map (fun r => r.Parts.length) = some 0 ∧
    Atoms.Expression.HeadStr (fun (s : String) => some s)
      (Atoms.NewEmptyExpression : Atoms.Expression String) = none ∧
    Atoms.HeadAssertion (fun (s : String) => some s)
      (.expr (Atoms.NewEmptyExpression : Atoms.Expression String)) "System`List" = none ∧
    Atoms.Expression.PropagateConditionals (fun (s : String) => some s) (fun s => .atom s)
      (fun s => .atom ("System`" ++ s))
      (Atoms.NewEmptyExpression : Atoms.Expression String) = none :=
  ⟨rfl, rfl, rfl, rfl, rfl, rfl⟩

/-- C19 (amended). `needsEval` is set on construction, and no mutation touches it: every
expression returned by `NewExpression`, `E`, `NewHead` or `NewEmptyExpression` has
`needsEval = true`, `correctlyInstantiated = true` and both hash caches 0; and for every
expression, `NeedsEval()` after `AppendEx`, `AppendExArray`, `SetParts` or `Swap` returns what
it returned before the operation, so it returns false after `SetNeedsEval(false)` followed by
any of them (`Swap` returns when both positions exist). -/
theorem needsEval_flags {Atom : Type} (NewSymbol : String → Atoms.Ex Atom)
    (parts newParts es : List (Atoms.Ex Atom)) (head : String)
    (thisExpr : Atoms.Expression Atom) (e : Atoms.Ex Atom) (i j : Int) :
    ((Atoms.NewExpression parts).needsEval = true ∧
      (Atoms.NewExpression parts).correctlyInstantiated = true ∧
      (Atoms.NewExpression parts).EvaledHash = 0 ∧
      (Atoms.NewExpression parts).CachedHash = 0) ∧
    ((Atoms.E parts).needsEval = true ∧ (Atoms.E parts).correctlyInstantiated = true ∧
      (Atoms.E parts).EvaledHash = 0 ∧ (Atoms.E parts).CachedHash = 0) ∧
    ((Atoms.NewHead NewSymbol head).needsEval = true ∧
      (Atoms.NewHead NewSymbol head).correctlyInstantiated = true ∧
      (Atoms.NewHead NewSymbol head).EvaledHash = 0 ∧
      (Atoms.NewHead NewSymbol head).CachedHash = 0) ∧
    ((Atoms.NewEmptyExpression : Atoms.Expression Atom).needsEval = true ∧
      (Atoms.NewEmptyExpression : Atoms.Expression Atom).correctlyInstantiated = true ∧
      (Atoms.NewEmptyExpression : Atoms.Expression Atom).EvaledHash = 0 ∧
      (Atoms.NewEmptyExpression : Atoms.Expression Atom).CachedHash = 0) ∧
    ((thisExpr.AppendEx e).NeedsEval = thisExpr.NeedsEval ∧
      (thisExpr.AppendExArray es).NeedsEval = thisExpr.NeedsEval ∧
      (thisExpr.SetParts newParts).NeedsEval = thisExpr.NeedsEval ∧
      (0 ≤ i + 1 → (i + 1).toNat < thisExpr.Parts.length →
        0 ≤ j + 1 → (j + 1).toNat < thisExpr.Parts.length →
        ∃ r : Atoms.Expression Atom, thisExpr.Swap i j = some r ∧
          r.NeedsEval = thisExpr.NeedsEval)) ∧
    (((thisExpr.SetNeedsEval false).AppendEx e).NeedsEval = false ∧
      ((thisExpr.SetNeedsEval false).AppendExArray es).NeedsEval = false ∧
      ((thisExpr.SetNeedsEval false).SetParts newParts).NeedsEval = false ∧
      (∀ r : Atoms.Expression Atom, (thisExpr.SetNeedsEval false).Swap i j = some r →
        r.NeedsEval = false)) := by
  refine ⟨⟨rfl, rfl, rfl, rfl⟩, ⟨rfl, rfl, rfl, rfl⟩, ⟨rfl, rfl, rfl, rfl⟩,
    ⟨rfl, rfl, rfl, rfl⟩, ⟨rfl, rfl, rfl, ?_⟩, ⟨rfl, rfl, rfl, ?_⟩⟩
  · intro hi0 hi1 hj0 hj1
    obtain ⟨r, hr, -, hne, -⟩ := swap_of_bounds thisExpr i j hi0 hi1 hj0 hj1
    exact ⟨r, hr, hne⟩
  · intro r hr
    exact (swap_fields (thisExpr.SetNeedsEval false) r i j hr).1

/-- The amended claim C19 at `f[x, y]` over string atoms: `Swap(0, 1)` returns and leaves the
flag as it was. -/
theorem needsEval_flags_witness :
    ∃ r : Atoms.Expression String,
      (Atoms.E [.atom "f", .atom "x", .atom "y"]).Swap 0 1 = some r ∧
      r.NeedsEval = (Atoms.E [Atoms.Ex.atom "f", .atom "x", .atom "y"]).NeedsEval :=
  (needsEval_flags (fun s => Atoms.Ex.atom s) [] [] [] "f"
    (Atoms.E [.atom "f", .atom "x", .atom "y"]) (.atom "z") 0 1).2.2.2.2.1.2.2.2
    (by decide) (by decide) (by decide) (by decide)

/-- The claim C19 as stated fails at `f[x]` after `SetNeedsEval(false)`: after `AppendEx(y)`,
`NeedsEval()` returns false. -/
theorem needsEval_flags_counterexample :
    (((Atoms.E [Atoms.Ex.atom "f", .atom "x"]).SetNeedsEval false).AppendEx
      (.atom "y")).NeedsEval = false ∧
    (((Atoms.E [Atoms.Ex.atom "f", .atom "x"]).SetNeedsEval false).AppendEx
      (.atom "y")).Parts = [.atom "f", .atom "x", .atom "y"] :=
  ⟨rfl, rfl⟩

/-- C20. The second scan of `CommutativeReplace` is redundant: for every target list, every
pattern `(p0, p1)` and replacement, with matching a pure predicate, the first scan returns;
whenever it finishes without a replacement, the list is unchanged and the second scan (pick an
element matching `p1`, then look for another matching `p0`) performs no replacement either;
hence the two scans yield exactly what the first scan alone yields, and `CommutativeReplace`
yields exactly what the function with the first scan alone yields, for every pattern list;
with a 2-component pattern, both return once the permutation loop has run its 2 rounds. -/
theorem second_scan_redundant {Ex σ : Type} (fuel : Nat) (isMatchQ : Ex → Ex → σ → Bool)
    (es : σ) (p0 p1 rhs : Ex) (cs lhs_components : List Ex) :
    (∃ r, scanOuter isMatchQ es p0 p1 rhs cs.length 0 cs = some r) ∧
    (∀ c1 : List Ex, scanOuter isMatchQ es p0 p1 rhs cs.length 0 cs = some (false, c1) →
      c1 = cs ∧ scanOuter isMatchQ es p1 p0 rhs c1.length 0 c1 = some (false, c1)) ∧
    replaceTwo isMatchQ es p0 p1 rhs cs = replaceTwoFirstScan isMatchQ es p0 p1 rhs cs ∧
    CommutativeReplace fuel isMatchQ cs lhs_components rhs es
      = CommutativeReplaceFirstScan fuel isMatchQ cs lhs_components rhs es ∧
    (2 ≤ fuel → ∃ out : List Ex,
      CommutativeReplaceFirstScan fuel isMatchQ cs [p0, p1] rhs es
        = some ([[0, 1], [1, 0]], out) ∧
      CommutativeReplace fuel isMatchQ cs [p0, p1] rhs es = some ([[0, 1], [1, 0]], out)) := by
  refine ⟨?_, fun c1 h => scanOuter_second isMatchQ es p0 p1 rhs cs c1 h,
    replaceTwo_eq_firstScan isMatchQ es p0 p1 rhs cs, ?_, ?_⟩
  · rcases scanOuter_cases isMatchQ es p0 p1 rhs cs with ⟨c2, h2⟩ | ⟨h2, -⟩
    · exact ⟨_, h2⟩
    · exact ⟨_, h2⟩
  · unfold CommutativeReplace CommutativeReplaceFirstScan
    match lhs_components with
    | [] => rfl
    | [_] => rfl
    | [q0, q1] => simp only [replaceTwo_eq_firstScan]
    | _ :: _ :: _ :: _ => rfl
  · intro hfuel
    have hout : ∃ out, replaceTwoFirstScan isMatchQ es p0 p1 rhs cs = some out := by
      unfold replaceTwoFirstScan
      rcases scanOuter_cases isMatchQ es p0 p1 rhs cs with ⟨c2, h2⟩ | ⟨h2, -⟩
      · exact ⟨c2, by rw [h2]⟩
      · exact ⟨cs, by rw [h2]⟩
    obtain ⟨out, hout⟩ := hout
    refine ⟨out, ?_, ?_⟩
    · simp only [CommutativeReplaceFirstScan, List.length_cons, List.length_nil, hout]
      rw [permutations_two fuel hfuel]
      rfl
    · simp only [CommutativeReplace, List.length_cons, List.length_nil,
        replaceTwo_eq_firstScan, hout]
      rw [permutations_two fuel hfuel]
      rfl

/-- The claim C20 at the list `[1, 2, 3]` with the pattern `(5, 2)`, matching by equality: the
first scan finds no element matching 5 and returns the list, and so does the second scan,
which picks 2 and finds no partner matching 5. -/
theorem second_scan_redundant_witness :
    scanOuter (fun (a p : Nat) (_ : Unit) => a == p) () 5 2 9 [1, 2, 3].length 0 [1, 2, 3]
      = some (false, [1, 2, 3]) ∧
    scanOuter (fun (a p : Nat) (_ : Unit) => a == p) () 2 5 9 [1, 2, 3].length 0 [1, 2, 3]
      = some (false, [1, 2, 3]) :=
  ⟨rfl, ((@second_scan_redundant Nat Unit 2 (fun (a p : Nat) (_ : Unit) => a == p) () 5 2 9
    [1, 2, 3] [5, 2]).2.1 [1, 2, 3] rfl).2⟩

end Cas
